import Mathlib

/-!
Verification of the in-memory key-value server: FNV hash, the chained hash
table with progressive rehashing (`hashtable.cpp`), the TLV command
dispatcher (`server.cpp`), the order-statistic AVL tree (`avl.cpp`), and the
ordered set (`zset.cpp`).  C byte strings are modelled as `List Nat`
(byte values), 64-bit unsigned arithmetic as `Nat` reduced mod `2^64`,
and intrusive pointer structures as explicit functional data with node
identities where pointer identity matters.
-/

set_option maxHeartbeats 1000000

namespace KV

/-- Byte strings (`std::string` / `uint8_t` spans) as lists of byte values. -/
abbrev ByteStr := List Nat

/-- `FNV_OFFSET` exactly as written in `str_hash` (`hashtable.h`). -/
def FNV_OFFSET : Nat := 1469598103934665603

/-- `FNV_PRIME` exactly as written in `str_hash` (`hashtable.h`). -/
def FNV_PRIME : Nat := 1099511628211

/-- One step of the `str_hash` loop: `h ^= p[i]; h *= FNV_PRIME;`
with 64-bit wraparound. -/
def str_hash_step (h b : Nat) : Nat := ((h ^^^ b) * FNV_PRIME) % 2 ^ 64

/-- `str_hash` from `hashtable.h`: fold the step over the bytes starting
from the constant the source writes. -/
def str_hash (p : ByteStr) : Nat := p.foldl str_hash_step FNV_OFFSET

/-- Modelled from the spec: the reference FNV-1a 64-bit hash, offset basis
`0xCBF29CE484222325`, prime `0x100000001B3`, one XOR-then-multiply step per
byte. -/
def fnv1a64 (p : ByteStr) : Nat :=
  p.foldl (fun h b => ((h ^^^ b) * 0x100000001B3) % 2 ^ 64) 0xCBF29CE484222325

/-! ## Hash table with progressive rehashing (`hashtable.h` / `hashtable.cpp`)

An intrusive `HNode` carries its precomputed `hcode` plus the payload of the
enclosing record (`container_of`).  A chain of intrusive nodes is a `List`,
a slot array is a `List` of chains, and a null `tab` pointer is `none`.
The equality callback `h_eq_fn` compares a stored node with a probe node of
possibly different enclosing type, so it is a parameter `eq`. -/

variable {α κ : Type}

/-- `HNode` with its `hcode` field and the payload of the record it is
embedded in. -/
structure HNode (α : Type) where
  hcode : Nat
  data  : α
deriving DecidableEq

/-- `HTab`: slot array (`none` = null pointer), `mask`, `size`. -/
structure HTab (α : Type) where
  tab  : Option (List (List (HNode α)))
  mask : Nat
  size : Nat

/-- `k_max_load_factor` from `hashtable.cpp`. -/
def k_max_load_factor : Nat := 8

/-- `k_rehashing_work` from `hashtable.cpp`. -/
def k_rehashing_work : Nat := 128

/-- `h_init`: a fresh zeroed slot array of `n` slots, `mask = n - 1`. -/
def h_init (n : Nat) : HTab α := ⟨some (List.replicate n []), n - 1, 0⟩

/-- `h_insert`: prepend the node to the chain of slot `hcode & mask` and
increment `size`. -/
def h_insert (ht : HTab α) (node : HNode α) : HTab α :=
  match ht.tab with
  | none => ht
  | some bs =>
    let pos := node.hcode &&& ht.mask
    ⟨some (bs.set pos (node :: bs.getD pos [])), ht.mask, ht.size + 1⟩

/-- The chain walk of `h_lookup`: position of the first node whose `hcode`
matches and for which `eq` accepts the probe (`none` if no match).  The
returned index models the `HNode**` indirect cursor within the chain. -/
def chain_find (eq : HNode α → HNode κ → Bool) (key : HNode κ) :
    List (HNode α) → Option Nat
  | [] => none
  | c :: rest =>
    if c.hcode == key.hcode && eq c key then some 0
    else (chain_find eq key rest).map (· + 1)

/-- `h_lookup`: null table gives null; otherwise walk the chain of slot
`hcode & mask`.  The cursor is the pair (slot, index in chain). -/
def h_lookup (ht : HTab α) (key : HNode κ) (eq : HNode α → HNode κ → Bool) :
    Option (Nat × Nat) :=
  match ht.tab with
  | none => none
  | some bs =>
    let pos := key.hcode &&& ht.mask
    (chain_find eq key (bs.getD pos [])).map (fun j => (pos, j))

/-- Dereference a cursor: the node the incoming pointer points to. -/
def cursor_get (ht : HTab α) (cur : Nat × Nat) : Option (HNode α) :=
  match ht.tab with
  | none => none
  | some bs => (bs.getD cur.1 []).get? cur.2

/-- `h_detach`: unlink the node addressed by the cursor, decrement `size`,
and return the node. -/
def h_detach (ht : HTab α) (cur : Nat × Nat) : HTab α × Option (HNode α) :=
  match ht.tab with
  | none => (ht, none)
  | some bs =>
    let chain := bs.getD cur.1 []
    match chain.get? cur.2 with
    | none => (ht, none)
    | some node =>
      (⟨some (bs.set cur.1 (chain.eraseIdx cur.2)), ht.mask, ht.size - 1⟩,
        some node)

/-- `HMap`: active table `newer`, draining table `older`, next slot of
`older` to migrate. -/
structure HMap (α : Type) where
  newer : HTab α
  older : HTab α
  migrate_pos : Nat

/-- The `while` loop of `hm_help_rehashing`: move up to `k_rehashing_work`
nodes from `older` (slot by slot from `migrate_pos`) into `newer`.  Returns
the two tables, the final `migrate_pos` and the number of nodes moved. -/
def hm_rehash_loop (newer older : HTab α) (mpos moved : Nat) :
    HTab α × HTab α × Nat × Nat :=
  if hguard : moved < k_rehashing_work ∧ 0 < older.size then
    if hpos : older.mask < mpos then (newer, older, mpos, moved)
    else
      match older.tab with
      | none => (newer, older, mpos, moved)
      | some bs =>
        match bs.getD mpos [] with
        | [] => hm_rehash_loop newer older (mpos + 1) moved
        | node :: rest =>
          hm_rehash_loop (h_insert newer node)
            ⟨some (bs.set mpos rest), older.mask, older.size - 1⟩ mpos (moved + 1)
  else (newer, older, mpos, moved)
termination_by (k_rehashing_work - moved, older.mask + 1 - mpos)
decreasing_by
  · apply Prod.Lex.right
    omega
  · apply Prod.Lex.left
    omega

/-- `hm_help_rehashing`: run the loop when `older` exists; when `older`
drains, free it.  The second component is the number of entries migrated. -/
def hm_help_rehashing (m : HMap α) : HMap α × Nat :=
  match m.older.tab with
  | none => (m, 0)
  | some _ =>
    let r := hm_rehash_loop m.newer m.older m.migrate_pos 0
    if r.2.1.size == 0 then
      ({ newer := r.1, older := ⟨none, 0, 0⟩, migrate_pos := r.2.2.1 }, r.2.2.2)
    else
      ({ newer := r.1, older := r.2.1, migrate_pos := r.2.2.1 }, r.2.2.2)

/-- `hm_trigger_rehashing`: `newer` becomes `older`; a doubled fresh table
becomes `newer`; migration restarts at slot 0. -/
def hm_trigger_rehashing (m : HMap α) : HMap α :=
  { newer := h_init ((m.newer.mask + 1) * 2), older := m.newer, migrate_pos := 0 }

/-- `hm_init`: a 4-slot `newer`, no `older`. -/
def hm_init : HMap α := { newer := h_init 4, older := ⟨none, 0, 0⟩, migrate_pos := 0 }

/-- `hm_lookup`: assist migration, then consult `newer` first and `older`
second.  Returns the new map state, the found node, and the number of
entries migrated by the assist. -/
def hm_lookup (m : HMap α) (key : HNode κ) (eq : HNode α → HNode κ → Bool) :
    HMap α × Option (HNode α) × Nat :=
  let r := hm_help_rehashing m
  match h_lookup r.1.newer key eq with
  | some cur => (r.1, cursor_get r.1.newer cur, r.2)
  | none =>
    match h_lookup r.1.older key eq with
    | some cur => (r.1, cursor_get r.1.older cur, r.2)
    | none => (r.1, none, r.2)

/-- `hm_insert`: (re)initialise `newer` if null, prepend into `newer`,
trigger a resize at load factor `k_max_load_factor` when not already
resizing, then assist migration. -/
def hm_insert (m : HMap α) (node : HNode α) : HMap α × Nat :=
  let m0 : HMap α :=
    match m.newer.tab with
    | none => { m with newer := h_init 4 }
    | some _ => m
  let m1 : HMap α := { m0 with newer := h_insert m0.newer node }
  let m2 : HMap α :=
    match m1.older.tab with
    | none =>
      if (m1.newer.mask + 1) * k_max_load_factor ≤ m1.newer.size then
        hm_trigger_rehashing m1
      else m1
    | some _ => m1
  hm_help_rehashing m2

/-- `hm_delete`: assist migration, then detach from `newer` if found there,
else from `older`. -/
def hm_delete (m : HMap α) (key : HNode κ) (eq : HNode α → HNode κ → Bool) :
    HMap α × Option (HNode α) × Nat :=
  let r := hm_help_rehashing m
  match h_lookup r.1.newer key eq with
  | some cur =>
    let d := h_detach r.1.newer cur
    ({ r.1 with newer := d.1 }, d.2, r.2)
  | none =>
    match h_lookup r.1.older key eq with
    | some cur =>
      let d := h_detach r.1.older cur
      ({ r.1 with older := d.1 }, d.2, r.2)
    | none => (r.1, none, r.2)

/-! ## Hash table well-formedness and node inventory -/

/-- All nodes stored in a table, chain by chain. -/
def htNodes (ht : HTab α) : List (HNode α) := (ht.tab.getD []).flatten

/-- All nodes stored in a map: `newer`'s then `older`'s. -/
def hmNodes (m : HMap α) : List (HNode α) := htNodes m.newer ++ htNodes m.older

/-- Well-formedness of one table: a null table is empty; a live table has
`mask + 1` slots, every node sits in the slot selected by its `hcode`, and
`size` counts the chained nodes. -/
def HTabWF (ht : HTab α) : Prop :=
  match ht.tab with
  | none => ht.size = 0
  | some bs =>
    bs.length = ht.mask + 1 ∧
    (∀ i, i < bs.length → ∀ n ∈ bs.getD i [], n.hcode &&& ht.mask = i) ∧
    ht.size = (bs.map List.length).sum

/-- Well-formedness of the progressive map: both tables well formed and the
active table allocated. -/
def HMapWF (m : HMap α) : Prop :=
  HTabWF m.newer ∧ HTabWF m.older ∧ m.newer.tab ≠ none

/-! ## Server command layer (`server.cpp`)

The database stores `Entry` records (key, value) behind their intrusive
`HNode`; lookups probe with a `LookupKey`.  TLV replies are modelled as the
exact byte lists the `out_*` helpers append. -/

/-- Payload of `Entry` (its intrusive `HNode` is the enclosing
`HNode EntryData`). -/
structure EntryData where
  key : ByteStr
  val : ByteStr
deriving DecidableEq

/-- Payload of `LookupKey`. -/
structure LookupKeyData where
  key : ByteStr
deriving DecidableEq

/-- `key_eq` from `server.cpp`: byte equality of the stored entry's key and
the probe's key. -/
def key_eq (lhs : HNode EntryData) (rhs : HNode LookupKeyData) : Bool :=
  lhs.data.key == rhs.data.key

/-- The probe the commands build: `hcode = str_hash(key)`. -/
def mkLookupKey (k : ByteStr) : HNode LookupKeyData := ⟨str_hash k, ⟨k⟩⟩

/-- A fresh `Entry` as `do_set` allocates it. -/
def mkEntry (k v : ByteStr) : HNode EntryData := ⟨str_hash k, ⟨k, v⟩⟩

/-- The keys currently stored, in table order. -/
def hmKeys (m : HMap EntryData) : List ByteStr :=
  (hmNodes m).map (fun n => n.data.key)

/-- Keyed well-formedness of the database: structural `HMapWF`, cached
hashes agree with the keys, keys pairwise distinct. -/
def KeyedWF (m : HMap EntryData) : Prop :=
  HMapWF m ∧ (∀ n ∈ hmNodes m, n.hcode = str_hash n.data.key) ∧
    (hmKeys m).Nodup

/-- In-place value overwrite through the found node's pointer
(`e->val.swap(cmd[2])`): the unique stored copy of `n` gets value `v`,
chains and positions untouched. -/
def hm_set_val (m : HMap EntryData) (n : HNode EntryData) (v : ByteStr) :
    HMap EntryData :=
  let f : HNode EntryData → HNode EntryData := fun x =>
    if x = n then ⟨x.hcode, ⟨x.data.key, v⟩⟩ else x
  let g : HTab EntryData → HTab EntryData := fun ht =>
    ⟨ht.tab.map (fun bs => bs.map (fun c => c.map f)), ht.mask, ht.size⟩
  ⟨g m.newer, g m.older, m.migrate_pos⟩

/-! TLV serialisation (`server.cpp`, 9.3) -/

def TAG_NIL : Nat := 0
def TAG_ERR : Nat := 1
def TAG_STR : Nat := 2
def TAG_INT : Nat := 3
def TAG_DBL : Nat := 4
def TAG_ARR : Nat := 5

/-- `k_max_msg` (32 MB). -/
def k_max_msg : Nat := 32 <<< 20

/-- `k_max_args`. -/
def k_max_args : Nat := 200 * 1000

/-- Little-endian bytes of a `u32` (as `memcpy` of the 32-bit value). -/
def u32le (v : Nat) : List Nat :=
  [v % 256, v / 256 % 256, v / 65536 % 256, v / 16777216 % 256]

/-- Little-endian bytes of an `int64` (two's complement). -/
def i64le (v : Int) : List Nat :=
  let u := (v % (2 ^ 64 : Int)).toNat
  [u % 256, u / 2 ^ 8 % 256, u / 2 ^ 16 % 256, u / 2 ^ 24 % 256,
    u / 2 ^ 32 % 256, u / 2 ^ 40 % 256, u / 2 ^ 48 % 256, u / 2 ^ 56 % 256]

/-- `out_nil`. -/
def out_nil : List Nat := [TAG_NIL]

/-- `out_str`. -/
def out_str (s : ByteStr) : List Nat := TAG_STR :: u32le s.length ++ s

/-- `out_int`. -/
def out_int (v : Int) : List Nat := TAG_INT :: i64le v

/-- `out_arr` (header only, as in the source). -/
def out_arr (n : Nat) : List Nat := TAG_ARR :: u32le n

/-- `out_err_msg`. -/
def out_err_msg (m : ByteStr) : List Nat := TAG_ERR :: u32le m.length ++ m

/-- Bytes of a string literal used by the dispatcher. -/
def strBytes (s : String) : ByteStr := s.data.map Char.toNat

/-! Command logic (`do_get`, `do_set`, `do_del`, `do_keys`,
`do_request`).  Each returns the new database plus the bytes appended to
the output buffer. -/

def do_get (cmd : List ByteStr) (db : HMap EntryData) :
    HMap EntryData × List Nat :=
  if cmd.length ≠ 2 then (db, out_nil) else
  let k := cmd.getD 1 []
  let r := hm_lookup db (mkLookupKey k) key_eq
  match r.2.1 with
  | some n => (r.1, out_str n.data.val)
  | none => (r.1, out_nil)

def do_set (cmd : List ByteStr) (db : HMap EntryData) :
    HMap EntryData × List Nat :=
  if cmd.length ≠ 3 then (db, out_nil) else
  let k := cmd.getD 1 []
  let v := cmd.getD 2 []
  let r := hm_lookup db (mkLookupKey k) key_eq
  match r.2.1 with
  | some n => (hm_set_val r.1 n v, out_nil)
  | none => ((hm_insert r.1 (mkEntry k v)).1, out_nil)

def do_del (cmd : List ByteStr) (db : HMap EntryData) :
    HMap EntryData × List Nat :=
  if cmd.length ≠ 2 then (db, out_int 0) else
  let k := cmd.getD 1 []
  let r := hm_delete db (mkLookupKey k) key_eq
  match r.2.1 with
  | some _ => (r.1, out_int 1)
  | none => (r.1, out_int 0)

/-- `ht_total_size`. -/
def ht_total_size (m : HMap EntryData) : Nat :=
  m.newer.size + (match m.older.tab with | some _ => m.older.size | none => 0)

def do_keys (_cmd : List ByteStr) (db : HMap EntryData) :
    HMap EntryData × List Nat :=
  (db, out_arr (ht_total_size db) ++
    ((htNodes db.newer ++ htNodes db.older).map
      (fun n => out_str n.data.key)).flatten)

def do_request (cmd : List ByteStr) (db : HMap EntryData) :
    HMap EntryData × List Nat :=
  match cmd with
  | [] => (db, out_nil)
  | op :: _ =>
    if op == strBytes "get" then do_get cmd db
    else if op == strBytes "set" then do_set cmd db
    else if op == strBytes "del" then do_del cmd db
    else if op == strBytes "keys" then do_keys cmd db
    else (db, out_err_msg (strBytes "ERR bad command"))

/-! Request parsing and the per-connection request step. -/

/-- `read_u32`: little-endian u32 from the head of the buffer. -/
def read_u32 : List Nat → Option (Nat × List Nat)
  | b0 :: b1 :: b2 :: b3 :: rest =>
    some (b0 + 256 * b1 + 65536 * b2 + 16777216 * b3, rest)
  | _ => none

/-- `read_str`: take `n` bytes if available. -/
def read_str (cur : List Nat) (n : Nat) : Option (ByteStr × List Nat) :=
  if n ≤ cur.length then some (cur.take n, cur.drop n) else none

/-- The `while (out.size() < nstr)` loop of `parse_req`. -/
def parse_req_loop (cur : List Nat) (cnt : Nat) (acc : List ByteStr) :
    Option (List ByteStr × List Nat) :=
  match cnt with
  | 0 => some (acc.reverse, cur)
  | cnt + 1 =>
    match read_u32 cur with
    | none => none
    | some (len, cur1) =>
      match read_str cur1 len with
      | none => none
      | some (str, cur2) => parse_req_loop cur2 cnt (str :: acc)

/-- `parse_req`: `nstr` then `nstr` length-prefixed strings, nothing
trailing. -/
def parse_req (data : List Nat) : Option (List ByteStr) :=
  match read_u32 data with
  | none => none
  | some (nstr, cur) =>
    if k_max_args < nstr then none
    else
      match parse_req_loop cur nstr [] with
      | none => none
      | some (out, rest) => if rest.isEmpty then some out else none

/-- Per-socket connection state (buffers and flags only). -/
structure Conn where
  incoming : List Nat
  outgoing : List Nat
  want_read : Bool
  want_write : Bool
  want_close : Bool

/-- `response_begin` / `response_end` combined: frame a response body with
its u32 length, replacing an oversized body by the small error message. -/
def response_frame (body : List Nat) : List Nat :=
  if k_max_msg < body.length then
    u32le (out_err_msg (strBytes "response too big")).length ++
      out_err_msg (strBytes "response too big")
  else u32le body.length ++ body

/-- `try_one_request`: returns whether a request was consumed, the new
connection state, and the new database. -/
def try_one_request (conn : Conn) (db : HMap EntryData) :
    Bool × Conn × HMap EntryData :=
  if conn.incoming.length < 4 then (false, conn, db) else
  match read_u32 conn.incoming with
  | none => (false, conn, db)
  | some (len, rest) =>
    if k_max_msg < len then (false, { conn with want_close := true }, db)
    else if conn.incoming.length < 4 + len then (false, conn, db)
    else
      match parse_req (rest.take len) with
      | none => (false, { conn with want_close := true }, db)
      | some cmd =>
        let r := do_request cmd db
        (true,
          { conn with
            outgoing := conn.outgoing ++ response_frame r.2,
            incoming := conn.incoming.drop (4 + len) },
          r.1)

/-! Operation sequences over the primary map, for the progressive-rehash
claims. -/

/-- One map-level operation as the commands drive them: `ins` is the
fresh-key `hm_insert` of `do_set`'s miss path, `del` is `do_del`'s
`hm_delete`, `look` is `do_get`'s `hm_lookup`. -/
inductive DbOp where
  | ins (k v : ByteStr)
  | del (k : ByteStr)
  | look (k : ByteStr)

def applyOp (m : HMap EntryData) : DbOp → HMap EntryData
  | .ins k v => (hm_insert m (mkEntry k v)).1
  | .del k => (hm_delete m (mkLookupKey k) key_eq).1
  | .look k => (hm_lookup m (mkLookupKey k) key_eq).1

def applyOps (m : HMap EntryData) (ops : List DbOp) : HMap EntryData :=
  ops.foldl applyOp m

/-- Caller obligation the commands maintain: inserted keys are fresh. -/
def OpOk (m : HMap EntryData) : DbOp → Prop
  | .ins k _ => k ∉ hmKeys m
  | .del _ => True
  | .look _ => True

def OpsOk (m : HMap EntryData) : List DbOp → Prop
  | [] => True
  | op :: rest => OpOk m op ∧ OpsOk (applyOp m op) rest

/-- Whether an operation deletes key `k`. -/
def opDeletes (k : ByteStr) : DbOp → Prop
  | .del k2 => k = k2
  | _ => False

/-- Run a list of parsed commands through the dispatcher, keeping the
database. -/
def runCmds (db : HMap EntryData) (cs : List (List ByteStr)) :
    HMap EntryData :=
  cs.foldl (fun d c => (do_request c d).1) db

/-- The stored entry carrying key `k`, if any (the logical view of the
database; under `KeyedWF` there is at most one). -/
def entryFor (db : HMap EntryData) (k : ByteStr) : Option (HNode EntryData) :=
  (hmNodes db).find? (fun n => n.data.key == k)

/-- The logical value of key `k`. -/
def entryVal (db : HMap EntryData) (k : ByteStr) : Option ByteStr :=
  (entryFor db k).map (fun n => n.data.val)

/-! ## Order-statistic AVL tree (`avl.h` with `cnt` / `avl.cpp`)

The intrusive pointer tree is embedded as an inductive tree whose nodes
store the `height` and `cnt` fields as data (so stale values are
representable, exactly as in memory) plus a node identity `i` standing for
the node's address.  Upward `parent` traversals are embedded as zipper
contexts: a `Frame` records everything the parent node holds except the
hole. -/

inductive AvlT (α : Type) where
  | nil
  | node (l : AvlT α) (i : Nat) (k : α) (r : AvlT α) (h : Nat) (c : Nat)
deriving DecidableEq

inductive Dir where
  | left
  | right
deriving DecidableEq

/-- One ancestor on the path from a node to the root: which side the hole
is on, the ancestor's id, key, other child, and stored `height`/`cnt`. -/
structure Frame (α : Type) where
  d : Dir
  i : Nat
  k : α
  sib : AvlT α
  h : Nat
  c : Nat

/-- Rebuild the parent node from a frame and the subtree in the hole. -/
def recomb (f : Frame α) (t : AvlT α) : AvlT α :=
  match f.d with
  | .left => .node t f.i f.k f.sib f.h f.c
  | .right => .node f.sib f.i f.k t f.h f.c

/-- `avl_height` (0 for null). -/
def avl_height : AvlT α → Nat
  | .nil => 0
  | .node _ _ _ _ h _ => h

/-- `avl_cnt` (0 for null). -/
def avl_cnt : AvlT α → Nat
  | .nil => 0
  | .node _ _ _ _ _ c => c

/-- The left child (null-safe pointer read). -/
def avl_left : AvlT α → AvlT α
  | .nil => .nil
  | .node l _ _ _ _ _ => l

/-- The right child. -/
def avl_right : AvlT α → AvlT α
  | .nil => .nil
  | .node _ _ _ r _ _ => r

/-- `avl_update`: recompute the stored `height` and `cnt` from the
children. -/
def avl_update : AvlT α → AvlT α
  | .nil => .nil
  | .node l i k r _ _ =>
    .node l i k r (1 + max (avl_height l) (avl_height r))
      (1 + (avl_cnt l + avl_cnt r))

/-- `avl_rot_left`: returns the subtree unchanged when the right child is
null, as the source does. -/
def avl_rot_left : AvlT α → AvlT α
  | .nil => .nil
  | .node l i k r h c =>
    match r with
    | .nil => .node l i k r h c
    | .node rl ri rk rr rh rc =>
      avl_update (.node (avl_update (.node l i k rl h c)) ri rk rr rh rc)

/-- `avl_rot_right`. -/
def avl_rot_right : AvlT α → AvlT α
  | .nil => .nil
  | .node l i k r h c =>
    match l with
    | .nil => .node l i k r h c
    | .node ll li lk lr lh lc =>
      avl_update (.node ll li lk (avl_update (.node lr i k r h c)) lh lc)

/-- `avl_fix_left`: when the left-right grandchild is taller, first rotate
the left child left, then rotate right. -/
def avl_fix_left : AvlT α → AvlT α
  | .nil => .nil
  | .node l i k r h c =>
    let l2 := if avl_height (avl_left l) < avl_height (avl_right l) then
        avl_rot_left l
      else l
    avl_rot_right (.node l2 i k r h c)

/-- `avl_fix_right`. -/
def avl_fix_right : AvlT α → AvlT α
  | .nil => .nil
  | .node l i k r h c =>
    let r2 := if avl_height (avl_right r) < avl_height (avl_left r) then
        avl_rot_right r
      else r
    avl_rot_left (.node l i k r2 h c)

/-- One iteration of the `avl_fix` loop at the current node: `avl_update`
then rebalance if one side is two taller. -/
def avl_fix_node (t : AvlT α) : AvlT α :=
  match avl_update t with
  | .nil => .nil
  | .node l i k r h c =>
    if avl_height l = avl_height r + 2 then avl_fix_left (.node l i k r h c)
    else if avl_height r = avl_height l + 2 then
      avl_fix_right (.node l i k r h c)
    else .node l i k r h c

/-- `avl_fix`: process the current node, relink it into its parent, and
continue to the root; returns the new root. -/
def avl_fix (t : AvlT α) : List (Frame α) → AvlT α
  | [] => avl_fix_node t
  | f :: rest => avl_fix (recomb f (avl_fix_node t)) rest

/-- The descent loop of `avl_search_and_insert`, recording the path. -/
def avl_insert_go (less : α → α → Bool) (i : Nat) (k : α) :
    AvlT α → List (Frame α) → AvlT α
  | .nil, ctx => avl_fix (.node .nil i k .nil 1 1) ctx
  | .node l ni nk r h c, ctx =>
    if less k nk then
      avl_insert_go less i k l (⟨.left, ni, nk, r, h, c⟩ :: ctx)
    else
      avl_insert_go less i k r (⟨.right, ni, nk, l, h, c⟩ :: ctx)

/-- `avl_search_and_insert` (the new node is `avl_init`-ed: height 1,
cnt 1). -/
def avl_search_and_insert (less : α → α → Bool) (i : Nat) (k : α)
    (root : AvlT α) : AvlT α :=
  avl_insert_go less i k root []

/-- Navigate from the root along a path, building the context of frames
(innermost first); the functional form of following child pointers. -/
def zipperTo : AvlT α → List Dir → List (Frame α) →
    Option (AvlT α × List (Frame α))
  | t, [], ctx => some (t, ctx)
  | .nil, _ :: _, _ => none
  | .node l i k r h c, d :: p, ctx =>
    match d with
    | .left => zipperTo l p (⟨.left, i, k, r, h, c⟩ :: ctx)
    | .right => zipperTo r p (⟨.right, i, k, l, h, c⟩ :: ctx)

/-- Rebuild the whole tree from a context and the subtree in the hole. -/
def plug : List (Frame α) → AvlT α → AvlT α
  | [], t => t
  | f :: rest, t => plug rest (recomb f t)

/-- `avl_del_easy`: splice the single child into the node's place and fix
up from the parent; at the root the child (if any) is updated and
returned. -/
def avl_del_easy (t : AvlT α) (ctx : List (Frame α)) : AvlT α :=
  let child := match t with
    | .nil => .nil
    | .node l _ _ r _ _ => match l with | .nil => r | _ => l
  match ctx with
  | [] => avl_update child
  | f :: rest => avl_fix (recomb f child) rest

/-- Length of the left spine (`while (s->left) s = s->left`). -/
def leftDepth : AvlT α → Nat
  | .nil => 0
  | .node l _ _ _ _ _ =>
    match l with
    | .nil => 0
    | .node l2 i2 k2 r2 h2 c2 => leftDepth (.node l2 i2 k2 r2 h2 c2) + 1

/-- Find the path to the node with identity `i` (the functional analogue
of following the node's pointer). -/
def findId (i : Nat) : AvlT α → Option (List Dir)
  | .nil => none
  | .node l ni _ r _ _ =>
    if ni = i then some []
    else
      match findId i l with
      | some p => some (.left :: p)
      | none => (findId i r).map (fun p => .right :: p)

/-- `avl_del` of the node at path `p` (its pointer address): easy case
splices the single child; hard case detaches the in-order successor with
`avl_del_easy`, then moves it into the victim's current position (found by
its identity, as the pointer still refers to it) and fixes up from
there. -/
def avl_del (t : AvlT α) (p : List Dir) : AvlT α :=
  match zipperTo t p [] with
  | none => t
  | some (sub, ctx) =>
    match sub with
    | .nil => t
    | .node l i k r h c =>
      match l, r with
      | .nil, _ => avl_del_easy (.node l i k r h c) ctx
      | .node ll li lk lr lh lc, .nil =>
        avl_del_easy (.node (.node ll li lk lr lh lc) i k .nil h c) ctx
      | .node ll li lk lr lh lc, .node rl ri rk rr rh rc =>
        let sp := p ++ .right :: List.replicate
          (leftDepth (.node rl ri rk rr rh rc)) .left
        match zipperTo t sp [] with
        | none => t
        | some (s, sctx) =>
          let t1 := avl_del_easy s sctx
          match findId i t1 with
          | none => t1
          | some p1 =>
            match zipperTo t1 p1 [] with
            | none => t1
            | some (nsub, ctx1) =>
              match nsub, s with
              | .node l1 _ _ r1 _ _, .node _ si sk _ sh sc =>
                avl_fix (avl_update (.node l1 si sk r1 sh sc)) ctx1
              | _, _ => t1

/-- `avl_rank`'s upward walk: add `cnt(parent->left) + 1` whenever the
current node is its parent's right child. -/
def avl_rank_go (r : Int) : List (Frame α) → Int
  | [] => r
  | f :: rest =>
    match f.d with
    | .right => avl_rank_go (r + (avl_cnt f.sib + 1 : Nat)) rest
    | .left => avl_rank_go r rest

/-- `avl_rank` of the node at path `p` (−1 for an invalid pointer, as the
source returns −1 for null). -/
def avl_rank (t : AvlT α) (p : List Dir) : Int :=
  match zipperTo t p [] with
  | none => -1
  | some (sub, ctx) => avl_rank_go (avl_cnt (avl_left sub) : Int) ctx

/-- The root-relative path of a context. -/
def ctxPath (ctx : List (Frame α)) : List Dir :=
  (ctx.map (fun f => f.d)).reverse

/-- The loop of `avl_offset`: `pos` is the rank offset of the current node
from the starting node; descend towards the target when it lies in the
current subtree, otherwise climb to the parent; null parent means out of
range.  The loop terminates intrinsically; `fuel` bounds the iteration
count and is chosen large enough that it never runs out on well-formed
trees. -/
def avl_offset_go (fuel : Nat) (sub : AvlT α) (ctx : List (Frame α))
    (pos target : Int) : Option (AvlT α × List (Frame α)) :=
  match fuel with
  | 0 => none
  | fuel + 1 =>
    if pos = target then some (sub, ctx)
    else
      match sub with
      | .nil => none
      | .node l i k r h c =>
        if pos < target ∧ target ≤ pos + (avl_cnt r : Int) then
          avl_offset_go fuel r (⟨.right, i, k, l, h, c⟩ :: ctx)
            (pos + (avl_cnt (avl_left r) : Int) + 1) target
        else if target < pos ∧ pos - (avl_cnt l : Int) ≤ target then
          avl_offset_go fuel l (⟨.left, i, k, r, h, c⟩ :: ctx)
            (pos - ((avl_cnt (avl_right l) : Int) + 1)) target
        else
          match ctx with
          | [] => none
          | f :: rest =>
            match f.d with
            | .right =>
              avl_offset_go fuel (recomb f (.node l i k r h c)) rest
                (pos - ((avl_cnt l : Int) + 1)) target
            | .left =>
              avl_offset_go fuel (recomb f (.node l i k r h c)) rest
                (pos + (avl_cnt r : Int) + 1) target

/-- `avl_offset` from the node at path `p` by `off` positions; returns the
path of the reached node or `none` when out of range. -/
def avl_offset (t : AvlT α) (p : List Dir) (off : Int) : Option (List Dir) :=
  match zipperTo t p [] with
  | none => none
  | some (sub, ctx) =>
    match avl_offset_go (2 * avl_cnt t + 2) sub ctx 0 off with
    | none => none
    | some (_, ctx2) => some (ctxPath ctx2)

/-! AVL well-formedness predicates. -/

/-- Correct stored heights. -/
def HtOk : AvlT α → Prop
  | .nil => True
  | .node l _ _ r h _ =>
    h = 1 + max (avl_height l) (avl_height r) ∧ HtOk l ∧ HtOk r

/-- Correct stored subtree counts. -/
def CntOk : AvlT α → Prop
  | .nil => True
  | .node l _ _ r _ c =>
    c = 1 + (avl_cnt l + avl_cnt r) ∧ CntOk l ∧ CntOk r

/-- The AVL balance property. -/
def BalOk : AvlT α → Prop
  | .nil => True
  | .node l _ _ r _ _ =>
    (avl_height l ≤ avl_height r + 1 ∧ avl_height r ≤ avl_height l + 1) ∧
      BalOk l ∧ BalOk r

/-- Heights, counts and balance together. -/
def HCB (t : AvlT α) : Prop := HtOk t ∧ CntOk t ∧ BalOk t

/-- In-order key sequence. -/
def inorderKeys : AvlT α → List α
  | .nil => []
  | .node l _ k r _ _ => inorderKeys l ++ k :: inorderKeys r

/-- In-order identity sequence. -/
def inorderIds : AvlT α → List Nat
  | .nil => []
  | .node l i _ r _ _ => inorderIds l ++ i :: inorderIds r

/-- Strictly increasing under the comparator. -/
def SortedLt (less : α → α → Bool) (xs : List α) : Prop :=
  List.Pairwise (fun a b => less a b = true) xs

/-- All the invariants of the claim. -/
def WFavl (less : α → α → Bool) (t : AvlT α) : Prop :=
  HCB t ∧ SortedLt less (inorderKeys t) ∧ (inorderIds t).Nodup

/-! The pointer structure generated by a tree: nodes are addressed by their
root paths, and the parent/child pointers are read off the structure. -/

/-- The subtree at a path. -/
def subtreeAt : AvlT α → List Dir → Option (AvlT α)
  | t, [] => some t
  | .nil, _ :: _ => none
  | .node l _ _ _ _ _, .left :: p => subtreeAt l p
  | .node _ _ _ r _ _, .right :: p => subtreeAt r p

/-- The pointer fields of the node at address `p`. -/
structure AvlPtrRec where
  parent : Option (List Dir)
  left : Option (List Dir)
  right : Option (List Dir)

/-- Read the three pointers of the node at `p` (null pointers are
`none`). -/
def ptrAt (t : AvlT α) (p : List Dir) : Option AvlPtrRec :=
  match subtreeAt t p with
  | some (.node l _ _ r _ _) =>
    some ⟨(match p with | [] => none | _ :: _ => some p.dropLast),
      (match l with | .nil => none | .node _ _ _ _ _ _ => some (p ++ [Dir.left])),
      (match r with | .nil => none | .node _ _ _ _ _ _ => some (p ++ [Dir.right]))⟩
  | _ => none

/-- Bidirectional parent links: every child's parent pointer points back to
its parent, and the root's parent is null. -/
def ParentLinksOk (t : AvlT α) : Prop :=
  (∀ p r1, ptrAt t p = some r1 →
    (∀ q, r1.left = some q → ∃ r2, ptrAt t q = some r2 ∧ r2.parent = some p) ∧
    (∀ q, r1.right = some q → ∃ r2, ptrAt t q = some r2 ∧ r2.parent = some p)) ∧
  (∀ r1, ptrAt t [] = some r1 → r1.parent = none)

/-- In-order (identity, key) pairs of a tree. -/
def inorderP : AvlT α → List (Nat × α)
  | .nil => []
  | .node l i k r _ _ => inorderP l ++ (i, k) :: inorderP r

/-- The (identity, key) pairs lying to the left of the hole of a
context. -/
def ctxLP : List (Frame α) → List (Nat × α)
  | [] => []
  | f :: rest =>
    match f.d with
    | .left => ctxLP rest
    | .right => ctxLP rest ++ (inorderP f.sib ++ [(f.i, f.k)])

/-- The (identity, key) pairs lying to the right of the hole of a
context. -/
def ctxRP : List (Frame α) → List (Nat × α)
  | [] => []
  | f :: rest =>
    match f.d with
    | .left => ((f.i, f.k) :: inorderP f.sib) ++ ctxRP rest
    | .right => ctxRP rest

/-- The siblings along a context are well formed, and each is within one
of the height of the hole at its level, as in the original balanced
tree. -/
def SibsOk : List (Frame α) → Nat → Prop
  | [], _ => True
  | f :: rest, hOld =>
    HCB f.sib ∧ (avl_height f.sib ≤ hOld + 1 ∧ hOld ≤ avl_height f.sib + 1) ∧
      SibsOk rest (1 + max hOld (avl_height f.sib))

/-- Every recombination along a context is well formed: the frames carry
the exact fields of the original ancestors. -/
def CtxHCB : List (Frame α) → AvlT α → Prop
  | [], _ => True
  | f :: rest, sub => HCB (recomb f sub) ∧ CtxHCB rest (recomb f sub)

/-! ## Sorted set (`zset.cpp`)

A `ZNode` owns a name, a score, an intrusive tree node and an intrusive
hash node.  The C `double` score is only ever compared (`<`, `!=`), so it
is modelled as `Int`; the malloc identity of a `ZNode` is a `Nat` id.  The
hash index stores `(name, id)` behind the name hash; the tree stores the
`(score, name)` key under the same id. -/

structure ZData where
  name : ByteStr
  id : Nat
deriving DecidableEq

/-- The probe `HKey` of `zset_lookup`\`zset_delete`. -/
def zprobe (name : ByteStr) : HNode ByteStr := ⟨str_hash name, name⟩

/-- `hcmp`: stored name equals probe name (length plus `memcmp`). -/
def zsame (lhs : HNode ZData) (rhs : HNode ByteStr) : Bool :=
  lhs.data.name == rhs.data

/-- `memcmp` order extended by length, as in `zless_node`: lexicographic
byte order. -/
def bytesLt : ByteStr → ByteStr → Bool
  | [], [] => false
  | [], _ :: _ => true
  | _ :: _, [] => false
  | x :: xs, y :: ys =>
    if x < y then true else if y < x then false else bytesLt xs ys

/-- `zless_node`: compare scores, then names. -/
def zless (a b : Int × ByteStr) : Bool :=
  if a.1 ≠ b.1 then decide (a.1 < b.1)
  else bytesLt a.2 b.2

/-- `ZSet`: tree root and name index. -/
structure ZSet where
  root : AvlT (Int × ByteStr)
  hmap : HMap ZData

/-- `zset_init`. -/
def zset_init : ZSet := ⟨.nil, hm_init⟩

/-- `zset_lookup`: null root short-circuits; otherwise probe the hash
index (the embedded migration assist updates the map). -/
def zset_lookup (zs : ZSet) (name : ByteStr) :
    ZSet × Option (HNode ZData) :=
  match zs.root with
  | .nil => (zs, none)
  | .node _ _ _ _ _ _ =>
    let r := hm_lookup zs.hmap (zprobe name) zsame
    ({ zs with hmap := r.1 }, r.2.1)

/-- `tree_insert`: descend by `zless_node`, link, `avl_update`, `avl_fix`
(the descent loop of the source is `avl_insert_go`). -/
def tree_insert (root : AvlT (Int × ByteStr)) (id : Nat)
    (key : Int × ByteStr) : AvlT (Int × ByteStr) :=
  avl_search_and_insert zless id key root

/-- `avl_del(&node->tree)`: the node pointer is resolved to its path by
its identity. -/
def tree_detach (root : AvlT (Int × ByteStr)) (id : Nat) :
    AvlT (Int × ByteStr) :=
  match findId id root with
  | none => root
  | some p => avl_del root p

/-- `zset_update`: detach the node from the tree, change its score,
reinsert. -/
def zset_update (zs : ZSet) (node : HNode ZData) (score : Int) : ZSet :=
  { zs with root := (tree_insert (tree_detach zs.root node.data.id)
      node.data.id (score, node.data.name)) }

/-- `zset_insert`: update the score of an existing name, or allocate a new
`ZNode` (with the next fresh identity) and add it to both structures. -/
def zset_insert (zs : ZSet) (name : ByteStr) (score : Int) (fresh : Nat) :
    ZSet × Bool :=
  match zset_lookup zs name with
  | (zs1, some node) => (zset_update zs1 node score, false)
  | (zs1, none) =>
    let r := hm_insert zs1.hmap ⟨str_hash name, ⟨name, fresh⟩⟩
    ({ root := tree_insert zs1.root fresh (score, name), hmap := r.1 }, true)

/-- `zset_delete` of a looked-up node: remove its hash entry by name and
its tree node by identity. -/
def zset_delete (zs : ZSet) (node : HNode ZData) : ZSet :=
  let r := hm_delete zs.hmap (zprobe node.data.name) zsame
  { root := tree_detach zs.root node.data.id, hmap := r.1 }

/-- Client-visible sorted-set operations. -/
inductive ZOp where
  | insert (name : ByteStr) (score : Int)
  | delete (name : ByteStr)

/-- Apply one operation; `nf` is the next fresh `ZNode` identity (a fresh
malloc address).  A delete is performed on the node found by name, as the
server does. -/
def zsApply (zs : ZSet) (nf : Nat) : ZOp → ZSet × Nat
  | .insert name score => ((zset_insert zs name score nf).1, nf + 1)
  | .delete name =>
    match zset_lookup zs name with
    | (zs1, some node) => (zset_delete zs1 node, nf)
    | (zs1, none) => (zs1, nf)

/-- Run a sequence of operations. -/
def zsRun (zs : ZSet) (nf : Nat) : List ZOp → ZSet × Nat
  | [] => (zs, nf)
  | op :: ops => zsRun (zsApply zs nf op).1 (zsApply zs nf op).2 ops

/-- The tree and the hash index hold the same `ZNode`s: the multiset of
`(id, name)` pairs is shared; plus the tree invariants and the keyed hash
invariants. -/
def ZWF (zs : ZSet) : Prop :=
  HCB zs.root ∧ SortedLt zless (inorderKeys zs.root) ∧
  (inorderIds zs.root).Nodup ∧
  HMapWF zs.hmap ∧
  (∀ n ∈ hmNodes zs.hmap, n.hcode = str_hash n.data.name) ∧
  ((hmNodes zs.hmap).map (fun n => n.data.name)).Nodup ∧
  List.Perm ((inorderP zs.root).map (fun q => (q.1, q.2.2)))
    ((hmNodes zs.hmap).map (fun n => (n.data.id, n.data.name)))

/-- `ZWF` plus an upper bound on the identities in use. -/
def ZInv (zs : ZSet) (nf : Nat) : Prop :=
  ZWF zs ∧ ∀ i ∈ inorderIds zs.root, i < nf

/-! ## Lemma development -/

theorem getD_replicate_nil (k i : Nat) :
    (List.replicate k ([] : List β)).getD i [] = [] := by
  induction k generalizing i with
  | zero => cases i <;> simp [List.getD]
  | succ k ih => cases i <;> simp [List.replicate_succ, ih]

theorem hm_init_wf : HMapWF (hm_init (α := α)) := by
  refine ⟨⟨rfl, ?_, rfl⟩, rfl, ?_⟩
  · intro i hil n hn
    rw [getD_replicate_nil] at hn
    simp at hn
  · intro hcon
    simp [hm_init, h_init] at hcon

theorem hmNodes_init : hmNodes (hm_init (α := α)) = [] := by
  simp [hmNodes, hm_init, htNodes, h_init]

/-- Key list-level fact: replacing slot `i` by a new chain `c` exchanges the
old chain for `c` inside the concatenation of all chains, up to
permutation. -/
theorem flatten_set_perm (bs : List (List β)) (i : Nat) (c : List β)
    (h : i < bs.length) :
    List.Perm (bs.getD i [] ++ (bs.set i c).flatten) (c ++ bs.flatten) := by
  induction bs generalizing i with
  | nil => simp at h
  | cons b rest ih =>
    cases i with
    | zero =>
      simp only [List.getD_cons_zero, List.set_cons_zero, List.flatten_cons]
      rw [← List.append_assoc, ← List.append_assoc]
      exact List.Perm.append_right _ (List.perm_append_comm)
    | succ i =>
      simp only [List.getD_cons_succ, List.set_cons_succ, List.flatten_cons]
      have hi : i < rest.length := by simpa using h
      have s1 : List.Perm (rest.getD i [] ++ (b ++ (rest.set i c).flatten))
          (b ++ (rest.getD i [] ++ (rest.set i c).flatten)) := by
        rw [← List.append_assoc, ← List.append_assoc]
        exact List.Perm.append_right _ List.perm_append_comm
      have s2 : List.Perm (b ++ (rest.getD i [] ++ (rest.set i c).flatten))
          (b ++ (c ++ rest.flatten)) := List.Perm.append_left _ (ih i hi)
      have s3 : List.Perm (b ++ (c ++ rest.flatten))
          (c ++ (b ++ rest.flatten)) := by
        rw [← List.append_assoc, ← List.append_assoc]
        exact List.Perm.append_right _ List.perm_append_comm
      exact (s1.trans s2).trans s3

theorem sum_lengths_set (bs : List (List β)) (i : Nat) (c : List β)
    (h : i < bs.length) :
    ((bs.set i c).map List.length).sum + (bs.getD i []).length
      = (bs.map List.length).sum + c.length := by
  induction bs generalizing i with
  | nil => simp at h
  | cons b rest ih =>
    cases i with
    | zero => simp [Nat.add_comm, Nat.add_assoc, Nat.add_left_comm]
    | succ i =>
      have hi : i < rest.length := by simpa using h
      have := ih i hi
      simp only [List.set_cons_succ, List.map_cons, List.sum_cons,
        List.getD_cons_succ]
      omega

/-- Membership in the flattened chains comes from some in-range slot. -/
theorem mem_flatten_getD (bs : List (List β)) (x : β) (hx : x ∈ bs.flatten) :
    ∃ i, i < bs.length ∧ x ∈ bs.getD i [] := by
  induction bs with
  | nil => simp at hx
  | cons b rest ih =>
    rw [List.flatten_cons, List.mem_append] at hx
    rcases hx with hx | hx
    · exact ⟨0, by simp, by simpa using hx⟩
    · rcases ih hx with ⟨i, hi, hmem⟩
      exact ⟨i + 1, by simpa using hi, by simpa using hmem⟩

theorem getD_mem_flatten (bs : List (List β)) (x : β) (i : Nat)
    (hx : x ∈ bs.getD i []) : x ∈ bs.flatten := by
  induction bs generalizing i with
  | nil => simp [List.getD] at hx
  | cons b rest ih =>
    cases i with
    | zero => simp only [List.getD_cons_zero] at hx; simp [hx]
    | succ i =>
      simp only [List.getD_cons_succ] at hx
      simp [ih i hx]

theorem getD_set_eq (bs : List (List β)) (i : Nat) (c : List β)
    (h : i < bs.length) : (bs.set i c).getD i [] = c := by
  induction bs generalizing i with
  | nil => simp at h
  | cons b rest ih =>
    cases i with
    | zero => simp
    | succ i => simpa using ih i (by simpa using h)

theorem getD_set_ne (bs : List (List β)) (i j : Nat) (c : List β)
    (h : i ≠ j) : (bs.set i c).getD j [] = bs.getD j [] := by
  induction bs generalizing i j with
  | nil => simp [List.getD]
  | cons b rest ih =>
    cases i with
    | zero => cases j with
      | zero => exact absurd rfl h
      | succ j => simp
    | succ i => cases j with
      | zero => simp
      | succ j => simpa using ih i j (by omega)

theorem mem_eraseIdx_imp (l : List β) (j : Nat) (x : β)
    (hx : x ∈ l.eraseIdx j) : x ∈ l := by
  induction l generalizing j with
  | nil => simp [List.eraseIdx] at hx
  | cons b rest ih =>
    cases j with
    | zero => simp only [List.eraseIdx] at hx; simp [hx]
    | succ j =>
      simp only [List.eraseIdx] at hx
      rcases List.mem_cons.mp hx with h | h
      · simp [h]
      · simp [ih j h]

theorem perm_cons_eraseIdx (l : List β) (j : Nat) (x : β)
    (hx : l.get? j = some x) : List.Perm l (x :: l.eraseIdx j) := by
  induction l generalizing j with
  | nil => simp at hx
  | cons b rest ih =>
    cases j with
    | zero =>
      simp only [List.get?_cons_zero, Option.some_inj] at hx
      subst hx
      simp [List.eraseIdx]
    | succ j =>
      simp only [List.get?_cons_succ] at hx
      have h1 := ih j hx
      simp only [List.eraseIdx]
      exact (h1.cons b).trans (List.Perm.swap x b _)

theorem length_eraseIdx_succ (l : List β) (j : Nat) (x : β)
    (hx : l.get? j = some x) : (l.eraseIdx j).length + 1 = l.length := by
  induction l generalizing j with
  | nil => simp at hx
  | cons b rest ih =>
    cases j with
    | zero => simp [List.eraseIdx]
    | succ j =>
      simp only [List.get?_cons_succ] at hx
      simp only [List.eraseIdx, List.length_cons]
      rw [← ih j hx]

/-! ### `h_insert` -/

theorem h_insert_wf (ht : HTab α) (node : HNode α) (hwf : HTabWF ht) :
    HTabWF (h_insert ht node) := by
  rcases htab : ht.tab with _ | bs
  · simpa [h_insert, htab, HTabWF] using by rw [HTabWF, htab] at hwf; exact hwf
  · rw [HTabWF, htab] at hwf
    obtain ⟨hlen, hslot, hsize⟩ := hwf
    have hpos : node.hcode &&& ht.mask < bs.length := by
      rw [hlen]
      exact Nat.lt_succ_of_le (Nat.and_le_right)
    rw [h_insert, htab]
    refine ⟨by simpa using hlen, ?_, ?_⟩
    · intro i hil n hn
      have hil2 : i < bs.length := by simpa using hil
      by_cases hij : node.hcode &&& ht.mask = i
      · rw [← hij, getD_set_eq _ _ _ hpos] at hn
        rcases List.mem_cons.mp hn with h | h
        · rw [h, hij]
        · exact hij ▸ hslot _ (hij ▸ hil2) n (hij ▸ h)
      · rw [getD_set_ne _ _ _ _ hij] at hn
        exact hslot i hil2 n hn
    · have := sum_lengths_set bs (node.hcode &&& ht.mask)
        (node :: bs.getD (node.hcode &&& ht.mask) []) hpos
      simp only [List.length_cons] at this
      simp only []
      omega

theorem h_insert_nodes (ht : HTab α) (node : HNode α)
    (hwf : HTabWF ht) (ha : ht.tab ≠ none) :
    List.Perm (htNodes (h_insert ht node)) (node :: htNodes ht) := by
  rcases htab : ht.tab with _ | bs
  · exact absurd htab ha
  · rw [HTabWF, htab] at hwf
    obtain ⟨hlen, hslot, hsize⟩ := hwf
    set pos := node.hcode &&& ht.mask with hposdef
    have hpos : pos < bs.length := by
      rw [hlen]
      exact Nat.lt_succ_of_le (Nat.and_le_right)
    have hkey := flatten_set_perm bs pos (node :: bs.getD pos []) hpos
    have h2 : List.Perm ((node :: bs.getD pos []) ++ bs.flatten)
        (bs.getD pos [] ++ node :: bs.flatten) := by
      simpa using (@List.perm_middle _ node (bs.getD pos [])
        bs.flatten).symm
    have h3 := hkey.trans h2
    have h4 := (List.perm_append_left_iff (bs.getD pos [])).mp h3
    have heq : htNodes (h_insert ht node)
        = (bs.set pos (node :: bs.getD pos [])).flatten := by
      simp [h_insert, htab, htNodes]
    rw [heq, htNodes, htab]
    exact h4

/-! ### `chain_find` -/

theorem chain_find_none_iff (eq : HNode α → HNode κ → Bool) (key : HNode κ)
    (chain : List (HNode α)) :
    chain_find eq key chain = none ↔
      ∀ n ∈ chain, ¬(n.hcode = key.hcode ∧ eq n key = true) := by
  induction chain with
  | nil => simp [chain_find]
  | cons c rest ih =>
    rw [chain_find]
    by_cases hc : (c.hcode == key.hcode && eq c key) = true
    · rw [if_pos hc]
      constructor
      · intro h; cases h
      · intro h
        exfalso
        rw [Bool.and_eq_true, beq_iff_eq] at hc
        exact h c (List.mem_cons_self c rest) ⟨hc.1, hc.2⟩
    · rw [if_neg hc, Option.map_eq_none', ih]
      constructor
      · intro h n hn hmatch
        rcases List.mem_cons.mp hn with rfl | hn
        · rw [Bool.and_eq_true, beq_iff_eq] at hc
          exact hc ⟨hmatch.1, hmatch.2⟩
        · exact h n hn hmatch
      · intro h n hn hmatch
        exact h n (List.mem_cons_of_mem c hn) hmatch

theorem chain_find_unique (eq : HNode α → HNode κ → Bool) (key : HNode κ)
    (chain : List (HNode α)) (n : HNode α) (hmem : n ∈ chain)
    (hcode : n.hcode = key.hcode) (heq : eq n key = true)
    (huniq : ∀ n' ∈ chain, n'.hcode = key.hcode → eq n' key = true → n' = n) :
    ∃ j, chain_find eq key chain = some j ∧ chain.get? j = some n := by
  induction chain with
  | nil => simp at hmem
  | cons c rest ih =>
    rw [chain_find]
    by_cases hc : (c.hcode == key.hcode && eq c key) = true
    · rw [if_pos hc]
      rw [Bool.and_eq_true, beq_iff_eq] at hc
      have hcn : c = n := huniq c (List.mem_cons_self c rest) hc.1 hc.2
      exact ⟨0, rfl, by rw [hcn]; rfl⟩
    · rw [if_neg hc]
      have hnc : n ≠ c := by
        intro h
        apply hc
        rw [Bool.and_eq_true, beq_iff_eq]
        rw [← h]
        exact ⟨hcode, heq⟩
      have hmem' : n ∈ rest := by
        rcases List.mem_cons.mp hmem with h | h
        · exact absurd h hnc
        · exact h
      obtain ⟨j, hfind, hget⟩ := ih hmem'
        (fun n' hn' => huniq n' (List.mem_cons_of_mem c hn'))
      exact ⟨j + 1, by rw [hfind]; rfl, by simpa using hget⟩

theorem chain_find_some (eq : HNode α → HNode κ → Bool) (key : HNode κ)
    (chain : List (HNode α)) (j : Nat)
    (hj : chain_find eq key chain = some j) :
    ∃ n, chain.get? j = some n ∧ n.hcode = key.hcode ∧ eq n key = true := by
  induction chain generalizing j with
  | nil => simp [chain_find] at hj
  | cons c rest ih =>
    rw [chain_find] at hj
    by_cases hc : (c.hcode == key.hcode && eq c key) = true
    · rw [if_pos hc, Option.some_inj] at hj
      rw [Bool.and_eq_true, beq_iff_eq] at hc
      exact ⟨c, by rw [← hj]; rfl, hc.1, hc.2⟩
    · rw [if_neg hc] at hj
      rcases hmap : chain_find eq key rest with _ | j0
      · rw [hmap] at hj; cases hj
      · rw [hmap] at hj
        simp at hj
        obtain ⟨n, hget, hrest⟩ := ih j0 hmap
        exact ⟨n, by rw [← hj]; simpa using hget, hrest⟩

/-! ### `h_lookup` and `h_detach` -/

theorem h_lookup_found (ht : HTab α) (key : HNode κ)
    (eq : HNode α → HNode κ → Bool) (n : HNode α) (hwf : HTabWF ht)
    (hmem : n ∈ htNodes ht) (hcode : n.hcode = key.hcode)
    (heq : eq n key = true)
    (huniq : ∀ n' ∈ htNodes ht, n'.hcode = key.hcode → eq n' key = true →
      n' = n) :
    ∃ j, h_lookup ht key eq = some (key.hcode &&& ht.mask, j) ∧
      cursor_get ht (key.hcode &&& ht.mask, j) = some n := by
  rcases htab : ht.tab with _ | bs
  · exfalso
    have hx : n ∈ ([] : List (HNode α)) := by simpa [htNodes, htab] using hmem
    simp at hx
  · rw [HTabWF, htab] at hwf
    obtain ⟨hlen, hslot, _⟩ := hwf
    have hmem2 : n ∈ bs.flatten := by simpa [htNodes, htab] using hmem
    obtain ⟨i, hi, hmemb⟩ := mem_flatten_getD bs n hmem2
    have hieq : i = key.hcode &&& ht.mask := by
      rw [← hcode]
      exact (hslot i hi n hmemb).symm
    rw [hieq] at hmemb
    obtain ⟨j, hfind, hget⟩ := chain_find_unique eq key
      (bs.getD (key.hcode &&& ht.mask) []) n hmemb
      hcode heq (fun n' hn' => huniq n'
        (by simp only [htNodes, htab, Option.getD_some]
            exact getD_mem_flatten bs n' _ hn'))
    refine ⟨j, ?_, ?_⟩
    · simp only [h_lookup, htab, hfind]
      rfl
    · simp only [cursor_get, htab]
      exact hget

theorem h_lookup_miss (ht : HTab α) (key : HNode κ)
    (eq : HNode α → HNode κ → Bool)
    (hnone : ∀ n ∈ htNodes ht, ¬(n.hcode = key.hcode ∧ eq n key = true)) :
    h_lookup ht key eq = none := by
  rcases htab : ht.tab with _ | bs
  · simp only [h_lookup, htab]
  · have hcf : chain_find eq key (bs.getD (key.hcode &&& ht.mask) []) = none := by
      rw [chain_find_none_iff]
      intro n hn
      exact hnone n
        (by simp only [htNodes, htab, Option.getD_some]
            exact getD_mem_flatten bs n _ hn)
    simp only [h_lookup, htab, hcf]
    rfl

theorem h_lookup_slot (ht : HTab α) (key : HNode κ)
    (eq : HNode α → HNode κ → Bool) (cur : Nat × Nat)
    (hfound : h_lookup ht key eq = some cur) :
    ∃ bs n, ht.tab = some bs ∧ cur.1 = key.hcode &&& ht.mask ∧
      (bs.getD cur.1 []).get? cur.2 = some n ∧
      n.hcode = key.hcode ∧ eq n key = true := by
  rcases htab : ht.tab with _ | bs
  · simp only [h_lookup, htab] at hfound
    exact Option.noConfusion hfound
  · simp only [h_lookup, htab] at hfound
    rcases hcf : chain_find eq key (bs.getD (key.hcode &&& ht.mask) [])
      with _ | j
    · rw [hcf] at hfound; cases hfound
    · rw [hcf] at hfound
      simp at hfound
      obtain ⟨n, hget, hcode, heq⟩ := chain_find_some eq key _ j hcf
      exact ⟨bs, n, rfl, by rw [← hfound], by rw [← hfound]; exact hget,
        hcode, heq⟩

theorem h_detach_spec (ht : HTab α) (cur : Nat × Nat) (n : HNode α)
    (hwf : HTabWF ht) (bs : List (List (HNode α))) (htab : ht.tab = some bs)
    (hslotlt : cur.1 < bs.length)
    (hget : (bs.getD cur.1 []).get? cur.2 = some n) :
    HTabWF (h_detach ht cur).1 ∧ (h_detach ht cur).2 = some n ∧
      List.Perm (htNodes ht) (n :: htNodes (h_detach ht cur).1) ∧
      (h_detach ht cur).1.tab ≠ none ∧ (h_detach ht cur).1.mask = ht.mask ∧
      (h_detach ht cur).1.size = ht.size - 1 ∧ 0 < ht.size := by
  rw [HTabWF, htab] at hwf
  obtain ⟨hlen, hslot, hsize⟩ := hwf
  have hdet : h_detach ht cur
      = (⟨some (bs.set cur.1 ((bs.getD cur.1 []).eraseIdx cur.2)),
          ht.mask, ht.size - 1⟩, some n) := by
    simp only [h_detach, htab, hget]
  set chain := bs.getD cur.1 [] with hchain
  have hchainperm := perm_cons_eraseIdx chain cur.2 n hget
  have hchainlen := length_eraseIdx_succ chain cur.2 n hget
  have hsum := sum_lengths_set bs cur.1 (chain.eraseIdx cur.2) hslotlt
  rw [← hchain] at hsum
  have hpos_size : 0 < ht.size := by
    rw [hsize]
    have hc0 : 0 < chain.length := by omega
    have : chain.length ≤ (bs.map List.length).sum := by
      have hx : chain ∈ bs ∨ chain = [] := by
        rcases Nat.lt_or_ge cur.1 bs.length with h | h
        · left
          rw [hchain, List.getD_eq_getElem?_getD]
          rw [List.getElem?_eq_getElem h]
          exact List.getElem_mem _
        · right
          rw [hchain, List.getD_eq_default]
          simpa using h
      rcases hx with hx | hx
      · exact List.le_sum_of_mem (List.mem_map_of_mem List.length hx)
      · rw [hx]
        simp
    omega
  refine ⟨?_, by rw [hdet], ?_, by rw [hdet]; simp, by rw [hdet],
    by rw [hdet], hpos_size⟩
  · rw [hdet]
    refine ⟨by simpa using hlen, ?_, ?_⟩
    · intro i hil x hx
      have hil2 : i < bs.length := by simpa using hil
      by_cases hij : cur.1 = i
      · subst hij
        rw [getD_set_eq _ _ _ hslotlt] at hx
        exact hslot cur.1 hil2 x (mem_eraseIdx_imp _ _ _ hx)
      · rw [getD_set_ne _ _ _ _ hij] at hx
        exact hslot i hil2 x hx
    · simp only []
      omega
  · have hflat := flatten_set_perm bs cur.1 (chain.eraseIdx cur.2) hslotlt
    rw [← hchain] at hflat
    have h5 : List.Perm (chain ++ (bs.set cur.1 (chain.eraseIdx cur.2)).flatten)
        ((n :: chain.eraseIdx cur.2) ++ (bs.set cur.1 (chain.eraseIdx cur.2)).flatten) :=
      List.Perm.append_right _ hchainperm
    have hmid : List.Perm (chain.eraseIdx cur.2 ++ bs.flatten)
        (n :: chain.eraseIdx cur.2 ++ (bs.set cur.1 (chain.eraseIdx cur.2)).flatten) :=
      hflat.symm.trans h5
    have hmid2 : List.Perm
        (n :: chain.eraseIdx cur.2 ++ (bs.set cur.1 (chain.eraseIdx cur.2)).flatten)
        (chain.eraseIdx cur.2 ++ n :: (bs.set cur.1 (chain.eraseIdx cur.2)).flatten) := by
      simpa using (@List.perm_middle _ n (chain.eraseIdx cur.2)
        ((bs.set cur.1 (chain.eraseIdx cur.2)).flatten)).symm
    have hgoal := (List.perm_append_left_iff (chain.eraseIdx cur.2)).mp
      (hmid.trans hmid2)
    rw [hdet]
    simp only [htNodes, htab, Option.getD_some]
    exact hgoal

theorem perm_extract (l : List β) (x : β) (F F2 : List β)
    (h : List.Perm ((x :: l) ++ F2) (l ++ F)) : List.Perm F (x :: F2) := by
  have h2 : List.Perm ((x :: l) ++ F2) (l ++ (x :: F2)) :=
    (@List.perm_middle _ x l F2).symm
  exact ((List.perm_append_left_iff l).mp (h2.symm.trans h)).symm

theorem h_insert_tab (ht : HTab α) (node : HNode α) (ha : ht.tab ≠ none) :
    (h_insert ht node).tab ≠ none := by
  rcases htab : ht.tab with _ | bs
  · exact absurd htab ha
  · simp [h_insert, htab]

theorem htNodes_nil_of_size_zero (ht : HTab α) (hwf : HTabWF ht)
    (hz : ht.size = 0) : htNodes ht = [] := by
  rcases htab : ht.tab with _ | bs
  · simp [htNodes, htab]
  · rw [HTabWF, htab] at hwf
    obtain ⟨_, _, hsize⟩ := hwf
    have hlenz : bs.flatten.length = 0 := by
      rw [List.length_flatten]
      omega
    have := List.eq_nil_of_length_eq_zero hlenz
    simp [htNodes, htab, this]

/-- Removing the head of one chain in the slot array: permutation form. -/
theorem flatten_set_tail_perm (bs : List (List β)) (i : Nat) (x : β)
    (rest : List β) (hb : bs.getD i [] = x :: rest) (h : i < bs.length) :
    List.Perm bs.flatten (x :: (bs.set i rest).flatten) := by
  have hkey := flatten_set_perm bs i rest h
  rw [hb] at hkey
  exact perm_extract rest x bs.flatten (bs.set i rest).flatten hkey

/-- Invariant of the migration loop: both tables stay well formed, the
combined node inventory is preserved up to permutation, and the move
counter never exceeds `k_rehashing_work`. -/
theorem hm_rehash_loop_spec : ∀ (newer older : HTab α) (mpos moved : Nat),
    HTabWF newer → newer.tab ≠ none → HTabWF older →
    moved ≤ k_rehashing_work →
    HTabWF (hm_rehash_loop newer older mpos moved).1 ∧
    (hm_rehash_loop newer older mpos moved).1.tab ≠ none ∧
    HTabWF (hm_rehash_loop newer older mpos moved).2.1 ∧
    List.Perm
      (htNodes (hm_rehash_loop newer older mpos moved).1 ++
        htNodes (hm_rehash_loop newer older mpos moved).2.1)
      (htNodes newer ++ htNodes older) ∧
    (hm_rehash_loop newer older mpos moved).2.2.2 ≤ k_rehashing_work := by
  intro newer older mpos moved
  induction newer, older, mpos, moved using hm_rehash_loop.induct with
  | case1 newer older mpos moved hguard hpos =>
    intro hnw hna how hmb
    rw [hm_rehash_loop]
    simp only [hguard, hpos, dite_true]
    exact ⟨hnw, hna, how, List.Perm.refl _, hmb⟩
  | case2 newer older mpos moved hguard hpos htab =>
    intro hnw hna how hmb
    rw [hm_rehash_loop]
    simp only [hguard, hpos, dite_true, dite_false, htab]
    exact ⟨hnw, hna, how, List.Perm.refl _, hmb⟩
  | case3 newer older mpos moved hguard hpos bs htab hbucket ih =>
    intro hnw hna how hmb
    rw [hm_rehash_loop]
    simp only [hguard, hpos, dite_true, dite_false, htab, hbucket]
    exact ih hnw hna how hmb
  | case4 newer older mpos moved hguard hpos bs htab node rest hbucket ih =>
    intro hnw hna how hmb
    have hmposle : mpos < bs.length := by
      rw [HTabWF, htab] at how
      omega
    have hwfo : HTabWF (⟨some (bs.set mpos rest), older.mask,
        older.size - 1⟩ : HTab α) := by
      rw [HTabWF, htab] at how
      obtain ⟨hlen, hslot, hsize⟩ := how
      refine ⟨by simpa using hlen, ?_, ?_⟩
      · intro i hil x hx
        have hil2 : i < bs.length := by simpa using hil
        by_cases hij : mpos = i
        · subst hij
          rw [getD_set_eq _ _ _ hmposle] at hx
          exact hslot mpos hil2 x (by rw [hbucket]; exact List.mem_cons_of_mem _ hx)
        · rw [getD_set_ne _ _ _ _ hij] at hx
          exact hslot i hil2 x hx
      · have hsum := sum_lengths_set bs mpos rest hmposle
        rw [hbucket] at hsum
        simp only [List.length_cons] at hsum
        simp only []
        omega
    have hperm1 : List.Perm (htNodes older)
        (node :: htNodes (⟨some (bs.set mpos rest), older.mask,
          older.size - 1⟩ : HTab α)) := by
      have := flatten_set_tail_perm bs mpos node rest hbucket hmposle
      simpa [htNodes, htab] using this
    have hperm2 := h_insert_nodes newer node hnw hna
    rw [hm_rehash_loop]
    simp only [hguard, hpos, dite_true, dite_false, htab, hbucket]
    have hrec := ih (h_insert_wf newer node hnw) (h_insert_tab newer node hna)
      hwfo (by omega)
    refine ⟨hrec.1, hrec.2.1, hrec.2.2.1, ?_, hrec.2.2.2.2⟩
    refine hrec.2.2.2.1.trans ?_
    have hstep1 : List.Perm
        (htNodes (h_insert newer node) ++ htNodes (⟨some (bs.set mpos rest),
          older.mask, older.size - 1⟩ : HTab α))
        ((node :: htNodes newer) ++ htNodes (⟨some (bs.set mpos rest),
          older.mask, older.size - 1⟩ : HTab α)) :=
      List.Perm.append_right _ hperm2
    refine hstep1.trans ?_
    have hstep2 : List.Perm
        (htNodes newer ++ (node :: htNodes (⟨some (bs.set mpos rest),
          older.mask, older.size - 1⟩ : HTab α)))
        ((node :: htNodes newer) ++ htNodes (⟨some (bs.set mpos rest),
          older.mask, older.size - 1⟩ : HTab α)) := by
      simpa using (@List.perm_middle _ node (htNodes newer)
        (htNodes (⟨some (bs.set mpos rest), older.mask,
          older.size - 1⟩ : HTab α)))
    refine hstep2.symm.trans ?_
    exact (List.Perm.append_left _ hperm1.symm)
  | case5 newer older mpos moved hguard =>
    intro hnw hna how hmb
    rw [hm_rehash_loop]
    simp only [hguard, dite_false]
    exact ⟨hnw, hna, how, List.Perm.refl _, hmb⟩

/-- The move counter is bounded by `k_rehashing_work`, with no
well-formedness assumptions at all. -/
theorem hm_rehash_loop_moved : ∀ (newer older : HTab α) (mpos moved : Nat),
    moved ≤ k_rehashing_work →
    (hm_rehash_loop newer older mpos moved).2.2.2 ≤ k_rehashing_work := by
  intro newer older mpos moved
  induction newer, older, mpos, moved using hm_rehash_loop.induct with
  | case1 newer older mpos moved hguard hpos =>
    intro hmb
    rw [hm_rehash_loop]
    simp only [hguard, hpos, dite_true]
    exact hmb
  | case2 newer older mpos moved hguard hpos htab =>
    intro hmb
    rw [hm_rehash_loop]
    simp only [hguard, hpos, dite_true, dite_false, htab]
    exact hmb
  | case3 newer older mpos moved hguard hpos bs htab hbucket ih =>
    intro hmb
    rw [hm_rehash_loop]
    simp only [hguard, hpos, dite_true, dite_false, htab, hbucket]
    exact ih hmb
  | case4 newer older mpos moved hguard hpos bs htab node rest hbucket ih =>
    intro hmb
    rw [hm_rehash_loop]
    simp only [hguard, hpos, dite_true, dite_false, htab, hbucket]
    exact ih (by omega)
  | case5 newer older mpos moved hguard =>
    intro hmb
    rw [hm_rehash_loop]
    simp only [hguard, dite_false]
    exact hmb

theorem hm_help_rehashing_moved (m : HMap α) :
    (hm_help_rehashing m).2 ≤ k_rehashing_work := by
  rcases htab : m.older.tab with _ | bs
  · simp [hm_help_rehashing, htab, k_rehashing_work]
  · have hmv := hm_rehash_loop_moved m.newer m.older m.migrate_pos 0 (by simp)
    simp only [hm_help_rehashing, htab]
    rcases hz : (hm_rehash_loop m.newer m.older m.migrate_pos 0).2.1.size == 0
    · simp only [hz, Bool.false_eq_true, if_false]
      exact hmv
    · simp only [hz, if_true]
      exact hmv

theorem hm_help_rehashing_spec (m : HMap α) (hwf : HMapWF m) :
    HMapWF (hm_help_rehashing m).1 ∧
    List.Perm (hmNodes (hm_help_rehashing m).1) (hmNodes m) := by
  obtain ⟨hnw, how, hna⟩ := hwf
  rcases htab : m.older.tab with _ | bs
  · simp only [hm_help_rehashing, htab]
    exact ⟨⟨hnw, how, hna⟩, List.Perm.refl _⟩
  · have hloop := hm_rehash_loop_spec m.newer m.older m.migrate_pos 0
      hnw hna how (by simp)
    obtain ⟨hw1, ha1, hw2, hperm, _⟩ := hloop
    have hpermm : List.Perm
        (htNodes (hm_rehash_loop m.newer m.older m.migrate_pos 0).1 ++
          htNodes (hm_rehash_loop m.newer m.older m.migrate_pos 0).2.1)
        (hmNodes m) := hperm
    simp only [hm_help_rehashing, htab]
    rcases hz : (hm_rehash_loop m.newer m.older m.migrate_pos 0).2.1.size == 0
    · simp only [hz, Bool.false_eq_true, if_false]
      exact ⟨⟨hw1, hw2, ha1⟩, hpermm⟩
    · simp only [hz, if_true]
      have hz2 : (hm_rehash_loop m.newer m.older m.migrate_pos 0).2.1.size = 0 := by
        simpa using hz
      have hnil := htNodes_nil_of_size_zero _ hw2 hz2
      refine ⟨⟨hw1, rfl, ha1⟩, ?_⟩
      have heq2 : hmNodes
          ({ newer := (hm_rehash_loop m.newer m.older m.migrate_pos 0).1,
             older := ⟨none, 0, 0⟩,
             migrate_pos := (hm_rehash_loop m.newer m.older m.migrate_pos 0).2.2.1 } : HMap α)
          = htNodes (hm_rehash_loop m.newer m.older m.migrate_pos 0).1
            ++ htNodes (hm_rehash_loop m.newer m.older m.migrate_pos 0).2.1 := by
        rw [hnil]
        simp [hmNodes, htNodes]
      rw [heq2]
      exact hpermm

/-- After the assist, looking up a stored node with a matching probe finds
exactly that node, provided no other stored node matches the probe. -/
theorem hm_lookup_found (m : HMap α) (key : HNode κ)
    (eq : HNode α → HNode κ → Bool) (n : HNode α) (hwf : HMapWF m)
    (hmem : n ∈ hmNodes m) (hcode : n.hcode = key.hcode)
    (heq : eq n key = true)
    (huniq : ∀ n' ∈ hmNodes m, n'.hcode = key.hcode → eq n' key = true →
      n' = n) :
    (hm_lookup m key eq).2.1 = some n := by
  obtain ⟨hwf2, hperm⟩ := hm_help_rehashing_spec m hwf
  obtain ⟨hnw, how, hna⟩ := hwf2
  have hmem2 : n ∈ hmNodes (hm_help_rehashing m).1 := hperm.mem_iff.mpr hmem
  have huniq2 : ∀ n' ∈ hmNodes (hm_help_rehashing m).1,
      n'.hcode = key.hcode → eq n' key = true → n' = n :=
    fun n' hn' => huniq n' (hperm.mem_iff.mp hn')
  rw [hm_lookup]
  by_cases hinn : n ∈ htNodes (hm_help_rehashing m).1.newer
  · obtain ⟨j, hfind, hget⟩ := h_lookup_found _ key eq n hnw hinn hcode heq
      (fun n' hn' => huniq2 n' (by rw [hmNodes]; exact List.mem_append_left _ hn'))
    simp only [hfind, hget]
  · have hino : n ∈ htNodes (hm_help_rehashing m).1.older := by
      rw [hmNodes, List.mem_append] at hmem2
      tauto
    have hmiss : h_lookup (hm_help_rehashing m).1.newer key eq = none := by
      apply h_lookup_miss
      intro x hx hmatch
      have hxn : x = n := huniq2 x
        (by rw [hmNodes]; exact List.mem_append_left _ hx) hmatch.1 hmatch.2
      exact hinn (hxn ▸ hx)
    obtain ⟨j, hfind, hget⟩ := h_lookup_found _ key eq n how hino hcode heq
      (fun n' hn' => huniq2 n' (by rw [hmNodes]; exact List.mem_append_right _ hn'))
    simp only [hmiss, hfind, hget]

theorem hm_lookup_none (m : HMap α) (key : HNode κ)
    (eq : HNode α → HNode κ → Bool) (hwf : HMapWF m)
    (hnone : ∀ x ∈ hmNodes m, ¬(x.hcode = key.hcode ∧ eq x key = true)) :
    (hm_lookup m key eq).2.1 = none := by
  obtain ⟨hwf2, hperm⟩ := hm_help_rehashing_spec m hwf
  have hnone2 : ∀ x ∈ hmNodes (hm_help_rehashing m).1,
      ¬(x.hcode = key.hcode ∧ eq x key = true) :=
    fun x hx => hnone x (hperm.mem_iff.mp hx)
  rw [hm_lookup]
  have hm1 : h_lookup (hm_help_rehashing m).1.newer key eq = none :=
    h_lookup_miss _ key eq (fun x hx => hnone2 x
      (by rw [hmNodes]; exact List.mem_append_left _ hx))
  have hm2 : h_lookup (hm_help_rehashing m).1.older key eq = none :=
    h_lookup_miss _ key eq (fun x hx => hnone2 x
      (by rw [hmNodes]; exact List.mem_append_right _ hx))
  simp only [hm1, hm2]

theorem hm_lookup_state (m : HMap α) (key : HNode κ)
    (eq : HNode α → HNode κ → Bool) (hwf : HMapWF m) :
    HMapWF (hm_lookup m key eq).1 ∧
    List.Perm (hmNodes (hm_lookup m key eq).1) (hmNodes m) := by
  obtain ⟨hwf2, hperm⟩ := hm_help_rehashing_spec m hwf
  rw [hm_lookup]
  rcases h1 : h_lookup (hm_help_rehashing m).1.newer key eq with _ | cur
  · rcases h2 : h_lookup (hm_help_rehashing m).1.older key eq with _ | cur
    · exact ⟨hwf2, hperm⟩
    · exact ⟨hwf2, hperm⟩
  · exact ⟨hwf2, hperm⟩

theorem h_init_wf (n : Nat) (hn : 0 < n) : HTabWF (h_init (α := α) n) := by
  show HTabWF (⟨some (List.replicate n []), n - 1, 0⟩ : HTab α)
  refine ⟨?_, ?_, ?_⟩
  · simp only [List.length_replicate]
    omega
  · intro i hil x hx
    rw [getD_replicate_nil] at hx
    simp at hx
  · show (0 : Nat) = (List.map List.length (List.replicate n [])).sum
    simp [List.map_replicate, List.sum_replicate]

theorem htNodes_h_init (n : Nat) : htNodes (h_init (α := α) n) = [] := by
  rw [htNodes, h_init]
  simp only [Option.getD_some]
  induction n with
  | zero => rfl
  | succ k ih => simpa [List.replicate_succ] using ih

theorem h_init_tab (n : Nat) : (h_init (α := α) n).tab ≠ none := by
  simp [h_init]

/-- Inserting a node: the state stays well formed, the inventory gains the
node, and the assist stays bounded. -/
theorem hm_insert_spec (m : HMap α) (node : HNode α) (hwf : HMapWF m) :
    HMapWF (hm_insert m node).1 ∧
    List.Perm (hmNodes (hm_insert m node).1) (node :: hmNodes m) := by
  obtain ⟨hnw, how, hna⟩ := hwf
  rcases htab : m.newer.tab with _ | bs
  · exact absurd htab hna
  · have hm1wf : HMapWF { m with newer := h_insert m.newer node } :=
      ⟨h_insert_wf m.newer node hnw, how, h_insert_tab m.newer node hna⟩
    have hm1nodes : List.Perm (hmNodes { m with newer := h_insert m.newer node })
        (node :: hmNodes m) := by
      have hp := h_insert_nodes m.newer node hnw hna
      have : hmNodes { m with newer := h_insert m.newer node }
          = htNodes (h_insert m.newer node) ++ htNodes m.older := rfl
      rw [this]
      exact (List.Perm.append_right _ hp).trans (List.Perm.refl _)
    have hstep : hm_insert m node
        = hm_help_rehashing (let m1 : HMap α := { m with newer := h_insert m.newer node };
            match m1.older.tab with
            | none =>
              if (m1.newer.mask + 1) * k_max_load_factor ≤ m1.newer.size then
                hm_trigger_rehashing m1
              else m1
            | some _ => m1) := by
      simp only [hm_insert, htab]
    rw [hstep]
    rcases hotab : m.older.tab with _ | obs
    · simp only [hotab]
      by_cases htrig : ((h_insert m.newer node).mask + 1) * k_max_load_factor
          ≤ (h_insert m.newer node).size
      · rw [if_pos (by simpa using htrig)]
        have htrigwf : HMapWF (hm_trigger_rehashing
            { m with newer := h_insert m.newer node }) := by
          refine ⟨h_init_wf _ (by omega), hm1wf.1, h_init_tab _⟩
        have htrignodes : hmNodes (hm_trigger_rehashing
            { m with newer := h_insert m.newer node })
            = htNodes (h_init (((h_insert m.newer node).mask + 1) * 2))
              ++ htNodes (h_insert m.newer node) := rfl
        have hperm3 : List.Perm (hmNodes (hm_trigger_rehashing
            { m with newer := h_insert m.newer node })) (node :: hmNodes m) := by
          rw [htrignodes, htNodes_h_init]
          have h0 : htNodes m.older = [] := by
            simp [htNodes, hotab]
          have : hmNodes { m with newer := h_insert m.newer node }
              = htNodes (h_insert m.newer node) ++ htNodes m.older := rfl
          rw [this, h0, List.append_nil] at hm1nodes
          simpa using hm1nodes
        obtain ⟨hh1, hh2⟩ := hm_help_rehashing_spec _ htrigwf
        exact ⟨hh1, hh2.trans hperm3⟩
      · rw [if_neg (by simpa using htrig)]
        obtain ⟨hh1, hh2⟩ := hm_help_rehashing_spec _ hm1wf
        exact ⟨hh1, hh2.trans hm1nodes⟩
    · simp only [hotab]
      obtain ⟨hh1, hh2⟩ := hm_help_rehashing_spec _ hm1wf
      exact ⟨hh1, hh2.trans hm1nodes⟩

/-- Deleting with a present, uniquely matching node: the node is returned,
removed from the inventory, and well-formedness is preserved. -/
theorem hm_delete_found (m : HMap α) (key : HNode κ)
    (eq : HNode α → HNode κ → Bool) (n : HNode α) (hwf : HMapWF m)
    (hmem : n ∈ hmNodes m) (hcode : n.hcode = key.hcode)
    (heq : eq n key = true)
    (huniq : ∀ n' ∈ hmNodes m, n'.hcode = key.hcode → eq n' key = true →
      n' = n) :
    HMapWF (hm_delete m key eq).1 ∧ (hm_delete m key eq).2.1 = some n ∧
    List.Perm (hmNodes m) (n :: hmNodes (hm_delete m key eq).1) := by
  obtain ⟨hwf2, hperm⟩ := hm_help_rehashing_spec m hwf
  obtain ⟨hnw, how, hna⟩ := hwf2
  have hmem2 : n ∈ hmNodes (hm_help_rehashing m).1 := hperm.mem_iff.mpr hmem
  have huniq2 : ∀ n' ∈ hmNodes (hm_help_rehashing m).1,
      n'.hcode = key.hcode → eq n' key = true → n' = n :=
    fun n' hn' => huniq n' (hperm.mem_iff.mp hn')
  rw [hm_delete]
  by_cases hinn : n ∈ htNodes (hm_help_rehashing m).1.newer
  · obtain ⟨j, hfind, hget⟩ := h_lookup_found _ key eq n hnw hinn hcode heq
      (fun n' hn' => huniq2 n' (by rw [hmNodes]; exact List.mem_append_left _ hn'))
    rcases hbtab : (hm_help_rehashing m).1.newer.tab with _ | nbs
    · exfalso
      exact hna hbtab
    · have hgetb : (nbs.getD (key.hcode &&& (hm_help_rehashing m).1.newer.mask) []).get? j
          = some n := by
        rw [cursor_get, hbtab] at hget
        exact hget
      have hslotlt : key.hcode &&& (hm_help_rehashing m).1.newer.mask < nbs.length := by
        rw [HTabWF, hbtab] at hnw
        have := Nat.and_le_right (n := key.hcode)
          (m := (hm_help_rehashing m).1.newer.mask)
        omega
      obtain ⟨hdwf, hdval, hdperm, hdtab, _, _, _⟩ := h_detach_spec
        (hm_help_rehashing m).1.newer (key.hcode &&& (hm_help_rehashing m).1.newer.mask, j)
        n hnw nbs hbtab hslotlt hgetb
      simp only [hfind]
      refine ⟨⟨hdwf, how, hdtab⟩, hdval, ?_⟩
      refine hperm.symm.trans ?_
      have hsplit : hmNodes (hm_help_rehashing m).1
          = htNodes (hm_help_rehashing m).1.newer ++ htNodes (hm_help_rehashing m).1.older := rfl
      rw [hsplit]
      have := List.Perm.append_right (htNodes (hm_help_rehashing m).1.older) hdperm
      simpa using this
  · have hino : n ∈ htNodes (hm_help_rehashing m).1.older := by
      have : n ∈ htNodes (hm_help_rehashing m).1.newer ++ htNodes (hm_help_rehashing m).1.older := hmem2
      rw [List.mem_append] at this
      tauto
    have hmiss : h_lookup (hm_help_rehashing m).1.newer key eq = none := by
      apply h_lookup_miss
      intro x hx hmatch
      have hxn : x = n := huniq2 x
        (by rw [hmNodes]; exact List.mem_append_left _ hx) hmatch.1 hmatch.2
      exact hinn (hxn ▸ hx)
    obtain ⟨j, hfind, hget⟩ := h_lookup_found _ key eq n how hino hcode heq
      (fun n' hn' => huniq2 n' (by rw [hmNodes]; exact List.mem_append_right _ hn'))
    rcases hbtab : (hm_help_rehashing m).1.older.tab with _ | obs
    · exfalso
      rw [cursor_get, hbtab] at hget
      exact Option.noConfusion hget
    · have hgetb : (obs.getD (key.hcode &&& (hm_help_rehashing m).1.older.mask) []).get? j
          = some n := by
        rw [cursor_get, hbtab] at hget
        exact hget
      have hslotlt : key.hcode &&& (hm_help_rehashing m).1.older.mask < obs.length := by
        rw [HTabWF, hbtab] at how
        have := Nat.and_le_right (n := key.hcode)
          (m := (hm_help_rehashing m).1.older.mask)
        omega
      obtain ⟨hdwf, hdval, hdperm, hdtab, _, _, _⟩ := h_detach_spec
        (hm_help_rehashing m).1.older (key.hcode &&& (hm_help_rehashing m).1.older.mask, j)
        n how obs hbtab hslotlt hgetb
      simp only [hmiss, hfind]
      refine ⟨⟨hnw, hdwf, hna⟩, hdval, ?_⟩
      refine hperm.symm.trans ?_
      have hsplit : hmNodes (hm_help_rehashing m).1
          = htNodes (hm_help_rehashing m).1.newer ++ htNodes (hm_help_rehashing m).1.older := rfl
      rw [hsplit]
      have hap := List.Perm.append_left (htNodes (hm_help_rehashing m).1.newer) hdperm
      refine hap.trans ?_
      exact (@List.perm_middle _ n (htNodes (hm_help_rehashing m).1.newer)
        (htNodes (h_detach (hm_help_rehashing m).1.older
          (key.hcode &&& (hm_help_rehashing m).1.older.mask, j)).1))

/-- Deleting an absent key: nothing is returned and the inventory is
preserved. -/
theorem hm_delete_none (m : HMap α) (key : HNode κ)
    (eq : HNode α → HNode κ → Bool) (hwf : HMapWF m)
    (hnone : ∀ x ∈ hmNodes m, ¬(x.hcode = key.hcode ∧ eq x key = true)) :
    HMapWF (hm_delete m key eq).1 ∧ (hm_delete m key eq).2.1 = none ∧
    List.Perm (hmNodes (hm_delete m key eq).1) (hmNodes m) := by
  obtain ⟨hwf2, hperm⟩ := hm_help_rehashing_spec m hwf
  have hnone2 : ∀ x ∈ hmNodes (hm_help_rehashing m).1,
      ¬(x.hcode = key.hcode ∧ eq x key = true) :=
    fun x hx => hnone x (hperm.mem_iff.mp hx)
  rw [hm_delete]
  have hm1 : h_lookup (hm_help_rehashing m).1.newer key eq = none :=
    h_lookup_miss _ key eq (fun x hx => hnone2 x
      (by rw [hmNodes]; exact List.mem_append_left _ hx))
  have hm2 : h_lookup (hm_help_rehashing m).1.older key eq = none :=
    h_lookup_miss _ key eq (fun x hx => hnone2 x
      (by rw [hmNodes]; exact List.mem_append_right _ hx))
  simp only [hm1, hm2]
  exact ⟨hwf2, trivial, hperm⟩

theorem hm_lookup_moved (m : HMap α) (key : HNode κ)
    (eq : HNode α → HNode κ → Bool) :
    (hm_lookup m key eq).2.2 ≤ k_rehashing_work := by
  rw [hm_lookup]
  rcases h1 : h_lookup (hm_help_rehashing m).1.newer key eq with _ | cur
  · rcases h2 : h_lookup (hm_help_rehashing m).1.older key eq with _ | cur
    · exact hm_help_rehashing_moved m
    · exact hm_help_rehashing_moved m
  · exact hm_help_rehashing_moved m

theorem hm_insert_moved (m : HMap α) (node : HNode α) :
    (hm_insert m node).2 ≤ k_rehashing_work := by
  exact hm_help_rehashing_moved _

theorem hm_delete_moved (m : HMap α) (key : HNode κ)
    (eq : HNode α → HNode κ → Bool) :
    (hm_delete m key eq).2.2 ≤ k_rehashing_work := by
  rw [hm_delete]
  rcases h1 : h_lookup (hm_help_rehashing m).1.newer key eq with _ | cur
  · rcases h2 : h_lookup (hm_help_rehashing m).1.older key eq with _ | cur
    · exact hm_help_rehashing_moved m
    · exact hm_help_rehashing_moved m
  · exact hm_help_rehashing_moved m

/-- C6: every single call to `hm_lookup`, `hm_insert` or `hm_delete`
performs bounded rehash work: its embedded `hm_help_rehashing` assist
migrates at most `k_rehashing_work` entries from the older table into the
newer one, and `k_rehashing_work` is one constant lying in the range
64 to 128. -/
theorem hm_per_op_migration_bounded :
    (64 ≤ k_rehashing_work ∧ k_rehashing_work ≤ 128) ∧
    (∀ (m : HMap α) (key : HNode κ) (eq : HNode α → HNode κ → Bool),
      (hm_lookup m key eq).2.2 ≤ k_rehashing_work) ∧
    (∀ (m : HMap α) (node : HNode α),
      (hm_insert m node).2 ≤ k_rehashing_work) ∧
    (∀ (m : HMap α) (key : HNode κ) (eq : HNode α → HNode κ → Bool),
      (hm_delete m key eq).2.2 ≤ k_rehashing_work) :=
  ⟨⟨by decide, by decide⟩,
    fun m key eq => hm_lookup_moved m key eq,
    fun m node => hm_insert_moved m node,
    fun m key eq => hm_delete_moved m key eq⟩

/-! ### Keyed database lemmas -/

theorem KeyedWF_init : KeyedWF hm_init :=
  ⟨hm_init_wf, by simp [hmNodes_init], by simp [hmKeys, hmNodes_init]⟩

theorem keyed_unique (m : HMap EntryData) (hwf : KeyedWF m)
    (n : HNode EntryData) (hmem : n ∈ hmNodes m) :
    ∀ n' ∈ hmNodes m, n'.hcode = (mkLookupKey n.data.key).hcode →
      key_eq n' (mkLookupKey n.data.key) = true → n' = n := by
  intro n' hmem' _ heq
  have hk : n'.data.key = n.data.key := by
    simpa [key_eq, mkLookupKey] using heq
  exact List.inj_on_of_nodup_map hwf.2.2 hmem' hmem hk

theorem keyed_lookup_finds (m : HMap EntryData) (hwf : KeyedWF m)
    (n : HNode EntryData) (hmem : n ∈ hmNodes m) :
    (hm_lookup m (mkLookupKey n.data.key) key_eq).2.1 = some n := by
  apply hm_lookup_found m _ key_eq n hwf.1 hmem
  · simpa [mkLookupKey] using hwf.2.1 n hmem
  · simp [key_eq, mkLookupKey]
  · exact keyed_unique m hwf n hmem

theorem keyed_lookup_absent (m : HMap EntryData) (hwf : KeyedWF m)
    (k : ByteStr) (habs : k ∉ hmKeys m) :
    (hm_lookup m (mkLookupKey k) key_eq).2.1 = none := by
  apply hm_lookup_none m _ key_eq hwf.1
  intro x hx hmatch
  apply habs
  have hk : x.data.key = k := by
    simpa [key_eq, mkLookupKey] using hmatch.2
  rw [hmKeys, ← hk]
  exact List.mem_map_of_mem _ hx

theorem KeyedWF_of_perm (m m' : HMap EntryData) (hwf : KeyedWF m)
    (hm' : HMapWF m')
    (hperm : List.Perm (hmNodes m') (hmNodes m)) : KeyedWF m' :=
  ⟨hm', fun n hn => hwf.2.1 n (hperm.mem_iff.mp hn), by
    show ((hmNodes m').map (fun n => n.data.key)).Nodup
    have h2 : ((hmNodes m).map (fun n => n.data.key)).Nodup := hwf.2.2
    exact ((hperm.map (fun n => n.data.key)).nodup_iff).mpr h2⟩

theorem keyed_lookup_state (m : HMap EntryData) (hwf : KeyedWF m)
    (key : HNode LookupKeyData) :
    KeyedWF (hm_lookup m key key_eq).1 ∧
    List.Perm (hmNodes (hm_lookup m key key_eq).1) (hmNodes m) := by
  obtain ⟨h1, h2⟩ := hm_lookup_state m key key_eq hwf.1
  exact ⟨KeyedWF_of_perm m _ hwf h1 h2, h2⟩

theorem keyed_insert_state (m : HMap EntryData) (hwf : KeyedWF m)
    (k v : ByteStr) (hfresh : k ∉ hmKeys m) :
    KeyedWF (hm_insert m (mkEntry k v)).1 ∧
    List.Perm (hmNodes (hm_insert m (mkEntry k v)).1)
      (mkEntry k v :: hmNodes m) := by
  obtain ⟨h1, h2⟩ := hm_insert_spec m (mkEntry k v) hwf.1
  refine ⟨⟨h1, ?_, ?_⟩, h2⟩
  · intro n hn
    have := h2.mem_iff.mp hn
    rcases List.mem_cons.mp this with rfl | hmem
    · rfl
    · exact hwf.2.1 n hmem
  · have hkeysperm : List.Perm (hmKeys (hm_insert m (mkEntry k v)).1)
        (k :: hmKeys m) := by
      have := h2.map (fun n => n.data.key)
      simpa [hmKeys, mkEntry] using this
    rw [List.Perm.nodup_iff hkeysperm]
    exact List.Nodup.cons hfresh hwf.2.2

/-- Pick out the stored node carrying key `k`, if any. -/
theorem keyed_present (m : HMap EntryData) (k : ByteStr)
    (hk : k ∈ hmKeys m) :
    ∃ n ∈ hmNodes m, n.data.key = k := by
  rw [hmKeys] at hk
  obtain ⟨n, hn, hkey⟩ := List.mem_map.mp hk
  exact ⟨n, hn, hkey⟩

theorem keyed_delete_found (m : HMap EntryData) (hwf : KeyedWF m)
    (n : HNode EntryData) (hmem : n ∈ hmNodes m) :
    KeyedWF (hm_delete m (mkLookupKey n.data.key) key_eq).1 ∧
    (hm_delete m (mkLookupKey n.data.key) key_eq).2.1 = some n ∧
    List.Perm (hmNodes m)
      (n :: hmNodes (hm_delete m (mkLookupKey n.data.key) key_eq).1) := by
  obtain ⟨h1, h2, h3⟩ := hm_delete_found m (mkLookupKey n.data.key) key_eq n
    hwf.1 hmem (by simpa [mkLookupKey] using hwf.2.1 n hmem)
    (by simp [key_eq, mkLookupKey]) (keyed_unique m hwf n hmem)
  refine ⟨⟨h1, ?_, ?_⟩, h2, h3⟩
  · intro x hx
    exact hwf.2.1 x (h3.mem_iff.mpr (List.mem_cons_of_mem n hx))
  · have hkp : List.Perm (hmKeys m)
        (n.data.key :: hmKeys (hm_delete m (mkLookupKey n.data.key) key_eq).1) := by
      simpa [hmKeys] using h3.map (fun x => x.data.key)
    have hnd := (List.Perm.nodup_iff hkp).mp hwf.2.2
    exact hnd.of_cons

theorem keyed_delete_absent (m : HMap EntryData) (hwf : KeyedWF m)
    (k : ByteStr) (habs : k ∉ hmKeys m) :
    KeyedWF (hm_delete m (mkLookupKey k) key_eq).1 ∧
    (hm_delete m (mkLookupKey k) key_eq).2.1 = none ∧
    List.Perm (hmNodes (hm_delete m (mkLookupKey k) key_eq).1) (hmNodes m) := by
  have hnone : ∀ x ∈ hmNodes m,
      ¬(x.hcode = (mkLookupKey k).hcode ∧ key_eq x (mkLookupKey k) = true) := by
    intro x hx hmatch
    apply habs
    have hk : x.data.key = k := by
      simpa [key_eq, mkLookupKey] using hmatch.2
    rw [hmKeys, ← hk]
    exact List.mem_map_of_mem _ hx
  obtain ⟨h1, h2, h3⟩ := hm_delete_none m (mkLookupKey k) key_eq hwf.1 hnone
  exact ⟨KeyedWF_of_perm m _ hwf h1 h3, h2, h3⟩

theorem applyOp_spec (m : HMap EntryData) (op : DbOp) (hwf : KeyedWF m)
    (hok : OpOk m op) :
    KeyedWF (applyOp m op) ∧
    ∀ n ∈ hmNodes m, ¬opDeletes n.data.key op →
      n ∈ hmNodes (applyOp m op) := by
  cases op with
  | ins k v =>
    obtain ⟨h1, h2⟩ := keyed_insert_state m hwf k v hok
    exact ⟨h1, fun n hn _ => h2.mem_iff.mpr (List.mem_cons_of_mem _ hn)⟩
  | del k =>
    by_cases hk : k ∈ hmKeys m
    · obtain ⟨dn, hdn, hdk⟩ := keyed_present m k hk
      subst hdk
      obtain ⟨h1, h2, h3⟩ := keyed_delete_found m hwf dn hdn
      refine ⟨h1, ?_⟩
      intro n hn hnd
      have hne : n.data.key ≠ dn.data.key := by
        simpa [opDeletes] using hnd
      have hmem2 := h3.mem_iff.mp hn
      rcases List.mem_cons.mp hmem2 with rfl | hx
      · exact absurd rfl hne
      · exact hx
    · obtain ⟨h1, h2, h3⟩ := keyed_delete_absent m hwf k hk
      exact ⟨h1, fun n hn _ => h3.mem_iff.mpr hn⟩
  | look k =>
    obtain ⟨h1, h2⟩ := keyed_lookup_state m hwf (mkLookupKey k)
    exact ⟨h1, fun n hn _ => h2.mem_iff.mpr hn⟩

theorem applyOps_spec : ∀ (ops : List DbOp) (m : HMap EntryData),
    KeyedWF m → OpsOk m ops →
    ∀ n ∈ hmNodes m, (∀ op ∈ ops, ¬opDeletes n.data.key op) →
    KeyedWF (applyOps m ops) ∧ n ∈ hmNodes (applyOps m ops) := by
  intro ops
  induction ops with
  | nil =>
    intro m hwf _ n hn _
    exact ⟨hwf, hn⟩
  | cons op rest ih =>
    intro m hwf hops n hn hnd
    obtain ⟨h1, h2⟩ := applyOp_spec m op hwf hops.1
    exact ih (applyOp m op) h1 hops.2 n
      (h2 n hn (hnd op (List.mem_cons_self op rest)))
      (fun o ho => hnd o (List.mem_cons_of_mem op ho))

theorem applyOps_wf : ∀ (ops : List DbOp) (m : HMap EntryData),
    KeyedWF m → OpsOk m ops → KeyedWF (applyOps m ops) := by
  intro ops
  induction ops with
  | nil =>
    intro m hwf _
    exact hwf
  | cons op rest ih =>
    intro m hwf hops
    exact ih (applyOp m op) (applyOp_spec m op hwf hops.1).1 hops.2

/-- C5: starting from any keyed-well-formed map state, after any legal
sequence of map operations that never deletes the key of stored node `n`
(including every intermediate step of a progressive migration), `n` is
stored in exactly one of the two tables - its copies in `newer` and
`older` together count exactly one - and `hm_lookup`, which consults both
tables, still returns it. -/
theorem hm_exactly_one_table_findable (m : HMap EntryData) (ops : List DbOp)
    (n : HNode EntryData) (hwf : KeyedWF m) (hops : OpsOk m ops)
    (hmem : n ∈ hmNodes m)
    (hsurv : ∀ op ∈ ops, ¬opDeletes n.data.key op) :
    (List.count n (htNodes (applyOps m ops).newer)
      + List.count n (htNodes (applyOps m ops).older) = 1) ∧
    (hm_lookup (applyOps m ops) (mkLookupKey n.data.key) key_eq).2.1
      = some n := by
  obtain ⟨hwf2, hmem2⟩ := applyOps_spec ops m hwf hops n hmem hsurv
  constructor
  · have hnodup : (hmNodes (applyOps m ops)).Nodup := by
      have hkn : ((hmNodes (applyOps m ops)).map
          (fun x => x.data.key)).Nodup := hwf2.2.2
      exact hkn.of_map
    have hc := List.count_eq_one_of_mem hnodup hmem2
    have hsplit : List.count n (hmNodes (applyOps m ops))
        = List.count n (htNodes (applyOps m ops).newer)
          + List.count n (htNodes (applyOps m ops).older) :=
      List.count_append n _ _
    omega
  · exact keyed_lookup_finds _ hwf2 n hmem2

theorem hm_exactly_one_table_findable_witness :
    (List.count (mkEntry [0] [7])
        (htNodes (applyOps (applyOp hm_init (DbOp.ins [0] [7]))
          [DbOp.look [0]]).newer)
      + List.count (mkEntry [0] [7])
        (htNodes (applyOps (applyOp hm_init (DbOp.ins [0] [7]))
          [DbOp.look [0]]).older) = 1) ∧
    (hm_lookup (applyOps (applyOp hm_init (DbOp.ins [0] [7]))
        [DbOp.look [0]])
      (mkLookupKey (mkEntry [0] [7]).data.key) key_eq).2.1
      = some (mkEntry [0] [7]) := by
  have hwf0 : KeyedWF (applyOp hm_init (DbOp.ins [0] [7])) :=
    (keyed_insert_state hm_init KeyedWF_init [0] [7]
      (by simp [hmKeys, hmNodes_init])).1
  have hmem0 : mkEntry [0] [7] ∈ hmNodes (applyOp hm_init (DbOp.ins [0] [7])) :=
    (keyed_insert_state hm_init KeyedWF_init [0] [7]
      (by simp [hmKeys, hmNodes_init])).2.mem_iff.mpr (List.mem_cons_self _ _)
  exact hm_exactly_one_table_findable (applyOp hm_init (DbOp.ins [0] [7]))
    [DbOp.look [0]] (mkEntry [0] [7]) hwf0 ⟨trivial, trivial⟩ hmem0
    (by intro op hop
        rcases List.mem_singleton.mp hop with rfl
        simp [opDeletes])

/-- C10: inserting a fresh-keyed node or deleting a key leaves the lookup
result of every other stored key unchanged - migration between the two
tables never changes which node a lookup returns. -/
theorem hm_insert_delete_frame (m : HMap EntryData) (hwf : KeyedWF m) :
    (∀ k v : ByteStr, k ∉ hmKeys m →
      ∀ n ∈ hmNodes m, n.data.key ≠ k →
        (hm_lookup (hm_insert m (mkEntry k v)).1
          (mkLookupKey n.data.key) key_eq).2.1
          = (hm_lookup m (mkLookupKey n.data.key) key_eq).2.1) ∧
    (∀ k : ByteStr, ∀ n ∈ hmNodes m, n.data.key ≠ k →
      (hm_lookup (hm_delete m (mkLookupKey k) key_eq).1
          (mkLookupKey n.data.key) key_eq).2.1
        = (hm_lookup m (mkLookupKey n.data.key) key_eq).2.1) := by
  constructor
  · intro k v hfresh n hn hne
    obtain ⟨h1, h2⟩ := keyed_insert_state m hwf k v hfresh
    rw [keyed_lookup_finds m hwf n hn]
    exact keyed_lookup_finds _ h1 n (h2.mem_iff.mpr (List.mem_cons_of_mem _ hn))
  · intro k n hn hne
    rw [keyed_lookup_finds m hwf n hn]
    by_cases hk : k ∈ hmKeys m
    · obtain ⟨dn, hdn, hdk⟩ := keyed_present m k hk
      subst hdk
      obtain ⟨h1, h2, h3⟩ := keyed_delete_found m hwf dn hdn
      have hmem2 : n ∈ hmNodes (hm_delete m (mkLookupKey dn.data.key) key_eq).1 := by
        have := h3.mem_iff.mp hn
        rcases List.mem_cons.mp this with rfl | hx
        · exact absurd rfl hne
        · exact hx
      exact keyed_lookup_finds _ h1 n hmem2
    · obtain ⟨h1, h2, h3⟩ := keyed_delete_absent m hwf k hk
      exact keyed_lookup_finds _ h1 n (h3.mem_iff.mpr hn)

theorem hm_insert_delete_frame_witness :
    ((hm_lookup (hm_insert (applyOp hm_init (DbOp.ins [0] [7]))
        (mkEntry [1] [9])).1
        (mkLookupKey (mkEntry [0] [7]).data.key) key_eq).2.1
      = (hm_lookup (applyOp hm_init (DbOp.ins [0] [7]))
        (mkLookupKey (mkEntry [0] [7]).data.key) key_eq).2.1) ∧
    ((hm_lookup (hm_delete (applyOp hm_init (DbOp.ins [0] [7]))
        (mkLookupKey [1]) key_eq).1
        (mkLookupKey (mkEntry [0] [7]).data.key) key_eq).2.1
      = (hm_lookup (applyOp hm_init (DbOp.ins [0] [7]))
        (mkLookupKey (mkEntry [0] [7]).data.key) key_eq).2.1) := by
  have hwf0 : KeyedWF (applyOp hm_init (DbOp.ins [0] [7])) :=
    (keyed_insert_state hm_init KeyedWF_init [0] [7]
      (by simp [hmKeys, hmNodes_init])).1
  have hmem0 : mkEntry [0] [7] ∈ hmNodes (applyOp hm_init (DbOp.ins [0] [7])) :=
    (keyed_insert_state hm_init KeyedWF_init [0] [7]
      (by simp [hmKeys, hmNodes_init])).2.mem_iff.mpr (List.mem_cons_self _ _)
  have hkeys : hmKeys (applyOp hm_init (DbOp.ins [0] [7]))
      = [[0]] := by
    have hp := (keyed_insert_state hm_init KeyedWF_init [0] [7]
      (by simp [hmKeys, hmNodes_init])).2.map (fun x => x.data.key)
    have : List.Perm (hmKeys (applyOp hm_init (DbOp.ins [0] [7]))) [[0]] := by
      simpa [hmKeys, mkEntry, hmNodes_init] using hp
    have hlen := this.length_eq
    rcases hx : hmKeys (applyOp hm_init (DbOp.ins [0] [7])) with _ | ⟨a, rest⟩
    · rw [hx] at hlen
      simp at hlen
    · rw [hx] at this hlen
      have hmema := this.mem_iff.mp (List.mem_cons_self a rest)
      simp only [List.mem_singleton] at hmema
      subst hmema
      rcases rest with _ | ⟨b, r2⟩
      · rfl
      · simp at hlen
  constructor
  · exact (hm_insert_delete_frame (applyOp hm_init (DbOp.ins [0] [7])) hwf0).1
      [1] [9] (by rw [hkeys]; simp) (mkEntry [0] [7]) hmem0 (by simp [mkEntry])
  · exact (hm_insert_delete_frame (applyOp hm_init (DbOp.ins [0] [7])) hwf0).2
      [1] (mkEntry [0] [7]) hmem0 (by simp [mkEntry])

/-- C4 (code bug): `str_hash` is not the reference 64-bit FNV-1a.  Its
prime agrees with `0x100000001B3`, but its offset basis constant
`1469598103934665603` is the true basis `0xCBF29CE484222325 =
14695981039346656037` with the final digit dropped, so already on the empty
input the two functions disagree. -/
theorem str_hash_offset_basis_mismatch :
    str_hash [] = 1469598103934665603 ∧
    fnv1a64 [] = 0xCBF29CE484222325 ∧
    (0xCBF29CE484222325 : Nat) = 14695981039346656037 ∧
    FNV_PRIME = 0x100000001B3 ∧
    str_hash [] ≠ fnv1a64 [] := by
  refine ⟨rfl, rfl, by decide, by decide, by decide⟩

/-! ### Logical view of the database -/

theorem find?_unique_some (l : List β) (p : β → Bool) (n : β)
    (hmem : n ∈ l) (hp : p n = true)
    (huniq : ∀ a ∈ l, p a = true → a = n) : l.find? p = some n := by
  induction l with
  | nil => simp at hmem
  | cons c rest ih =>
    by_cases hc : p c = true
    · rw [List.find?_cons_of_pos _ hc]
      rw [huniq c (List.mem_cons_self c rest) hc]
    · rw [List.find?_cons_of_neg _ hc]
      have hnc : n ≠ c := fun h => hc (h ▸ hp)
      have hmem2 : n ∈ rest := by
        rcases List.mem_cons.mp hmem with h | h
        · exact absurd h hnc
        · exact h
      exact ih hmem2 (fun a ha hpa => huniq a (List.mem_cons_of_mem c ha) hpa)

theorem find?_map_pred (l : List β) (f : β → β) (p : β → Bool)
    (hp : ∀ x, p (f x) = p x) :
    (l.map f).find? p = (l.find? p).map f := by
  induction l with
  | nil => simp
  | cons c rest ih =>
    by_cases hc : p c = true
    · rw [List.map_cons, List.find?_cons_of_pos _ (by rw [hp]; exact hc),
        List.find?_cons_of_pos _ hc]
      rfl
    · rw [List.map_cons, List.find?_cons_of_neg _ (by rw [hp]; exact hc),
        List.find?_cons_of_neg _ hc]
      exact ih

theorem entryFor_mem (db : HMap EntryData) (k : ByteStr)
    (n : HNode EntryData) (hef : entryFor db k = some n) :
    n ∈ hmNodes db ∧ n.data.key = k := by
  refine ⟨List.mem_of_find?_eq_some hef, ?_⟩
  have := List.find?_some hef
  simpa using this

theorem entryFor_none_iff (db : HMap EntryData) (k : ByteStr) :
    entryFor db k = none ↔ k ∉ hmKeys db := by
  rw [entryFor, List.find?_eq_none]
  constructor
  · intro h hk
    obtain ⟨n, hn, hkey⟩ := keyed_present db k hk
    exact h n hn (by simp [hkey])
  · intro h n hn hp
    apply h
    have hkey : n.data.key = k := by simpa using hp
    rw [hmKeys, ← hkey]
    exact List.mem_map_of_mem _ hn

theorem entryFor_unique_some (db : HMap EntryData) (hwf : KeyedWF db)
    (n : HNode EntryData) (k : ByteStr) (hmem : n ∈ hmNodes db)
    (hk : n.data.key = k) : entryFor db k = some n := by
  apply find?_unique_some _ _ n hmem (by simp [hk])
  intro a ha hpa
  have hak : a.data.key = k := by simpa using hpa
  exact List.inj_on_of_nodup_map hwf.2.2 ha hmem (by rw [hak, hk])

theorem entryFor_perm (db db' : HMap EntryData) (hwf : KeyedWF db)
    (hwf' : KeyedWF db')
    (hperm : List.Perm (hmNodes db') (hmNodes db)) (k : ByteStr) :
    entryFor db' k = entryFor db k := by
  rcases hef : entryFor db k with _ | n
  · rw [entryFor_none_iff] at hef ⊢
    intro hk
    apply hef
    rw [hmKeys] at hk ⊢
    exact (hperm.map (fun x => x.data.key)).mem_iff.mp hk
  · obtain ⟨hmem, hkey⟩ := entryFor_mem db k n hef
    exact entryFor_unique_some db' hwf' n k (hperm.mem_iff.mpr hmem) hkey

/-! ### `hm_set_val` (the in-place `e->val.swap`) -/

theorem hmNodes_set_val (m : HMap EntryData) (n : HNode EntryData)
    (v : ByteStr) :
    hmNodes (hm_set_val m n v) = (hmNodes m).map
      (fun x => if x = n then ⟨x.hcode, ⟨x.data.key, v⟩⟩ else x) := by
  have hht : ∀ ht : HTab EntryData,
      htNodes (⟨ht.tab.map (fun bs => bs.map (fun c => c.map
          (fun x => if x = n then (⟨x.hcode, ⟨x.data.key, v⟩⟩ : HNode EntryData)
            else x))),
        ht.mask, ht.size⟩ : HTab EntryData)
      = (htNodes ht).map
        (fun x => if x = n then ⟨x.hcode, ⟨x.data.key, v⟩⟩ else x) := by
    intro ht
    rcases htab : ht.tab with _ | bs
    · simp [htNodes, htab]
    · simp only [htNodes, htab, Option.map_some, Option.getD_some]
      exact (List.map_flatten ..).symm
  have hgoal : hmNodes (hm_set_val m n v)
      = htNodes (⟨m.newer.tab.map (fun bs => bs.map (fun c => c.map
          (fun x => if x = n then (⟨x.hcode, ⟨x.data.key, v⟩⟩ : HNode EntryData)
            else x))),
        m.newer.mask, m.newer.size⟩ : HTab EntryData)
      ++ htNodes (⟨m.older.tab.map (fun bs => bs.map (fun c => c.map
          (fun x => if x = n then (⟨x.hcode, ⟨x.data.key, v⟩⟩ : HNode EntryData)
            else x))),
        m.older.mask, m.older.size⟩ : HTab EntryData) := rfl
  rw [hgoal, hht m.newer, hht m.older, hmNodes, List.map_append]

theorem getD_map_pres (bs : List (List γ)) (F : List γ → List γ)
    (hF : F [] = []) (i : Nat) : (bs.map F).getD i [] = F (bs.getD i []) := by
  induction bs generalizing i with
  | nil =>
    cases i <;> (show ([] : List γ) = F []; exact hF.symm)
  | cons b rest ih =>
    cases i with
    | zero => simp
    | succ i => simpa using ih i

theorem set_val_wf (m : HMap EntryData) (hwf : KeyedWF m)
    (n : HNode EntryData) (v : ByteStr) :
    KeyedWF (hm_set_val m n v) := by
  obtain ⟨⟨hnw, how, hna⟩, hhc, hnd⟩ := hwf
  have hkeyf : ∀ x : HNode EntryData,
      ((if x = n then (⟨x.hcode, ⟨x.data.key, v⟩⟩ : HNode EntryData) else x)).data.key
        = x.data.key := by
    intro x
    by_cases hx : x = n <;> simp [hx]
  have hhcf : ∀ x : HNode EntryData,
      ((if x = n then (⟨x.hcode, ⟨x.data.key, v⟩⟩ : HNode EntryData) else x)).hcode
        = x.hcode := by
    intro x
    by_cases hx : x = n <;> simp [hx]
  have htabwf : ∀ ht : HTab EntryData, HTabWF ht →
      HTabWF (⟨ht.tab.map (fun bs => bs.map (fun c => c.map
        (fun x => if x = n then (⟨x.hcode, ⟨x.data.key, v⟩⟩ : HNode EntryData)
          else x))), ht.mask, ht.size⟩ : HTab EntryData) := by
    intro ht hwft
    rcases htab : ht.tab with _ | bs
    · rw [HTabWF, htab] at hwft
      exact hwft
    · rw [HTabWF, htab] at hwft
      obtain ⟨hlen, hslot, hsize⟩ := hwft
      refine ⟨by simpa using hlen, ?_, ?_⟩
      · intro i hil x hx
        have hil2 : i < bs.length := by simpa using hil
        rw [getD_map_pres _ _ rfl] at hx
        obtain ⟨y, hy, hxy⟩ := List.mem_map.mp hx
        rw [← hxy, hhcf]
        exact hslot i hil2 y hy
      · rw [hsize]
        congr 1
        rw [List.map_map]
        apply List.map_congr_left
        intro c _
        simp
  refine ⟨⟨htabwf m.newer hnw, htabwf m.older how, ?_⟩, ?_, ?_⟩
  · rcases htab : m.newer.tab with _ | bs
    · exact absurd htab hna
    · simp [hm_set_val, htab]
  · intro x hx
    rw [hmNodes_set_val] at hx
    obtain ⟨y, hy, hxy⟩ := List.mem_map.mp hx
    rw [← hxy, hhcf, hkeyf]
    exact hhc y hy
  · show ((hmNodes (hm_set_val m n v)).map (fun x => x.data.key)).Nodup
    rw [hmNodes_set_val, List.map_map]
    have : ((fun x : HNode EntryData => x.data.key) ∘
        (fun x => if x = n then (⟨x.hcode, ⟨x.data.key, v⟩⟩ : HNode EntryData)
          else x)) = (fun x : HNode EntryData => x.data.key) := by
      funext x
      simp only [Function.comp]
      exact hkeyf x
    rw [this]
    exact hnd

theorem entryFor_set_val (m : HMap EntryData) (n : HNode EntryData)
    (v k : ByteStr) :
    entryFor (hm_set_val m n v) k = (entryFor m k).map
      (fun x => if x = n then ⟨x.hcode, ⟨x.data.key, v⟩⟩ else x) := by
  rw [entryFor, entryFor, hmNodes_set_val]
  apply find?_map_pred
  intro x
  by_cases hx : x = n <;> simp [hx]

/-! ### Command semantics over the logical view -/

theorem do_get_spec (db : HMap EntryData) (hwf : KeyedWF db)
    (g k : ByteStr) :
    KeyedWF (do_get [g, k] db).1 ∧
    (∀ k2, entryVal (do_get [g, k] db).1 k2 = entryVal db k2) ∧
    (do_get [g, k] db).2
      = (match entryVal db k with
         | some v => out_str v
         | none => out_nil) := by
  have hred : do_get [g, k] db
      = (match (hm_lookup db (mkLookupKey k) key_eq).2.1 with
         | some n => ((hm_lookup db (mkLookupKey k) key_eq).1, out_str n.data.val)
         | none => ((hm_lookup db (mkLookupKey k) key_eq).1, out_nil)) := rfl
  obtain ⟨hwf2, hperm⟩ := keyed_lookup_state db hwf (mkLookupKey k)
  have hpres : ∀ k2, entryFor (hm_lookup db (mkLookupKey k) key_eq).1 k2
      = entryFor db k2 := entryFor_perm db _ hwf hwf2 hperm
  rcases hef : entryFor db k with _ | n
  · have hlook : (hm_lookup db (mkLookupKey k) key_eq).2.1 = none :=
      keyed_lookup_absent db hwf k ((entryFor_none_iff db k).mp hef)
    rw [hred, hlook]
    exact ⟨hwf2, fun k2 => by rw [entryVal, entryVal, hpres k2],
      by rw [entryVal, hef]; rfl⟩
  · obtain ⟨hmem, hkey⟩ := entryFor_mem db k n hef
    have hlook : (hm_lookup db (mkLookupKey k) key_eq).2.1 = some n := by
      rw [← hkey]
      exact keyed_lookup_finds db hwf n hmem
    rw [hred, hlook]
    exact ⟨hwf2, fun k2 => by rw [entryVal, entryVal, hpres k2],
      by rw [entryVal, hef]; rfl⟩

theorem do_set_spec (db : HMap EntryData) (hwf : KeyedWF db)
    (g k v : ByteStr) :
    KeyedWF (do_set [g, k, v] db).1 ∧
    (∀ k2, entryVal (do_set [g, k, v] db).1 k2
      = if k2 = k then some v else entryVal db k2) ∧
    (do_set [g, k, v] db).2 = out_nil := by
  have hred : do_set [g, k, v] db
      = (match (hm_lookup db (mkLookupKey k) key_eq).2.1 with
         | some n => (hm_set_val (hm_lookup db (mkLookupKey k) key_eq).1 n v,
            out_nil)
         | none => ((hm_insert (hm_lookup db (mkLookupKey k) key_eq).1
            (mkEntry k v)).1, out_nil)) := rfl
  obtain ⟨hwf2, hperm⟩ := keyed_lookup_state db hwf (mkLookupKey k)
  have hpres : ∀ k2, entryFor (hm_lookup db (mkLookupKey k) key_eq).1 k2
      = entryFor db k2 := entryFor_perm db _ hwf hwf2 hperm
  rcases hef : entryFor db k with _ | n
  · have habs : k ∉ hmKeys db := (entryFor_none_iff db k).mp hef
    have hlook : (hm_lookup db (mkLookupKey k) key_eq).2.1 = none :=
      keyed_lookup_absent db hwf k habs
    have habs2 : k ∉ hmKeys (hm_lookup db (mkLookupKey k) key_eq).1 := by
      intro hk
      exact habs ((hperm.map (fun x => x.data.key)).mem_iff.mp hk)
    obtain ⟨hwf3, hperm3⟩ := keyed_insert_state _ hwf2 k v habs2
    rw [hred, hlook]
    refine ⟨hwf3, ?_, rfl⟩
    intro k2
    by_cases hk2 : k2 = k
    · subst hk2
      rw [if_pos rfl, entryVal,
        entryFor_unique_some _ hwf3 (mkEntry k2 v) k2
          (hperm3.mem_iff.mpr (List.mem_cons_self _ _)) rfl]
      rfl
    · rw [if_neg hk2, entryVal, entryVal]
      rcases hef2 : entryFor db k2 with _ | n2
      · have h1 := (entryFor_none_iff db k2).mp hef2
        have h2 : k2 ∉ hmKeys (hm_insert (hm_lookup db (mkLookupKey k) key_eq).1
            (mkEntry k v)).1 := by
          intro hk
          have := (hperm3.map (fun x => x.data.key)).mem_iff.mp hk
          simp only [List.map_cons, mkEntry] at this
          rcases List.mem_cons.mp this with h | h
          · exact hk2 h
          · exact h1 ((hperm.map (fun x => x.data.key)).mem_iff.mp h)
        rw [(entryFor_none_iff _ k2).mpr h2]
      · obtain ⟨hmem2, hkey2⟩ := entryFor_mem db k2 n2 hef2
        have hmem3 : n2 ∈ hmNodes (hm_insert (hm_lookup db (mkLookupKey k) key_eq).1
            (mkEntry k v)).1 :=
          hperm3.mem_iff.mpr (List.mem_cons_of_mem _ (hperm.mem_iff.mpr hmem2))
        rw [entryFor_unique_some _ hwf3 n2 k2 hmem3 hkey2]
  · obtain ⟨hmem, hkey⟩ := entryFor_mem db k n hef
    have hlook : (hm_lookup db (mkLookupKey k) key_eq).2.1 = some n := by
      rw [← hkey]
      exact keyed_lookup_finds db hwf n hmem
    rw [hred, hlook]
    refine ⟨set_val_wf _ hwf2 n v, ?_, rfl⟩
    intro k2
    rw [entryVal, entryFor_set_val, hpres k2]
    by_cases hk2 : k2 = k
    · subst hk2
      rw [if_pos rfl, hef]
      simp
    · rw [if_neg hk2, entryVal]
      rcases hef2 : entryFor db k2 with _ | n2
      · rfl
      · obtain ⟨hmem2, hkey2⟩ := entryFor_mem db k2 n2 hef2
        have hne : n2 ≠ n := by
          intro h
          exact hk2 (by rw [← hkey2, h, hkey])
        simp [hne]

theorem do_del_spec (db : HMap EntryData) (hwf : KeyedWF db)
    (g k : ByteStr) :
    KeyedWF (do_del [g, k] db).1 ∧
    (∀ k2, entryVal (do_del [g, k] db).1 k2
      = if k2 = k then none else entryVal db k2) ∧
    (do_del [g, k] db).2
      = (match entryVal db k with
         | some _ => out_int 1
         | none => out_int 0) := by
  have hred : do_del [g, k] db
      = (match (hm_delete db (mkLookupKey k) key_eq).2.1 with
         | some _ => ((hm_delete db (mkLookupKey k) key_eq).1, out_int 1)
         | none => ((hm_delete db (mkLookupKey k) key_eq).1, out_int 0)) := rfl
  rcases hef : entryFor db k with _ | n
  · have habs : k ∉ hmKeys db := (entryFor_none_iff db k).mp hef
    obtain ⟨hwf2, hres, hperm⟩ := keyed_delete_absent db hwf k habs
    have hpres := entryFor_perm db _ hwf hwf2 hperm
    rw [hred, hres]
    refine ⟨hwf2, ?_, by rw [entryVal, hef]; rfl⟩
    intro k2
    by_cases hk2 : k2 = k
    · subst hk2
      rw [if_pos rfl, entryVal, hpres k2, hef]
      rfl
    · rw [if_neg hk2, entryVal, entryVal, hpres k2]
  · obtain ⟨hmem, hkey⟩ := entryFor_mem db k n hef
    subst hkey
    obtain ⟨hwf2, hres, hperm⟩ := keyed_delete_found db hwf n hmem
    have hkp : List.Perm (hmKeys db)
        (n.data.key :: hmKeys (hm_delete db (mkLookupKey n.data.key) key_eq).1) := by
      simpa [hmKeys] using hperm.map (fun x => x.data.key)
    have hnddel : (n.data.key ::
        hmKeys (hm_delete db (mkLookupKey n.data.key) key_eq).1).Nodup :=
      (List.Perm.nodup_iff hkp).mp hwf.2.2
    rw [hred, hres]
    refine ⟨hwf2, ?_, by rw [entryVal, hef]; rfl⟩
    intro k2
    by_cases hk2 : k2 = n.data.key
    · subst hk2
      rw [if_pos rfl, entryVal, (entryFor_none_iff _ _).mpr ?_]
      · rfl
      · exact (List.nodup_cons.mp hnddel).1
    · rw [if_neg hk2, entryVal, entryVal]
      rcases hef2 : entryFor db k2 with _ | n2
      · have h1 := (entryFor_none_iff db k2).mp hef2
        have h2 : k2 ∉ hmKeys (hm_delete db (mkLookupKey n.data.key) key_eq).1 := by
          intro hk
          exact h1 (hkp.symm.mem_iff.mp (List.mem_cons_of_mem _ hk))
        rw [(entryFor_none_iff _ k2).mpr h2]
      · obtain ⟨hmem2, hkey2⟩ := entryFor_mem db k2 n2 hef2
        have hne : n2 ≠ n := by
          intro h
          exact hk2 (by rw [← hkey2, h])
        have hmem3 : n2 ∈ hmNodes (hm_delete db (mkLookupKey n.data.key) key_eq).1 := by
          have := hperm.mem_iff.mp hmem2
          rcases List.mem_cons.mp this with h | h
          · exact absurd h hne
          · exact h
        rw [entryFor_unique_some _ hwf2 n2 k2 hmem3 hkey2]

theorem do_keys_state (cmd : List ByteStr) (db : HMap EntryData) :
    (do_keys cmd db).1 = db := rfl

/-- One dispatcher step over the logical view: well-formedness is
preserved; a well-shaped `set` updates its key, a well-shaped `del` removes
its key, and every other command leaves every key's value unchanged. -/
theorem do_request_step (cmd : List ByteStr) (db : HMap EntryData)
    (hwf : KeyedWF db) :
    KeyedWF (do_request cmd db).1 ∧
    (∀ k2 vv, cmd = [strBytes "set", k2, vv] →
      entryVal (do_request cmd db).1 k2 = some vv) ∧
    (∀ k2, cmd = [strBytes "del", k2] →
      entryVal (do_request cmd db).1 k2 = none) ∧
    (∀ k2, (∀ vv, cmd ≠ [strBytes "set", k2, vv]) →
      cmd ≠ [strBytes "del", k2] →
      entryVal (do_request cmd db).1 k2 = entryVal db k2) := by
  have hGS : strBytes "get" ≠ strBytes "set" := by decide
  have hGD : strBytes "get" ≠ strBytes "del" := by decide
  have hKS : strBytes "keys" ≠ strBytes "set" := by decide
  have hKD : strBytes "keys" ≠ strBytes "del" := by decide
  have hSD : strBytes "set" ≠ strBytes "del" := by decide
  have hDS : strBytes "del" ≠ strBytes "set" := by decide
  rcases cmd with _ | ⟨op, rest⟩
  · refine ⟨hwf, ?_, ?_, ?_⟩
    · intro k2 vv h
      exact absurd h (by simp)
    · intro k2 h
      exact absurd h (by simp)
    · intro k2 _ _
      rfl
  · by_cases hg : op = strBytes "get"
    · subst hg
      have hdis : do_request (strBytes "get" :: rest) db
          = do_get (strBytes "get" :: rest) db := by
        simp [do_request]
      rw [hdis]
      have hunch : ∀ res : HMap EntryData × List Nat, res.1 = db →
          do_get (strBytes "get" :: rest) db = res →
          KeyedWF (do_get (strBytes "get" :: rest) db).1 ∧
          (∀ k2 vv, strBytes "get" :: rest = [strBytes "set", k2, vv] →
            entryVal (do_get (strBytes "get" :: rest) db).1 k2 = some vv) ∧
          (∀ k2, strBytes "get" :: rest = [strBytes "del", k2] →
            entryVal (do_get (strBytes "get" :: rest) db).1 k2 = none) ∧
          (∀ k2, (∀ vv, strBytes "get" :: rest ≠ [strBytes "set", k2, vv]) →
            strBytes "get" :: rest ≠ [strBytes "del", k2] →
            entryVal (do_get (strBytes "get" :: rest) db).1 k2
              = entryVal db k2) := by
        intro res hres hdo
        rw [hdo, hres]
        refine ⟨hwf, ?_, ?_, ?_⟩
        · intro k2 vv h
          injection h with h1 _
          exact absurd h1 hGS
        · intro k2 h
          injection h with h1 _
          exact absurd h1 hGD
        · intro k2 _ _
          rfl
      rcases rest with _ | ⟨a, rest2⟩
      · exact hunch (db, out_nil) rfl rfl
      · rcases rest2 with _ | ⟨b, rest3⟩
        · obtain ⟨h1, h2, _⟩ := do_get_spec db hwf (strBytes "get") a
          refine ⟨h1, ?_, ?_, ?_⟩
          · intro k2 vv h
            injection h with h1x _
            exact absurd h1x hGS
          · intro k2 h
            injection h with h1x _
            exact absurd h1x hGD
          · intro k2 _ _
            exact h2 k2
        · refine hunch (db, out_nil) rfl ?_
          rw [do_get]
          rw [if_pos (by simp)]
    · by_cases hs : op = strBytes "set"
      · subst hs
        have hdis : do_request (strBytes "set" :: rest) db
            = do_set (strBytes "set" :: rest) db := by
          rw [do_request]
          rw [if_neg (by simpa using (Ne.symm hGS)), if_pos (by simp)]
        rw [hdis]
        have hunch : ∀ out : List Nat,
            do_set (strBytes "set" :: rest) db = (db, out) →
            (∀ k2 vv, strBytes "set" :: rest ≠ [strBytes "set", k2, vv]) →
            KeyedWF (do_set (strBytes "set" :: rest) db).1 ∧
            (∀ k2 vv, strBytes "set" :: rest = [strBytes "set", k2, vv] →
              entryVal (do_set (strBytes "set" :: rest) db).1 k2 = some vv) ∧
            (∀ k2, strBytes "set" :: rest = [strBytes "del", k2] →
              entryVal (do_set (strBytes "set" :: rest) db).1 k2 = none) ∧
            (∀ k2, (∀ vv, strBytes "set" :: rest ≠ [strBytes "set", k2, vv]) →
              strBytes "set" :: rest ≠ [strBytes "del", k2] →
              entryVal (do_set (strBytes "set" :: rest) db).1 k2
                = entryVal db k2) := by
          intro out hdo hshape
          rw [hdo]
          refine ⟨hwf, ?_, ?_, ?_⟩
          · intro k2 vv h
            exact absurd h (hshape k2 vv)
          · intro k2 h
            injection h with h1 _
            exact absurd h1 hSD
          · intro k2 _ _
            rfl
        rcases rest with _ | ⟨a, rest2⟩
        · exact hunch out_nil rfl (by intro k2 vv h; simp at h)
        · rcases rest2 with _ | ⟨b, rest3⟩
          · exact hunch out_nil rfl (by intro k2 vv h; simp at h)
          · rcases rest3 with _ | ⟨c, rest4⟩
            · obtain ⟨h1, h2, _⟩ := do_set_spec db hwf (strBytes "set") a b
              refine ⟨h1, ?_, ?_, ?_⟩
              · intro k2 vv h
                simp only [List.cons.injEq, and_true] at h
                obtain ⟨ha, hb⟩ := h.2
                subst ha
                subst hb
                rw [h2 a, if_pos rfl]
              · intro k2 h
                injection h with h1x _
                exact absurd h1x hSD
              · intro k2 hnset _
                rw [h2 k2, if_neg ?_]
                intro hk2
                subst hk2
                exact hnset b rfl
            · exact hunch out_nil (by rw [do_set]; rw [if_pos (by simp)])
                (by intro k2 vv h; simp at h)
      · by_cases hd : op = strBytes "del"
        · subst hd
          have hdis : do_request (strBytes "del" :: rest) db
              = do_del (strBytes "del" :: rest) db := by
            rw [do_request]
            rw [if_neg (by simpa using (Ne.symm hGD)),
              if_neg (by simpa using hDS), if_pos (by simp)]
          rw [hdis]
          have hunch : ∀ out : List Nat,
              do_del (strBytes "del" :: rest) db = (db, out) →
              (∀ k2, strBytes "del" :: rest ≠ [strBytes "del", k2]) →
              KeyedWF (do_del (strBytes "del" :: rest) db).1 ∧
              (∀ k2 vv, strBytes "del" :: rest = [strBytes "set", k2, vv] →
                entryVal (do_del (strBytes "del" :: rest) db).1 k2 = some vv) ∧
              (∀ k2, strBytes "del" :: rest = [strBytes "del", k2] →
                entryVal (do_del (strBytes "del" :: rest) db).1 k2 = none) ∧
              (∀ k2, (∀ vv, strBytes "del" :: rest ≠ [strBytes "set", k2, vv]) →
                strBytes "del" :: rest ≠ [strBytes "del", k2] →
                entryVal (do_del (strBytes "del" :: rest) db).1 k2
                  = entryVal db k2) := by
            intro out hdo hshape
            rw [hdo]
            refine ⟨hwf, ?_, ?_, ?_⟩
            · intro k2 vv h
              injection h with h1 _
              exact absurd h1 hDS
            · intro k2 h
              exact absurd h (hshape k2)
            · intro k2 _ _
              rfl
          rcases rest with _ | ⟨a, rest2⟩
          · exact hunch (out_int 0) rfl (by intro k2 h; simp at h)
          · rcases rest2 with _ | ⟨b, rest3⟩
            · obtain ⟨h1, h2, _⟩ := do_del_spec db hwf (strBytes "del") a
              refine ⟨h1, ?_, ?_, ?_⟩
              · intro k2 vv h
                injection h with h1x _
                exact absurd h1x hDS
              · intro k2 h
                simp only [List.cons.injEq, and_true] at h
                obtain ⟨-, hak⟩ := h
                subst hak
                rw [h2 a, if_pos rfl]
              · intro k2 _ hndel
                rw [h2 k2, if_neg ?_]
                intro hk2
                subst hk2
                exact hndel rfl
            · exact hunch (out_int 0) (by rw [do_del]; rw [if_pos (by simp)])
                (by intro k2 h; simp at h)
        · by_cases hk : op = strBytes "keys"
          · subst hk
            have hdis : do_request (strBytes "keys" :: rest) db
                = do_keys (strBytes "keys" :: rest) db := by
              rw [do_request]
              rw [if_neg (by intro hcon; exact hg (by simpa using hcon)),
                if_neg (by intro hcon; exact hKS (by simpa using hcon)),
                if_neg (by intro hcon; exact hKD (by simpa using hcon)),
                if_pos (by simp)]
            rw [hdis]
            have hst : (do_keys (strBytes "keys" :: rest) db).1 = db := rfl
            refine ⟨by rw [hst]; exact hwf, ?_, ?_, ?_⟩
            · intro k2 vv h
              injection h with h1 _
              exact absurd h1 hKS
            · intro k2 h
              injection h with h1 _
              exact absurd h1 hKD
            · intro k2 _ _
              rw [hst]
          · have hdis : do_request (op :: rest) db
                = (db, out_err_msg (strBytes "ERR bad command")) := by
              rw [do_request]
              rw [if_neg (by simpa using hg), if_neg (by simpa using hs),
                if_neg (by simpa using hd), if_neg (by simpa using hk)]
            rw [hdis]
            refine ⟨hwf, ?_, ?_, ?_⟩
            · intro k2 vv h
              injection h with h1 _
              exact absurd h1 hs
            · intro k2 h
              injection h with h1 _
              exact absurd h1 hd
            · intro k2 _ _
              rfl

theorem dispatch_get (k : ByteStr) (db : HMap EntryData) :
    do_request [strBytes "get", k] db = do_get [strBytes "get", k] db := by
  simp [do_request]

theorem dispatch_set (k v : ByteStr) (db : HMap EntryData) :
    do_request [strBytes "set", k, v] db
      = do_set [strBytes "set", k, v] db := by
  rw [do_request]
  rw [if_neg (by decide), if_pos (by simp)]

theorem dispatch_del (k : ByteStr) (db : HMap EntryData) :
    do_request [strBytes "del", k] db = do_del [strBytes "del", k] db := by
  rw [do_request]
  rw [if_neg (by decide), if_neg (by decide), if_pos (by simp)]

theorem runCmds_wf : ∀ (cs : List (List ByteStr)) (db : HMap EntryData),
    KeyedWF db → KeyedWF (runCmds db cs) := by
  intro cs
  induction cs with
  | nil =>
    intro db hwf
    exact hwf
  | cons c rest ih =>
    intro db hwf
    exact ih (do_request c db).1 (do_request_step c db hwf).1

theorem runCmds_preserves : ∀ (cs : List (List ByteStr))
    (db : HMap EntryData) (k : ByteStr), KeyedWF db →
    (∀ c ∈ cs, (∀ v2, c ≠ [strBytes "set", k, v2]) ∧
      c ≠ [strBytes "del", k]) →
    entryVal (runCmds db cs) k = entryVal db k := by
  intro cs
  induction cs with
  | nil =>
    intro db k hwf _
    rfl
  | cons c rest ih =>
    intro db k hwf hno
    obtain ⟨hwf1, _, _, hpres⟩ := do_request_step c db hwf
    have hstep : runCmds db (c :: rest) = runCmds (do_request c db).1 rest := rfl
    rw [hstep, ih (do_request c db).1 k hwf1
      (fun c2 hc2 => hno c2 (List.mem_cons_of_mem c hc2))]
    exact hpres k (hno c (List.mem_cons_self c rest)).1
      (hno c (List.mem_cons_self c rest)).2

theorem runCmds_append (db : HMap EntryData) (xs ys : List (List ByteStr)) :
    runCmds db (xs ++ ys) = runCmds (runCmds db xs) ys := by
  rw [runCmds, runCmds, runCmds, List.foldl_append]

/-- C2: after `set k v` (and the `set` reply is NIL), a later `get k` with
no intervening arity-3 `set` of `k` and no intervening `del k` replies
`STR(v)` - `get` returns the value of the most recent `set`.  The run
starts from the freshly initialised database and allows arbitrary commands
before the `set` and arbitrary non-`k`-mutating commands between. -/
theorem set_then_get_returns_value (pre post : List (List ByteStr))
    (k v : ByteStr)
    (hpost : ∀ c ∈ post, (∀ v2, c ≠ [strBytes "set", k, v2]) ∧
      c ≠ [strBytes "del", k]) :
    (∀ db : HMap EntryData,
      (do_request [strBytes "set", k, v] db).2 = out_nil) ∧
    (do_request [strBytes "get", k]
      (runCmds hm_init (pre ++ [strBytes "set", k, v] :: post))).2
      = out_str v := by
  constructor
  · intro db
    rw [dispatch_set]
    have hred : do_set [strBytes "set", k, v] db
        = (match (hm_lookup db (mkLookupKey k) key_eq).2.1 with
           | some n => (hm_set_val (hm_lookup db (mkLookupKey k) key_eq).1 n v,
              out_nil)
           | none => ((hm_insert (hm_lookup db (mkLookupKey k) key_eq).1
              (mkEntry k v)).1, out_nil)) := rfl
    rw [hred]
    rcases (hm_lookup db (mkLookupKey k) key_eq).2.1 with _ | n <;> rfl
  · have hwf0 : KeyedWF (runCmds hm_init pre) := runCmds_wf pre hm_init KeyedWF_init
    have hsplit : runCmds hm_init (pre ++ [strBytes "set", k, v] :: post)
        = runCmds (do_request [strBytes "set", k, v]
            (runCmds hm_init pre)).1 post := by
      rw [runCmds_append]
      rfl
    obtain ⟨hwf1, hset, _, _⟩ :=
      do_request_step [strBytes "set", k, v] (runCmds hm_init pre) hwf0
    have hval1 : entryVal (do_request [strBytes "set", k, v]
        (runCmds hm_init pre)).1 k = some v := hset k v rfl
    have hwf2 : KeyedWF (runCmds (do_request [strBytes "set", k, v]
        (runCmds hm_init pre)).1 post) := runCmds_wf post _ hwf1
    have hval2 : entryVal (runCmds (do_request [strBytes "set", k, v]
        (runCmds hm_init pre)).1 post) k = some v := by
      rw [runCmds_preserves post _ k hwf1 hpost]
      exact hval1
    rw [hsplit, dispatch_get]
    obtain ⟨_, _, hreply⟩ := do_get_spec _ hwf2 (strBytes "get") k
    rw [hreply, hval2]

theorem set_then_get_returns_value_witness :
    ((do_request [strBytes "set", [1], [2]] hm_init).2 = out_nil) ∧
    ((do_request [strBytes "get", [1]]
      (runCmds hm_init ([] ++ [strBytes "set", [1], [2]] :: []))).2
      = out_str [2]) :=
  ⟨(set_then_get_returns_value [] [] [1] [2]
      (by intro c hc; simp at hc)).1 hm_init,
    (set_then_get_returns_value [] [] [1] [2]
      (by intro c hc; simp at hc)).2⟩

/-- C3: after `set k v`, `del k` replies INT(1) and removes the entry, so
`get k` then replies NIL and a second `del k` replies INT(0); deleting an
absent key replies INT(0) and leaves the logical store unchanged. -/
theorem del_removes_and_reports (pre : List (List ByteStr)) (k v : ByteStr) :
    ((do_request [strBytes "del", k]
        (runCmds hm_init (pre ++ [[strBytes "set", k, v]]))).2 = out_int 1) ∧
    ((do_request [strBytes "get", k]
        ((do_request [strBytes "del", k]
          (runCmds hm_init (pre ++ [[strBytes "set", k, v]]))).1)).2
      = out_nil) ∧
    ((do_request [strBytes "del", k]
        ((do_request [strBytes "del", k]
          (runCmds hm_init (pre ++ [[strBytes "set", k, v]]))).1)).2
      = out_int 0) ∧
    (∀ db : HMap EntryData, KeyedWF db → k ∉ hmKeys db →
      (do_request [strBytes "del", k] db).2 = out_int 0 ∧
      ∀ k2, entryVal (do_request [strBytes "del", k] db).1 k2
        = entryVal db k2) := by
  have hwf0 : KeyedWF (runCmds hm_init pre) := runCmds_wf pre hm_init KeyedWF_init
  have hsplit : runCmds hm_init (pre ++ [[strBytes "set", k, v]])
      = (do_request [strBytes "set", k, v] (runCmds hm_init pre)).1 := by
    rw [runCmds_append]
    rfl
  obtain ⟨hwf1, hset, _, _⟩ :=
    do_request_step [strBytes "set", k, v] (runCmds hm_init pre) hwf0
  have hval1 : entryVal (runCmds hm_init (pre ++ [[strBytes "set", k, v]])) k
      = some v := by
    rw [hsplit]
    exact hset k v rfl
  have hwf1b : KeyedWF (runCmds hm_init (pre ++ [[strBytes "set", k, v]])) := by
    rw [hsplit]
    exact hwf1
  obtain ⟨hwfd, hdval, hdreply⟩ :=
    do_del_spec (runCmds hm_init (pre ++ [[strBytes "set", k, v]])) hwf1b
      (strBytes "del") k
  refine ⟨?_, ?_, ?_, ?_⟩
  · rw [dispatch_del, hdreply, hval1]
  · rw [dispatch_del, dispatch_get]
    obtain ⟨_, _, hgreply⟩ := do_get_spec _ hwfd (strBytes "get") k
    rw [hgreply, hdval k, if_pos rfl]
  · rw [dispatch_del, dispatch_del]
    obtain ⟨_, _, hdreply2⟩ := do_del_spec _ hwfd (strBytes "del") k
    rw [hdreply2, hdval k, if_pos rfl]
  · intro db hwf habs
    obtain ⟨hwfd2, hdval2, hdreply2⟩ := do_del_spec db hwf (strBytes "del") k
    have hnone : entryVal db k = none := by
      rw [entryVal, (entryFor_none_iff db k).mpr habs]
      rfl
    refine ⟨by rw [dispatch_del, hdreply2, hnone], ?_⟩
    intro k2
    rw [dispatch_del, hdval2 k2]
    by_cases hk2 : k2 = k
    · subst hk2
      rw [if_pos rfl, hnone]
    · rw [if_neg hk2]

theorem del_removes_and_reports_witness :
    ((do_request [strBytes "del", [1]]
        (runCmds hm_init ([] ++ [[strBytes "set", [1], [2]]]))).2
      = out_int 1) ∧
    ((do_request [strBytes "get", [1]]
        ((do_request [strBytes "del", [1]]
          (runCmds hm_init ([] ++ [[strBytes "set", [1], [2]]]))).1)).2
      = out_nil) ∧
    ((do_request [strBytes "del", [1]]
        ((do_request [strBytes "del", [1]]
          (runCmds hm_init ([] ++ [[strBytes "set", [1], [2]]]))).1)).2
      = out_int 0) ∧
    ((do_request [strBytes "del", [1]] hm_init).2 = out_int 0 ∧
      entryVal (do_request [strBytes "del", [1]] hm_init).1 [2]
        = entryVal hm_init [2]) :=
  ⟨(del_removes_and_reports [] [1] [2]).1,
    (del_removes_and_reports [] [1] [2]).2.1,
    (del_removes_and_reports [] [1] [2]).2.2.1,
    ((del_removes_and_reports [] [1] [2]).2.2.2 hm_init KeyedWF_init
      (by simp [hmKeys, hmNodes_init])).1,
    ((del_removes_and_reports [] [1] [2]).2.2.2 hm_init KeyedWF_init
      (by simp [hmKeys, hmNodes_init])).2 [2]⟩

/-! ### The dispatcher's error behaviour and the connection step -/

theorem read_u32_u32le (n : Nat) (rest : List Nat) (h : n < 2 ^ 32) :
    read_u32 (u32le n ++ rest) = some (n, rest) := by
  have harith : n % 256 + 256 * (n / 256 % 256) + 65536 * (n / 65536 % 256)
      + 16777216 * (n / 16777216 % 256) = n := by omega
  show read_u32 (n % 256 :: n / 256 % 256 :: n / 65536 % 256 ::
    n / 16777216 % 256 :: rest) = some (n, rest)
  rw [read_u32, harith]

theorem try_one_request_spec (conn : Conn) (db : HMap EntryData)
    (body : List Nat) (cmd : List ByteStr)
    (hin : conn.incoming = u32le body.length ++ body)
    (hlen : body.length ≤ k_max_msg)
    (hparse : parse_req body = some cmd) :
    try_one_request conn db
      = (true,
         { conn with
           outgoing := conn.outgoing ++ response_frame (do_request cmd db).2,
           incoming := conn.incoming.drop (4 + body.length) },
         (do_request cmd db).1) := by
  have hlen32 : body.length < 2 ^ 32 := by
    have : k_max_msg < 2 ^ 32 := by decide
    omega
  have hr32 : read_u32 conn.incoming = some (body.length, body) := by
    rw [hin]
    exact read_u32_u32le body.length body hlen32
  have hinlen : conn.incoming.length = 4 + body.length := by
    rw [hin, List.length_append]
    have : (u32le body.length).length = 4 := rfl
    omega
  rw [try_one_request]
  rw [if_neg (by omega)]
  rw [hr32]
  show (if k_max_msg < body.length then
      (false, { conn with want_close := true }, db)
    else if conn.incoming.length < 4 + body.length then (false, conn, db)
    else
      match parse_req (List.take body.length body) with
      | none => (false, { conn with want_close := true }, db)
      | some cmd2 =>
        (true,
          { conn with
            outgoing := conn.outgoing ++ response_frame (do_request cmd2 db).2,
            incoming := conn.incoming.drop (4 + body.length) },
          (do_request cmd2 db).1)) = _
  rw [if_neg (by omega), if_neg (by omega), List.take_length, hparse]

/-- C1 counterexample: the dispatcher does not reply
`ERR "ERR bad command"` to the empty argv - it replies NIL - nor to
wrong-arity `get` (NIL) or wrong-arity `del` (INT 0). -/
theorem dispatcher_empty_argv_not_err :
    do_request [] hm_init = (hm_init, out_nil) ∧
    out_nil ≠ out_err_msg (strBytes "ERR bad command") ∧
    (do_request [strBytes "get"] hm_init).2 = out_nil ∧
    (do_request [strBytes "del"] hm_init).2 = out_int 0 ∧
    out_int 0 ≠ out_err_msg (strBytes "ERR bad command") := by
  refine ⟨rfl, by decide, rfl, rfl, by decide⟩

/-- C1 (amended): only a nonempty argv whose first string is none of
`get`, `set`, `del`, `keys` draws `ERR "ERR bad command"`; the empty argv
draws NIL, wrong-arity `get` and `set` draw NIL, wrong-arity `del` draws
INT(0), and any argv headed by `keys` runs the `keys` command; in every
such case the database is untouched where no well-formed mutation occurs,
and a well-formed frame holding any such command is consumed with
`want_close` left unchanged - the connection stays open. -/
theorem dispatcher_bad_command_behavior (db : HMap EntryData) :
    (do_request [] db = (db, out_nil)) ∧
    (∀ op rest, op ≠ strBytes "get" → op ≠ strBytes "set" →
      op ≠ strBytes "del" → op ≠ strBytes "keys" →
      do_request (op :: rest) db
        = (db, out_err_msg (strBytes "ERR bad command"))) ∧
    (∀ rest, rest.length ≠ 1 →
      do_request (strBytes "get" :: rest) db = (db, out_nil)) ∧
    (∀ rest, rest.length ≠ 2 →
      do_request (strBytes "set" :: rest) db = (db, out_nil)) ∧
    (∀ rest, rest.length ≠ 1 →
      do_request (strBytes "del" :: rest) db = (db, out_int 0)) ∧
    (∀ rest, do_request (strBytes "keys" :: rest) db
      = (db, out_arr (ht_total_size db) ++
          ((htNodes db.newer ++ htNodes db.older).map
            (fun n => out_str n.data.key)).flatten)) ∧
    (∀ (conn : Conn) (body : List Nat) (cmd : List ByteStr),
      conn.incoming = u32le body.length ++ body →
      body.length ≤ k_max_msg → parse_req body = some cmd →
      (try_one_request conn db).1 = true ∧
      (try_one_request conn db).2.1.want_close = conn.want_close ∧
      (try_one_request conn db).2.1.incoming = [] ∧
      (try_one_request conn db).2.1.outgoing
        = conn.outgoing ++ response_frame (do_request cmd db).2 ∧
      (try_one_request conn db).2.2 = (do_request cmd db).1) := by
  refine ⟨rfl, ?_, ?_, ?_, ?_, ?_, ?_⟩
  · intro op rest hg hs hd hk
    rw [do_request]
    rw [if_neg (by simpa using hg), if_neg (by simpa using hs),
      if_neg (by simpa using hd), if_neg (by simpa using hk)]
  · intro rest hlen
    have hdis : do_request (strBytes "get" :: rest) db
        = do_get (strBytes "get" :: rest) db := by
      simp [do_request]
    rw [hdis, do_get]
    rw [if_pos (by simp; omega)]
  · intro rest hlen
    have hdis : do_request (strBytes "set" :: rest) db
        = do_set (strBytes "set" :: rest) db := by
      rw [do_request]
      rw [if_neg (by decide), if_pos (by simp)]
    rw [hdis, do_set]
    rw [if_pos (by simp; omega)]
  · intro rest hlen
    have hdis : do_request (strBytes "del" :: rest) db
        = do_del (strBytes "del" :: rest) db := by
      rw [do_request]
      rw [if_neg (by decide), if_neg (by decide), if_pos (by simp)]
    rw [hdis, do_del]
    rw [if_pos (by simp; omega)]
  · intro rest
    have hdis : do_request (strBytes "keys" :: rest) db
        = do_keys (strBytes "keys" :: rest) db := by
      rw [do_request]
      rw [if_neg (by decide), if_neg (by decide), if_neg (by decide),
        if_pos (by simp)]
    rw [hdis, do_keys]
  · intro conn body cmd hin hlen hparse
    rw [try_one_request_spec conn db body cmd hin hlen hparse]
    refine ⟨rfl, rfl, ?_, rfl, rfl⟩
    show conn.incoming.drop (4 + body.length) = []
    apply List.drop_eq_nil_of_le
    rw [hin, List.length_append]
    have : (u32le body.length).length = 4 := rfl
    omega

theorem dispatcher_bad_command_behavior_witness :
    (do_request [] hm_init = (hm_init, out_nil)) ∧
    (do_request [strBytes "ping"] hm_init
      = (hm_init, out_err_msg (strBytes "ERR bad command"))) ∧
    (do_request [strBytes "get"] hm_init = (hm_init, out_nil)) ∧
    (do_request [strBytes "set"] hm_init = (hm_init, out_nil)) ∧
    (do_request [strBytes "del"] hm_init = (hm_init, out_int 0)) ∧
    ((try_one_request
        ⟨u32le 12 ++ (u32le 1 ++ u32le 4 ++ strBytes "ping"), [],
          true, false, false⟩ hm_init).1 = true) ∧
    ((try_one_request
        ⟨u32le 12 ++ (u32le 1 ++ u32le 4 ++ strBytes "ping"), [],
          true, false, false⟩ hm_init).2.1.want_close = false) :=
  ⟨(dispatcher_bad_command_behavior hm_init).1,
    (dispatcher_bad_command_behavior hm_init).2.1 (strBytes "ping") []
      (by decide) (by decide) (by decide) (by decide),
    (dispatcher_bad_command_behavior hm_init).2.2.1 [] (by decide),
    (dispatcher_bad_command_behavior hm_init).2.2.2.1 [] (by decide),
    (dispatcher_bad_command_behavior hm_init).2.2.2.2.1 [] (by decide),
    ((dispatcher_bad_command_behavior hm_init).2.2.2.2.2.2
      ⟨u32le 12 ++ (u32le 1 ++ u32le 4 ++ strBytes "ping"), [],
        true, false, false⟩
      (u32le 1 ++ u32le 4 ++ strBytes "ping") [strBytes "ping"]
      rfl (by decide) rfl).1,
    ((dispatcher_bad_command_behavior hm_init).2.2.2.2.2.2
      ⟨u32le 12 ++ (u32le 1 ++ u32le 4 ++ strBytes "ping"), [],
        true, false, false⟩
      (u32le 1 ++ u32le 4 ++ strBytes "ping") [strBytes "ping"]
      rfl (by decide) rfl).2.1⟩

/-! ### AVL basics -/

theorem avl_height_node (l : AvlT α) (i : Nat) (k : α) (r : AvlT α)
    (h c : Nat) : avl_height (.node l i k r h c) = h := rfl

theorem avl_cnt_node (l : AvlT α) (i : Nat) (k : α) (r : AvlT α)
    (h c : Nat) : avl_cnt (.node l i k r h c) = c := rfl

theorem inorderKeys_node (l : AvlT α) (i : Nat) (k : α) (r : AvlT α)
    (h c : Nat) :
    inorderKeys (.node l i k r h c) = inorderKeys l ++ k :: inorderKeys r :=
  rfl

theorem inorderIds_node (l : AvlT α) (i : Nat) (k : α) (r : AvlT α)
    (h c : Nat) :
    inorderIds (.node l i k r h c) = inorderIds l ++ i :: inorderIds r :=
  rfl

theorem avl_rot_left_inorder (t : AvlT α) :
    inorderKeys (avl_rot_left t) = inorderKeys t ∧
    inorderIds (avl_rot_left t) = inorderIds t := by
  rcases t with _ | ⟨l, i, k, r, h, c⟩
  · exact ⟨rfl, rfl⟩
  · rcases r with _ | ⟨rl, ri, rk, rr, rh, rc⟩
    · exact ⟨rfl, rfl⟩
    · constructor <;>
        simp [avl_rot_left, avl_update, inorderKeys, inorderIds]

theorem avl_rot_right_inorder (t : AvlT α) :
    inorderKeys (avl_rot_right t) = inorderKeys t ∧
    inorderIds (avl_rot_right t) = inorderIds t := by
  rcases t with _ | ⟨l, i, k, r, h, c⟩
  · exact ⟨rfl, rfl⟩
  · rcases l with _ | ⟨ll, li, lk, lr, lh, lc⟩
    · exact ⟨rfl, rfl⟩
    · constructor <;>
        simp [avl_rot_right, avl_update, inorderKeys, inorderIds]

theorem avl_fix_left_inorder (t : AvlT α) :
    inorderKeys (avl_fix_left t) = inorderKeys t ∧
    inorderIds (avl_fix_left t) = inorderIds t := by
  rcases t with _ | ⟨l, i, k, r, h, c⟩
  · exact ⟨rfl, rfl⟩
  · rw [avl_fix_left]
    by_cases hcond : avl_height (avl_left l) < avl_height (avl_right l)
    · rw [if_pos hcond]
      have h1 := avl_rot_right_inorder
        (.node (avl_rot_left l) i k r h c)
      have h2 := avl_rot_left_inorder l
      rw [h1.1, h1.2, inorderKeys_node, inorderIds_node, h2.1, h2.2]
      exact ⟨rfl, rfl⟩
    · rw [if_neg hcond]
      have h1 := avl_rot_right_inorder (.node l i k r h c)
      exact ⟨h1.1, h1.2⟩

theorem avl_fix_right_inorder (t : AvlT α) :
    inorderKeys (avl_fix_right t) = inorderKeys t ∧
    inorderIds (avl_fix_right t) = inorderIds t := by
  rcases t with _ | ⟨l, i, k, r, h, c⟩
  · exact ⟨rfl, rfl⟩
  · rw [avl_fix_right]
    by_cases hcond : avl_height (avl_right r) < avl_height (avl_left r)
    · rw [if_pos hcond]
      have h1 := avl_rot_left_inorder
        (.node l i k (avl_rot_right r) h c)
      have h2 := avl_rot_right_inorder r
      rw [h1.1, h1.2, inorderKeys_node, inorderIds_node, h2.1, h2.2]
      exact ⟨rfl, rfl⟩
    · rw [if_neg hcond]
      have h1 := avl_rot_left_inorder (.node l i k r h c)
      exact ⟨h1.1, h1.2⟩

theorem avl_update_inorder (t : AvlT α) :
    inorderKeys (avl_update t) = inorderKeys t ∧
    inorderIds (avl_update t) = inorderIds t := by
  rcases t with _ | ⟨l, i, k, r, h, c⟩ <;> exact ⟨rfl, rfl⟩

theorem avl_fix_node_red (l : AvlT α) (i : Nat) (k : α) (r : AvlT α)
    (h c : Nat) :
    avl_fix_node (.node l i k r h c)
      = (if avl_height l = avl_height r + 2 then
          avl_fix_left (.node l i k r (1 + max (avl_height l) (avl_height r))
            (1 + (avl_cnt l + avl_cnt r)))
        else if avl_height r = avl_height l + 2 then
          avl_fix_right (.node l i k r (1 + max (avl_height l) (avl_height r))
            (1 + (avl_cnt l + avl_cnt r)))
        else .node l i k r (1 + max (avl_height l) (avl_height r))
          (1 + (avl_cnt l + avl_cnt r))) := rfl

theorem avl_fix_node_inorder (t : AvlT α) :
    inorderKeys (avl_fix_node t) = inorderKeys t ∧
    inorderIds (avl_fix_node t) = inorderIds t := by
  rcases t with _ | ⟨l, i, k, r, h, c⟩
  · exact ⟨rfl, rfl⟩
  · rw [avl_fix_node_red]
    by_cases h1 : avl_height l = avl_height r + 2
    · rw [if_pos h1]
      have := avl_fix_left_inorder (.node l i k r
        (1 + max (avl_height l) (avl_height r)) (1 + (avl_cnt l + avl_cnt r)))
      rw [this.1, this.2]
      exact ⟨rfl, rfl⟩
    · rw [if_neg h1]
      by_cases h2 : avl_height r = avl_height l + 2
      · rw [if_pos h2]
        have := avl_fix_right_inorder (.node l i k r
          (1 + max (avl_height l) (avl_height r)) (1 + (avl_cnt l + avl_cnt r)))
        rw [this.1, this.2]
        exact ⟨rfl, rfl⟩
      · rw [if_neg h2]
        exact ⟨rfl, rfl⟩

/-! ### Rotation and rebalancing specifications -/

theorem avl_rot_left_red (l : AvlT α) (i : Nat) (k : α) (rl : AvlT α)
    (ri : Nat) (rk : α) (rr : AvlT α) (rh rc h c : Nat) :
    avl_rot_left (.node l i k (.node rl ri rk rr rh rc) h c)
      = .node (.node l i k rl (1 + max (avl_height l) (avl_height rl))
            (1 + (avl_cnt l + avl_cnt rl))) ri rk rr
          (1 + max (1 + max (avl_height l) (avl_height rl)) (avl_height rr))
          (1 + ((1 + (avl_cnt l + avl_cnt rl)) + avl_cnt rr)) := rfl

theorem avl_rot_right_red (ll : AvlT α) (li : Nat) (lk : α) (lr : AvlT α)
    (lh lc : Nat) (i : Nat) (k : α) (r : AvlT α) (h c : Nat) :
    avl_rot_right (.node (.node ll li lk lr lh lc) i k r h c)
      = .node ll li lk
          (.node lr i k r (1 + max (avl_height lr) (avl_height r))
            (1 + (avl_cnt lr + avl_cnt r)))
          (1 + max (avl_height ll)
            (1 + max (avl_height lr) (avl_height r)))
          (1 + (avl_cnt ll + (1 + (avl_cnt lr + avl_cnt r)))) := rfl

theorem avl_height_nil : avl_height (.nil : AvlT α) = 0 := rfl

theorem avl_cnt_nil : avl_cnt (.nil : AvlT α) = 0 := rfl

theorem avl_fix_left_spec (l r : AvlT α) (i : Nat) (k : α) (h c : Nat)
    (hwl : HCB l) (hwr : HCB r)
    (hdiff : avl_height l = avl_height r + 2) :
    HCB (avl_fix_left (.node l i k r h c)) ∧
    avl_cnt (avl_fix_left (.node l i k r h c)) = 1 + (avl_cnt l + avl_cnt r) ∧
    (avl_height (avl_fix_left (.node l i k r h c)) = avl_height r + 2 ∨
     avl_height (avl_fix_left (.node l i k r h c)) = avl_height r + 3) := by
  obtain ⟨hrH, hrC, hrB⟩ := hwr
  rcases l with _ | ⟨ll, li, lk, lr, lh, lc⟩
  · rw [avl_height_nil] at hdiff
    exact absurd hdiff (by omega)
  · obtain ⟨⟨hh1, hhl, hhr⟩, ⟨hc1, hc2, hc3⟩, ⟨⟨hb1, hb2⟩, hb3, hb4⟩⟩ := hwl
    have hfix : avl_fix_left (.node (.node ll li lk lr lh lc) i k r h c)
        = avl_rot_right (.node (if avl_height ll < avl_height lr then
            avl_rot_left (.node ll li lk lr lh lc)
          else .node ll li lk lr lh lc) i k r h c) := rfl
    simp only [avl_height_node] at hdiff
    by_cases hcond : avl_height ll < avl_height lr
    · rcases lr with _ | ⟨lrl, lri, lrk, lrr, lrh, lrc⟩
      · exact absurd hcond (by rw [avl_height_nil]; omega)
      · obtain ⟨hq1, hql, hqr⟩ := hhr
        obtain ⟨hq2, hq2l, hq2r⟩ := hc3
        obtain ⟨⟨hq3, hq4⟩, hbrl, hbrr⟩ := hb4
        rw [hfix, if_pos hcond, avl_rot_left_red, avl_rot_right_red]
        simp only [avl_height_node, avl_cnt_node] at hh1 hc1 hb1 hb2 hcond ⊢
        refine ⟨⟨⟨rfl, ⟨rfl, hhl, hql⟩, rfl, hqr, hrH⟩,
          ⟨rfl, ⟨rfl, hc2, hq2l⟩, rfl, hq2r, hrC⟩,
          ⟨?_, ?_⟩, ⟨⟨?_, ?_⟩, hb3, hbrl⟩, ⟨?_, ?_⟩, hbrr, hrB⟩,
          ?_, ?_⟩
        all_goals try simp only [avl_height_node, avl_cnt_node]
        all_goals omega
    · rw [hfix, if_neg hcond, avl_rot_right_red]
      simp only [avl_height_node, avl_cnt_node] at hh1 hc1 hb1 hb2 hcond ⊢
      refine ⟨⟨⟨rfl, hhl, rfl, hhr, hrH⟩, ⟨rfl, hc2, rfl, hc3, hrC⟩,
        ⟨?_, ?_⟩, hb3, ⟨?_, ?_⟩, hb4, hrB⟩, ?_, ?_⟩
      all_goals try simp only [avl_height_node, avl_cnt_node]
      all_goals omega

theorem avl_fix_right_spec (l r : AvlT α) (i : Nat) (k : α) (h c : Nat)
    (hwl : HCB l) (hwr : HCB r)
    (hdiff : avl_height r = avl_height l + 2) :
    HCB (avl_fix_right (.node l i k r h c)) ∧
    avl_cnt (avl_fix_right (.node l i k r h c)) = 1 + (avl_cnt l + avl_cnt r) ∧
    (avl_height (avl_fix_right (.node l i k r h c)) = avl_height l + 2 ∨
     avl_height (avl_fix_right (.node l i k r h c)) = avl_height l + 3) := by
  obtain ⟨hlH, hlC, hlB⟩ := hwl
  rcases r with _ | ⟨rl, ri, rk, rr, rh, rc⟩
  · rw [avl_height_nil] at hdiff
    exact absurd hdiff (by omega)
  · obtain ⟨⟨hh1, hhl, hhr⟩, ⟨hc1, hc2, hc3⟩, ⟨⟨hb1, hb2⟩, hb3, hb4⟩⟩ := hwr
    have hfix : avl_fix_right (.node l i k (.node rl ri rk rr rh rc) h c)
        = avl_rot_left (.node l i k (if avl_height rr < avl_height rl then
            avl_rot_right (.node rl ri rk rr rh rc)
          else .node rl ri rk rr rh rc) h c) := rfl
    simp only [avl_height_node] at hdiff
    by_cases hcond : avl_height rr < avl_height rl
    · rcases rl with _ | ⟨rll, rli, rlk, rlr, rlh, rlc⟩
      · exact absurd hcond (by rw [avl_height_nil]; omega)
      · obtain ⟨hq1, hql, hqr⟩ := hhl
        obtain ⟨hq2, hq2l, hq2r⟩ := hc2
        obtain ⟨⟨hq3, hq4⟩, hbll, hblr⟩ := hb3
        rw [hfix, if_pos hcond, avl_rot_right_red, avl_rot_left_red]
        simp only [avl_height_node, avl_cnt_node] at hh1 hc1 hb1 hb2 hcond ⊢
        refine ⟨⟨⟨rfl, ⟨rfl, hlH, hql⟩, rfl, hqr, hhr⟩,
          ⟨rfl, ⟨rfl, hlC, hq2l⟩, rfl, hq2r, hc3⟩,
          ⟨?_, ?_⟩, ⟨⟨?_, ?_⟩, hlB, hbll⟩, ⟨?_, ?_⟩, hblr, hb4⟩,
          ?_, ?_⟩
        all_goals try simp only [avl_height_node, avl_cnt_node]
        all_goals omega
    · rw [hfix, if_neg hcond, avl_rot_left_red]
      simp only [avl_height_node, avl_cnt_node] at hh1 hc1 hb1 hb2 hcond ⊢
      refine ⟨⟨⟨rfl, ⟨rfl, hlH, hhl⟩, hhr⟩, ⟨rfl, ⟨rfl, hlC, hc2⟩, hc3⟩,
        ⟨?_, ?_⟩, ⟨⟨?_, ?_⟩, hlB, hb3⟩, hb4⟩, ?_, ?_⟩
      all_goals try simp only [avl_height_node, avl_cnt_node]
      all_goals omega

theorem avl_fix_node_spec (l r : AvlT α) (i : Nat) (k : α) (h c : Nat)
    (hwl : HCB l) (hwr : HCB r)
    (hd1 : avl_height l ≤ avl_height r + 2)
    (hd2 : avl_height r ≤ avl_height l + 2) :
    HCB (avl_fix_node (.node l i k r h c)) ∧
    avl_cnt (avl_fix_node (.node l i k r h c)) = 1 + (avl_cnt l + avl_cnt r) ∧
    max (avl_height l) (avl_height r)
      ≤ avl_height (avl_fix_node (.node l i k r h c)) ∧
    avl_height (avl_fix_node (.node l i k r h c))
      ≤ 1 + max (avl_height l) (avl_height r) ∧
    (avl_height l ≤ avl_height r + 1 → avl_height r ≤ avl_height l + 1 →
      avl_height (avl_fix_node (.node l i k r h c))
        = 1 + max (avl_height l) (avl_height r)) := by
  rw [avl_fix_node_red]
  by_cases h1 : avl_height l = avl_height r + 2
  · rw [if_pos h1]
    obtain ⟨hw, hcnt, hh⟩ := avl_fix_left_spec l r i k
      (1 + max (avl_height l) (avl_height r)) (1 + (avl_cnt l + avl_cnt r))
      hwl hwr h1
    exact ⟨hw, hcnt, by omega, by omega, by omega⟩
  · rw [if_neg h1]
    by_cases h2 : avl_height r = avl_height l + 2
    · rw [if_pos h2]
      obtain ⟨hw, hcnt, hh⟩ := avl_fix_right_spec l r i k
        (1 + max (avl_height l) (avl_height r)) (1 + (avl_cnt l + avl_cnt r))
        hwl hwr h2
      exact ⟨hw, hcnt, by omega, by omega, by omega⟩
    · rw [if_neg h2]
      refine ⟨⟨⟨rfl, hwl.1, hwr.1⟩, ⟨rfl, hwl.2.1, hwr.2.1⟩,
        ⟨?_, ?_⟩, hwl.2.2, hwr.2.2⟩, ?_, ?_, ?_, ?_⟩
      all_goals intros
      all_goals try simp only [avl_height_node, avl_cnt_node]
      all_goals omega

theorem avl_update_of_ok (t : AvlT α) (hH : HtOk t) (hC : CntOk t) :
    avl_update t = t := by
  rcases t with _ | ⟨l, i, k, r, h, c⟩
  · rfl
  · rw [avl_update, hH.1.symm, hC.1.symm]

theorem avl_fix_node_of_HCB (t : AvlT α) (hw : HCB t) :
    avl_fix_node t = t := by
  rcases t with _ | ⟨l, i, k, r, h, c⟩
  · rfl
  · obtain ⟨⟨hh1, _, _⟩, ⟨hc1, _, _⟩, ⟨⟨hb1, hb2⟩, _, _⟩⟩ := hw
    rw [avl_fix_node_red, if_neg (by omega), if_neg (by omega),
      hh1.symm, hc1.symm]

/-! ### In-order pairs, contexts and the fix-up loop -/

theorem inorderP_node (l : AvlT α) (i : Nat) (k : α) (r : AvlT α)
    (h c : Nat) :
    inorderP (.node l i k r h c) = inorderP l ++ (i, k) :: inorderP r := rfl

theorem inorderKeys_eq_P (t : AvlT α) :
    inorderKeys t = (inorderP t).map Prod.snd := by
  induction t with
  | nil => rfl
  | node l i k r h c ihl ihr =>
    rw [inorderKeys_node, inorderP_node, List.map_append, ihl, ihr]
    rfl

theorem inorderIds_eq_P (t : AvlT α) :
    inorderIds t = (inorderP t).map Prod.fst := by
  induction t with
  | nil => rfl
  | node l i k r h c ihl ihr =>
    rw [inorderIds_node, inorderP_node, List.map_append, ihl, ihr]
    rfl

theorem inorderP_update (t : AvlT α) :
    inorderP (avl_update t) = inorderP t := by
  rcases t <;> rfl

theorem inorderP_rot_left (t : AvlT α) :
    inorderP (avl_rot_left t) = inorderP t := by
  rcases t with _ | ⟨l, i, k, r, h, c⟩
  · rfl
  · rcases r with _ | ⟨rl, ri, rk, rr, rh, rc⟩
    · rfl
    · simp [avl_rot_left, avl_update, inorderP]

theorem inorderP_rot_right (t : AvlT α) :
    inorderP (avl_rot_right t) = inorderP t := by
  rcases t with _ | ⟨l, i, k, r, h, c⟩
  · rfl
  · rcases l with _ | ⟨ll, li, lk, lr, lh, lc⟩
    · rfl
    · simp [avl_rot_right, avl_update, inorderP]

theorem inorderP_fix_left (t : AvlT α) :
    inorderP (avl_fix_left t) = inorderP t := by
  rcases t with _ | ⟨l, i, k, r, h, c⟩
  · rfl
  · rw [avl_fix_left]
    by_cases hcond : avl_height (avl_left l) < avl_height (avl_right l)
    · rw [if_pos hcond, inorderP_rot_right, inorderP_node, inorderP_node,
        inorderP_rot_left]
    · rw [if_neg hcond, inorderP_rot_right]

theorem inorderP_fix_right (t : AvlT α) :
    inorderP (avl_fix_right t) = inorderP t := by
  rcases t with _ | ⟨l, i, k, r, h, c⟩
  · rfl
  · rw [avl_fix_right]
    by_cases hcond : avl_height (avl_right r) < avl_height (avl_left r)
    · rw [if_pos hcond, inorderP_rot_left, inorderP_node, inorderP_node,
        inorderP_rot_right]
    · rw [if_neg hcond, inorderP_rot_left]

theorem inorderP_fix_node (t : AvlT α) :
    inorderP (avl_fix_node t) = inorderP t := by
  rcases t with _ | ⟨l, i, k, r, h, c⟩
  · rfl
  · rw [avl_fix_node_red]
    by_cases h1 : avl_height l = avl_height r + 2
    · rw [if_pos h1, inorderP_fix_left, inorderP_node, inorderP_node]
    · rw [if_neg h1]
      by_cases h2 : avl_height r = avl_height l + 2
      · rw [if_pos h2, inorderP_fix_right, inorderP_node, inorderP_node]
      · rw [if_neg h2, inorderP_node, inorderP_node]

theorem recomb_left (i : Nat) (k : α) (sib : AvlT α) (h c : Nat)
    (t : AvlT α) : recomb ⟨.left, i, k, sib, h, c⟩ t = .node t i k sib h c :=
  rfl

theorem recomb_right (i : Nat) (k : α) (sib : AvlT α) (h c : Nat)
    (t : AvlT α) : recomb ⟨.right, i, k, sib, h, c⟩ t = .node sib i k t h c :=
  rfl

theorem inorderP_recomb_congr (f : Frame α) (t1 t2 : AvlT α)
    (h : inorderP t1 = inorderP t2) :
    inorderP (recomb f t1) = inorderP (recomb f t2) := by
  obtain ⟨d, i, k, sib, fh, fc⟩ := f
  cases d
  · rw [recomb_left, recomb_left, inorderP_node, inorderP_node, h]
  · rw [recomb_right, recomb_right, inorderP_node, inorderP_node, h]

theorem inorderP_plug_congr : ∀ (ctx : List (Frame α)) (t1 t2 : AvlT α),
    inorderP t1 = inorderP t2 →
    inorderP (plug ctx t1) = inorderP (plug ctx t2)
  | [], _, _, h => h
  | f :: rest, t1, t2, h =>
    inorderP_plug_congr rest _ _ (inorderP_recomb_congr f t1 t2 h)

theorem avl_fix_inorderP : ∀ (ctx : List (Frame α)) (t : AvlT α),
    inorderP (avl_fix t ctx) = inorderP (plug ctx t)
  | [], t => inorderP_fix_node t
  | f :: rest, t => by
    rw [avl_fix, plug, avl_fix_inorderP rest (recomb f (avl_fix_node t))]
    exact inorderP_plug_congr rest _ _
      (inorderP_recomb_congr f _ _ (inorderP_fix_node t))

theorem plug_inorderP : ∀ (ctx : List (Frame α)) (t : AvlT α),
    inorderP (plug ctx t) = ctxLP ctx ++ inorderP t ++ ctxRP ctx := by
  intro ctx
  induction ctx with
  | nil => intro t; simp [plug, ctxLP, ctxRP]
  | cons f rest ih =>
    intro t
    obtain ⟨d, i, k, sib, fh, fc⟩ := f
    cases d
    · rw [plug, ih, recomb_left, inorderP_node]
      simp only [ctxLP, ctxRP, List.append_assoc, List.cons_append,
        List.nil_append, List.append_nil]
    · rw [plug, ih, recomb_right, inorderP_node]
      simp only [ctxLP, ctxRP, List.append_assoc, List.cons_append,
        List.nil_append, List.append_nil]

theorem zipperTo_plug : ∀ (p : List Dir) (t : AvlT α)
    (ctx0 : List (Frame α)) (sub : AvlT α) (ctx : List (Frame α)),
    zipperTo t p ctx0 = some (sub, ctx) → plug ctx sub = plug ctx0 t := by
  intro p
  induction p with
  | nil =>
    intro t ctx0 sub ctx h
    simp only [zipperTo] at h
    injection h with h1
    injection h1 with h2 h3
    rw [← h2, ← h3]
  | cons d q ih =>
    intro t ctx0 sub ctx h
    rcases t with _ | ⟨l, i, k, r, th, tc⟩
    · exact Option.noConfusion h
    · cases d
      · exact ih l _ sub ctx h
      · exact ih r _ sub ctx h

theorem zipperTo_sibs : ∀ (p : List Dir) (t : AvlT α)
    (ctx0 : List (Frame α)) (sub : AvlT α) (ctx : List (Frame α)),
    HCB t → SibsOk ctx0 (avl_height t) →
    zipperTo t p ctx0 = some (sub, ctx) →
    HCB sub ∧ SibsOk ctx (avl_height sub) := by
  intro p
  induction p with
  | nil =>
    intro t ctx0 sub ctx hw hs h
    simp only [zipperTo] at h
    injection h with h1
    injection h1 with h2 h3
    rw [← h2, ← h3]
    exact ⟨hw, hs⟩
  | cons d q ih =>
    intro t ctx0 sub ctx hw hs h
    rcases t with _ | ⟨l, i, k, r, th, tc⟩
    · exact Option.noConfusion h
    · obtain ⟨⟨hh1, hhl, hhr⟩, ⟨hc1, hcl, hcr⟩, ⟨⟨hb1, hb2⟩, hbl, hbr⟩⟩ := hw
      simp only [avl_height_node] at hs
      cases d
      · refine ih l _ sub ctx ⟨hhl, hcl, hbl⟩ ?_ h
        show HCB r ∧ (avl_height r ≤ avl_height l + 1 ∧
            avl_height l ≤ avl_height r + 1) ∧
          SibsOk ctx0 (1 + max (avl_height l) (avl_height r))
        exact ⟨⟨hhr, hcr, hbr⟩, ⟨by omega, by omega⟩, by rw [← hh1]; exact hs⟩
      · refine ih r _ sub ctx ⟨hhr, hcr, hbr⟩ ?_ h
        show HCB l ∧ (avl_height l ≤ avl_height r + 1 ∧
            avl_height r ≤ avl_height l + 1) ∧
          SibsOk ctx0 (1 + max (avl_height r) (avl_height l))
        exact ⟨⟨hhl, hcl, hbl⟩, ⟨by omega, by omega⟩,
          by rw [Nat.max_comm, ← hh1]; exact hs⟩

theorem avl_fix_spec : ∀ (ctx : List (Frame α)) (t : AvlT α) (hOld : Nat),
    SibsOk ctx hOld → HCB (avl_fix_node t) →
    avl_height (avl_fix_node t) ≤ hOld + 1 →
    hOld ≤ avl_height (avl_fix_node t) + 1 →
    HCB (avl_fix t ctx) := by
  intro ctx
  induction ctx with
  | nil =>
    intro t hOld _ hw _ _
    exact hw
  | cons f rest ih =>
    intro t hOld hs hw hb1 hb2
    obtain ⟨d, fi, fk, sib, fh, fc⟩ := f
    obtain ⟨hsib, ⟨hsb1, hsb2⟩, hrest⟩ := hs
    have hsib' : HCB sib := hsib
    have hsb1' : avl_height sib ≤ hOld + 1 := hsb1
    have hsb2' : hOld ≤ avl_height sib + 1 := hsb2
    have hrest' : SibsOk rest (1 + max hOld (avl_height sib)) := hrest
    rw [avl_fix]
    cases d
    · rw [recomb_left]
      obtain ⟨hw2, _, hmin, hmax, hexact⟩ :=
        avl_fix_node_spec (avl_fix_node t) sib fi fk fh fc hw hsib'
          (by omega) (by omega)
      refine ih _ _ hrest' hw2 ?_ ?_ <;>
      · by_cases hcase : avl_height (avl_fix_node t) ≤ avl_height sib + 1 ∧
            avl_height sib ≤ avl_height (avl_fix_node t) + 1
        · have := hexact hcase.1 hcase.2
          omega
        · omega
    · rw [recomb_right]
      obtain ⟨hw2, _, hmin, hmax, hexact⟩ :=
        avl_fix_node_spec sib (avl_fix_node t) fi fk fh fc hsib' hw
          (by omega) (by omega)
      refine ih _ _ hrest' hw2 ?_ ?_ <;>
      · by_cases hcase : avl_height sib ≤ avl_height (avl_fix_node t) + 1 ∧
            avl_height (avl_fix_node t) ≤ avl_height sib + 1
        · have := hexact hcase.1 hcase.2
          omega
        · omega

/-! ### Insertion -/

theorem avl_insert_go_spec (less : α → α → Bool)
    (htrans : ∀ a b c : α, less a b = true → less b c = true →
      less a c = true) (i : Nat) (k : α) :
    ∀ (cur : AvlT α) (ctx : List (Frame α)),
    HCB cur → SibsOk ctx (avl_height cur) →
    SortedLt less (inorderKeys cur) →
    (∀ x ∈ inorderKeys cur, less x k = true ∨ less k x = true) →
    HCB (avl_insert_go less i k cur ctx) ∧
    ∃ A B, inorderP cur = A ++ B ∧
      inorderP (avl_insert_go less i k cur ctx)
        = ctxLP ctx ++ (A ++ (i, k) :: B) ++ ctxRP ctx ∧
      (∀ x ∈ A, less x.2 k = true) ∧ (∀ y ∈ B, less k y.2 = true) := by
  intro cur
  induction cur with
  | nil =>
    intro ctx hw hs _ _
    have hleaf : avl_fix_node (.node AvlT.nil i k AvlT.nil 1 1)
        = .node AvlT.nil i k AvlT.nil 1 1 := rfl
    have hwleaf : HCB (.node AvlT.nil i k AvlT.nil 1 1 : AvlT α) :=
      ⟨⟨rfl, trivial, trivial⟩, ⟨rfl, trivial, trivial⟩,
        ⟨⟨Nat.le_succ _, Nat.le_succ _⟩, trivial, trivial⟩⟩
    have hs0 : SibsOk ctx 0 := by rw [avl_height_nil] at hs; exact hs
    have hfix := avl_fix_spec ctx (.node AvlT.nil i k AvlT.nil 1 1) 0 hs0
      (by rw [hleaf]; exact hwleaf)
      (by rw [hleaf, avl_height_node]) (by omega)
    refine ⟨hfix, [], [], rfl, ?_, by simp, by simp⟩
    show inorderP (avl_fix (.node AvlT.nil i k AvlT.nil 1 1) ctx) = _
    rw [avl_fix_inorderP, plug_inorderP]
    rfl
  | node l ni nk r h c ihl ihr =>
    intro ctx hw hs hsort hcmp
    obtain ⟨⟨hh1, hhl, hhr⟩, ⟨hc1, hcl, hcr⟩, ⟨⟨hb1, hb2⟩, hbl, hbr⟩⟩ := hw
    simp only [avl_height_node] at hs
    rw [inorderKeys_node] at hsort
    obtain ⟨hsl, hsnr, hcross⟩ := List.pairwise_append.1 hsort
    have hsr : SortedLt less (inorderKeys r) := (List.pairwise_cons.1 hsnr).2
    have hnkr : ∀ y ∈ inorderKeys r, less nk y = true :=
      (List.pairwise_cons.1 hsnr).1
    have hcmpl : ∀ x ∈ inorderKeys l, less x k = true ∨ less k x = true :=
      fun x hx => hcmp x (List.mem_append_left _ hx)
    have hcmpr : ∀ x ∈ inorderKeys r, less x k = true ∨ less k x = true :=
      fun x hx => hcmp x (List.mem_append_right _ (List.mem_cons_of_mem _ hx))
    have hnkk : less nk k = true ∨ less k nk = true :=
      hcmp nk (List.mem_append_right _ (List.mem_cons_self _ _))
    simp only [avl_insert_go]
    by_cases hlt : less k nk = true
    · rw [if_pos hlt]
      have hs' : SibsOk (⟨.left, ni, nk, r, h, c⟩ :: ctx) (avl_height l) := by
        show HCB r ∧ (avl_height r ≤ avl_height l + 1 ∧
            avl_height l ≤ avl_height r + 1) ∧
          SibsOk ctx (1 + max (avl_height l) (avl_height r))
        exact ⟨⟨hhr, hcr, hbr⟩, ⟨by omega, by omega⟩, by rw [← hh1]; exact hs⟩
      obtain ⟨hw', A, B, hAB, hres, hA, hB⟩ :=
        ihl (⟨.left, ni, nk, r, h, c⟩ :: ctx) ⟨hhl, hcl, hbl⟩ hs' hsl hcmpl
      refine ⟨hw', A, B ++ (ni, nk) :: inorderP r, ?_, ?_, hA, ?_⟩
      · rw [inorderP_node, hAB, List.append_assoc]
      · rw [hres]
        simp only [ctxLP, ctxRP, List.append_assoc, List.cons_append,
          List.nil_append]
      · intro y hy
        rcases List.mem_append.1 hy with hyB | hyC
        · exact hB y hyB
        · rcases List.mem_cons.1 hyC with hyeq | hyr
          · rw [hyeq]; exact hlt
          · have hy2 : y.2 ∈ inorderKeys r := by
              rw [inorderKeys_eq_P]; exact List.mem_map_of_mem _ hyr
            exact htrans _ _ _ hlt (hnkr _ hy2)
    · rw [if_neg hlt]
      have hnk2 : less nk k = true := hnkk.resolve_right hlt
      have hs' : SibsOk (⟨.right, ni, nk, l, h, c⟩ :: ctx) (avl_height r) := by
        show HCB l ∧ (avl_height l ≤ avl_height r + 1 ∧
            avl_height r ≤ avl_height l + 1) ∧
          SibsOk ctx (1 + max (avl_height r) (avl_height l))
        exact ⟨⟨hhl, hcl, hbl⟩, ⟨by omega, by omega⟩,
          by rw [Nat.max_comm, ← hh1]; exact hs⟩
      obtain ⟨hw', A, B, hAB, hres, hA, hB⟩ :=
        ihr (⟨.right, ni, nk, l, h, c⟩ :: ctx) ⟨hhr, hcr, hbr⟩ hs' hsr hcmpr
      refine ⟨hw', inorderP l ++ (ni, nk) :: A, B, ?_, ?_, ?_, hB⟩
      · rw [inorderP_node, hAB]
        simp only [List.append_assoc, List.cons_append]
      · rw [hres]
        simp only [ctxLP, ctxRP, List.append_assoc, List.cons_append,
          List.nil_append]
      · intro x hx
        rcases List.mem_append.1 hx with hxl | hxA
        · have hx2 : x.2 ∈ inorderKeys l := by
            rw [inorderKeys_eq_P]; exact List.mem_map_of_mem _ hxl
          exact htrans _ _ _ (hcross x.2 hx2 nk (List.mem_cons_self _ _)) hnk2
        · rcases List.mem_cons.1 hxA with hxeq | hxA2
          · rw [hxeq]; exact hnk2
          · exact hA x hxA2

theorem avl_search_and_insert_wf (less : α → α → Bool)
    (htrans : ∀ a b c : α, less a b = true → less b c = true →
      less a c = true) (t : AvlT α) (i : Nat) (k : α)
    (hw : HCB t) (hsort : SortedLt less (inorderKeys t))
    (hcmp : ∀ x ∈ inorderKeys t, less x k = true ∨ less k x = true) :
    HCB (avl_search_and_insert less i k t) ∧
    SortedLt less (inorderKeys (avl_search_and_insert less i k t)) ∧
    ∃ A B, inorderP t = A ++ B ∧
      inorderP (avl_search_and_insert less i k t) = A ++ (i, k) :: B ∧
      (∀ x ∈ A, less x.2 k = true) ∧ (∀ y ∈ B, less k y.2 = true) := by
  obtain ⟨hw', A, B, hAB, hres, hA, hB⟩ :=
    avl_insert_go_spec less htrans i k t [] hw trivial hsort hcmp
  have hres' : inorderP (avl_search_and_insert less i k t)
      = A ++ (i, k) :: B := by
    show inorderP (avl_insert_go less i k t []) = _
    rw [hres]
    simp [ctxLP, ctxRP]
  refine ⟨hw', ?_, A, B, hAB, hres', hA, hB⟩
  rw [inorderKeys_eq_P, hres', List.map_append, List.map_cons]
  have hsAB : List.Pairwise (fun a b => less a b = true)
      (A.map Prod.snd ++ B.map Prod.snd) := by
    rw [← List.map_append, ← hAB, ← inorderKeys_eq_P]
    exact hsort
  obtain ⟨hpA, hpB, hcrossAB⟩ := List.pairwise_append.1 hsAB
  refine List.pairwise_append.2 ⟨hpA, ?_, ?_⟩
  · refine List.pairwise_cons.2 ⟨?_, hpB⟩
    intro b hb
    obtain ⟨y, hyB, hyb⟩ := List.mem_map.1 hb
    rw [← hyb]
    exact hB y hyB
  · intro a ha b hb
    rcases List.mem_cons.1 hb with hbk | hbB
    · obtain ⟨x, hxA, hxa⟩ := List.mem_map.1 ha
      rw [hbk, ← hxa]
      exact hA x hxA
    · exact hcrossAB a ha b hbB

/-! ### Deletion -/

theorem avl_update_update (t : AvlT α) :
    avl_update (avl_update t) = avl_update t := by
  rcases t <;> rfl

theorem avl_fix_node_congr (x y : AvlT α) (h : avl_update x = avl_update y) :
    avl_fix_node x = avl_fix_node y := by
  rw [avl_fix_node, avl_fix_node, h]

theorem del_easy_helper (child : AvlT α) (ctx : List (Frame α)) (hOld : Nat)
    (hwc : HCB child) (hs : SibsOk ctx hOld)
    (hrel : hOld = avl_height child + 1) :
    HCB (avl_fix child ctx) ∧
    inorderP (avl_fix child ctx)
      = ctxLP ctx ++ inorderP child ++ ctxRP ctx := by
  have hfixc : avl_fix_node child = child := avl_fix_node_of_HCB child hwc
  constructor
  · exact avl_fix_spec ctx child hOld hs (by rw [hfixc]; exact hwc)
      (by rw [hfixc]; omega) (by rw [hfixc]; omega)
  · rw [avl_fix_inorderP, plug_inorderP]

theorem avl_del_easy_spec (l r : AvlT α) (i : Nat) (k : α) (h c : Nat)
    (ctx : List (Frame α)) (hw : HCB (.node l i k r h c))
    (hs : SibsOk ctx (avl_height (.node l i k r h c)))
    (hnil : l = .nil ∨ r = .nil) :
    HCB (avl_del_easy (.node l i k r h c) ctx) ∧
    inorderP (avl_del_easy (.node l i k r h c) ctx)
      = ctxLP ctx ++ inorderP (match l with | .nil => r | _ => l)
          ++ ctxRP ctx := by
  obtain ⟨⟨hh1, hhl, hhr⟩, ⟨hc1, hcl, hcr⟩, ⟨⟨hb1, hb2⟩, hbl, hbr⟩⟩ := hw
  simp only [avl_height_node] at hs
  rcases l with _ | ⟨ll, lli, llk, llr, llh, llc⟩
  · -- left child null: splice in the right child
    rw [avl_height_nil] at hh1 hb1 hb2
    have hde : avl_del_easy (.node AvlT.nil i k r h c) ctx
        = avl_fix r ctx := by
      rcases ctx with _ | ⟨f, rest⟩
      · show avl_update r = avl_fix_node r
        rw [avl_update_of_ok r hhr hcr, avl_fix_node_of_HCB r ⟨hhr, hcr, hbr⟩]
      · show avl_fix (recomb f r) rest = _
        rw [avl_fix, avl_fix_node_of_HCB r ⟨hhr, hcr, hbr⟩]
    rw [hde]
    exact del_easy_helper r ctx h ⟨hhr, hcr, hbr⟩ hs (by omega)
  · -- right child must be null: splice in the left child
    rcases hnil with hnil | hnil
    · exact absurd hnil (by simp)
    · subst hnil
      rw [avl_height_nil] at hh1 hb1 hb2
      have hwl : HCB (.node ll lli llk llr llh llc) := ⟨hhl, hcl, hbl⟩
      have hde : avl_del_easy
          (.node (.node ll lli llk llr llh llc) i k AvlT.nil h c) ctx
          = avl_fix (.node ll lli llk llr llh llc) ctx := by
        rcases ctx with _ | ⟨f, rest⟩
        · show avl_update (.node ll lli llk llr llh llc) = avl_fix_node _
          rw [avl_update_of_ok _ hhl hcl, avl_fix_node_of_HCB _ hwl]
        · show avl_fix (recomb f (.node ll lli llk llr llh llc)) rest = _
          rw [avl_fix, avl_fix_node_of_HCB _ hwl]
      rw [hde]
      refine (del_easy_helper _ ctx h hwl hs ?_).imp id ?_
      · simp only [avl_height_node] at hb1 hb2 hh1 ⊢
        omega
      · exact fun hx => hx

theorem inorderP_nil : inorderP (.nil : AvlT α) = [] := rfl

theorem ctxLP_left (i : Nat) (k : α) (sib : AvlT α) (h c : Nat)
    (rest : List (Frame α)) :
    ctxLP (⟨.left, i, k, sib, h, c⟩ :: rest) = ctxLP rest := rfl

theorem ctxLP_right (i : Nat) (k : α) (sib : AvlT α) (h c : Nat)
    (rest : List (Frame α)) :
    ctxLP (⟨.right, i, k, sib, h, c⟩ :: rest)
      = ctxLP rest ++ (inorderP sib ++ [(i, k)]) := rfl

theorem ctxRP_left (i : Nat) (k : α) (sib : AvlT α) (h c : Nat)
    (rest : List (Frame α)) :
    ctxRP (⟨.left, i, k, sib, h, c⟩ :: rest)
      = ((i, k) :: inorderP sib) ++ ctxRP rest := rfl

theorem ctxRP_right (i : Nat) (k : α) (sib : AvlT α) (h c : Nat)
    (rest : List (Frame α)) :
    ctxRP (⟨.right, i, k, sib, h, c⟩ :: rest) = ctxRP rest := rfl

theorem zipperTo_append : ∀ (p q : List Dir) (t : AvlT α)
    (ctx0 : List (Frame α)),
    zipperTo t (p ++ q) ctx0
      = match zipperTo t p ctx0 with
        | none => none
        | some (s, c) => zipperTo s q c := by
  intro p
  induction p with
  | nil => intro q t ctx0; rcases t <;> rfl
  | cons d p ih =>
    intro q t ctx0
    rcases t with _ | ⟨l, i, k, r, th, tc⟩
    · rfl
    · cases d
      · exact ih q l _
      · exact ih q r _

theorem leftmost_spec : ∀ (R : AvlT α) (ctx0 : List (Frame α)),
    R ≠ .nil →
    ∃ si sk sr sh sc sctx X,
      zipperTo R (List.replicate (leftDepth R) Dir.left) ctx0
        = some (.node .nil si sk sr sh sc, sctx) ∧
      ctxLP sctx = ctxLP ctx0 ∧
      ctxRP sctx = X ++ ctxRP ctx0 ∧
      inorderP R = ((si, sk) :: inorderP sr) ++ X := by
  intro R
  induction R with
  | nil => intro ctx0 hne; exact absurd rfl hne
  | node rl ri rk rr rh rc ihl _ =>
    intro ctx0 _
    rcases hrl : rl with _ | ⟨a, b, c', d, e, g⟩
    · refine ⟨ri, rk, rr, rh, rc, ctx0, [], ?_, rfl, by simp,
        by simp [inorderP_node, inorderP_nil]⟩
      show zipperTo _ (List.replicate 0 Dir.left) ctx0 = _
      rfl
    · rw [← hrl]
      have hld : leftDepth (.node rl ri rk rr rh rc) = leftDepth rl + 1 := by
        rw [hrl]; rfl
      rw [hld, List.replicate_succ]
      obtain ⟨si, sk, sr, sh, sc, sctx, X', hz, hLP, hRP, hdec⟩ :=
        ihl (⟨.left, ri, rk, rr, rh, rc⟩ :: ctx0) (by rw [hrl]; simp)
      refine ⟨si, sk, sr, sh, sc, sctx, X' ++ ((ri, rk) :: inorderP rr),
        hz, ?_, ?_, ?_⟩
      · rw [hLP]; rfl
      · rw [hRP, ctxRP_left]
        simp [List.append_assoc]
      · rw [inorderP_node, hdec]
        simp [List.append_assoc]

theorem findId_isSome : ∀ (t : AvlT α) (i : Nat),
    i ∈ inorderIds t → (findId i t).isSome = true := by
  intro t
  induction t with
  | nil => intro i h; simp [inorderIds] at h
  | node l ni k r h c ihl ihr =>
    intro i hmem
    rw [findId]
    by_cases hni : ni = i
    · rw [if_pos hni]; rfl
    · rw [if_neg hni]
      rw [inorderIds_node] at hmem
      rcases List.mem_append.1 hmem with hl | hr
      · have hsome := ihl i hl
        rcases hfl : findId i l with _ | p
        · rw [hfl] at hsome; simp at hsome
        · rfl
      · rcases List.mem_cons.1 hr with heq | hr2
        · exact absurd heq.symm hni
        · rcases hfl : findId i l with _ | p
          · have hsome := ihr i hr2
            rcases hfr : findId i r with _ | q
            · rw [hfr] at hsome; simp at hsome
            · rfl
          · rfl

theorem findId_zipper : ∀ (t : AvlT α) (i : Nat) (p : List Dir),
    findId i t = some p → ∀ ctx0 : List (Frame α),
    ∃ l2 k2 r2 h2 c2 ctx,
      zipperTo t p ctx0 = some (.node l2 i k2 r2 h2 c2, ctx) := by
  intro t
  induction t with
  | nil => intro i p h; exact Option.noConfusion h
  | node l ni k r h c ihl ihr =>
    intro i p hf ctx0
    rw [findId] at hf
    by_cases hni : ni = i
    · rw [if_pos hni] at hf
      injection hf with hp
      subst hni
      rw [← hp]
      exact ⟨l, k, r, h, c, ctx0, rfl⟩
    · rw [if_neg hni] at hf
      rcases hfl : findId i l with _ | q
      · rw [hfl] at hf
        rcases hfr : findId i r with _ | q2
        · rw [hfr] at hf; exact Option.noConfusion hf
        · rw [hfr] at hf
          injection hf with hp
          rw [← hp]
          exact ihr i q2 hfr _
      · rw [hfl] at hf
        injection hf with hp
        rw [← hp]
        exact ihl i q hfl _

theorem pairs_split_unique : ∀ (A C : List (Nat × α)) (B D : List (Nat × α))
    (i : Nat) (k1 k2 : α),
    A ++ (i, k1) :: B = C ++ (i, k2) :: D →
    ((A ++ (i, k1) :: B).map Prod.fst).Nodup →
    A = C ∧ k1 = k2 ∧ B = D := by
  intro A
  induction A with
  | nil =>
    intro C B D i k1 k2 heq hnd
    rcases C with _ | ⟨c0, C'⟩
    · rw [List.nil_append, List.nil_append] at heq
      injection heq with h1 h2
      injection h1 with _ hk
      exact ⟨rfl, hk, h2⟩
    · rw [List.nil_append, List.cons_append] at heq
      injection heq with h1 h2
      rw [List.nil_append, List.map_cons, List.nodup_cons] at hnd
      exfalso
      apply hnd.1
      rw [h2]
      show i ∈ _
      exact List.mem_map_of_mem Prod.fst
        (List.mem_append_right _ (List.mem_cons_self _ _))
  | cons a0 A' ih =>
    intro C B D i k1 k2 heq hnd
    rcases C with _ | ⟨c0, C'⟩
    · rw [List.cons_append, List.nil_append] at heq
      injection heq with h1 h2
      rw [List.cons_append, List.map_cons, List.nodup_cons] at hnd
      exfalso
      apply hnd.1
      rw [h1]
      show i ∈ _
      exact List.mem_map_of_mem Prod.fst
        (List.mem_append_right _ (List.mem_cons_self _ _))
    · rw [List.cons_append, List.cons_append] at heq
      injection heq with h1 h2
      rw [List.cons_append, List.map_cons, List.nodup_cons] at hnd
      obtain ⟨hA, hk, hB⟩ := ih C' B D i k1 k2 h2 hnd.2
      exact ⟨by rw [h1, hA], hk, hB⟩

theorem avl_del_spec (t : AvlT α) (p : List Dir)
    (hw : HCB t) (hids : (inorderIds t).Nodup)
    (sub : AvlT α) (ctx : List (Frame α))
    (l r : AvlT α) (vi : Nat) (vk : α) (vh vc : Nat)
    (hz : zipperTo t p [] = some (sub, ctx))
    (hsub : sub = .node l vi vk r vh vc) :
    HCB (avl_del t p) ∧
    ∃ pre post, inorderP t = pre ++ (vi, vk) :: post ∧
      inorderP (avl_del t p) = pre ++ post := by
  subst hsub
  obtain ⟨hwsub, hsctx⟩ := zipperTo_sibs p t [] _ ctx hw trivial hz
  have hplug : plug ctx (.node l vi vk r vh vc) = t :=
    zipperTo_plug p t [] _ ctx hz
  have hT : inorderP t
      = ctxLP ctx ++ (inorderP l ++ (vi, vk) :: inorderP r) ++ ctxRP ctx := by
    rw [← hplug, plug_inorderP, inorderP_node]
  rcases l with _ | ⟨ll, lli, llk, llr, llh, llc⟩
  · -- the node has no left child: splice in the right child
    have hdel : avl_del t p
        = avl_del_easy (.node AvlT.nil vi vk r vh vc) ctx := by
      simp only [avl_del, hz]
    obtain ⟨hwres, hres⟩ :=
      avl_del_easy_spec AvlT.nil r vi vk vh vc ctx hwsub hsctx (Or.inl rfl)
    have hres' : inorderP (avl_del_easy (.node AvlT.nil vi vk r vh vc) ctx)
        = ctxLP ctx ++ inorderP r ++ ctxRP ctx := hres
    rw [hdel]
    refine ⟨hwres, ctxLP ctx, inorderP r ++ ctxRP ctx, ?_, ?_⟩
    · rw [hT, inorderP_nil]
      simp [List.append_assoc]
    · rw [hres']
      simp [List.append_assoc]
  · rcases r with _ | ⟨rl, ri, rk, rr, rh0, rc0⟩
    · -- no right child: splice in the left child
      have hdel : avl_del t p
          = avl_del_easy
              (.node (.node ll lli llk llr llh llc) vi vk AvlT.nil vh vc)
              ctx := by
        simp only [avl_del, hz]
      obtain ⟨hwres, hres⟩ :=
        avl_del_easy_spec (.node ll lli llk llr llh llc) AvlT.nil vi vk vh vc
          ctx hwsub hsctx (Or.inr rfl)
      have hres' : inorderP (avl_del_easy
            (.node (.node ll lli llk llr llh llc) vi vk AvlT.nil vh vc) ctx)
          = ctxLP ctx ++ inorderP (.node ll lli llk llr llh llc)
              ++ ctxRP ctx := hres
      rw [hdel]
      refine ⟨hwres, ctxLP ctx ++ inorderP (.node ll lli llk llr llh llc),
        ctxRP ctx, ?_, ?_⟩
      · rw [hT, inorderP_nil]
        simp [List.append_assoc]
      · rw [hres']
    · -- two children: detach the in-order successor and move it up
      have hspz := zipperTo_append p
        (Dir.right :: List.replicate
          (leftDepth (.node rl ri rk rr rh0 rc0)) Dir.left) t []
      rw [hz] at hspz
      obtain ⟨si, sk, sr, sh, sc, sctx, X, hzl, hLP, hRP, hdecR⟩ :=
        leftmost_spec (.node rl ri rk rr rh0 rc0)
          (⟨.right, vi, vk, .node ll lli llk llr llh llc, vh, vc⟩ :: ctx)
          (by simp)
      have hsp : zipperTo t
          (p ++ Dir.right :: List.replicate
            (leftDepth (.node rl ri rk rr rh0 rc0)) Dir.left) []
          = some (.node AvlT.nil si sk sr sh sc, sctx) := by
        rw [hspz]
        exact hzl
      obtain ⟨hws, hss⟩ := zipperTo_sibs _ t [] _ sctx hw trivial hsp
      obtain ⟨hwt1, hrest1⟩ :=
        avl_del_easy_spec AvlT.nil sr si sk sh sc sctx hws hss (Or.inl rfl)
      have hrest1' : inorderP (avl_del_easy (.node AvlT.nil si sk sr sh sc)
            sctx)
          = ctxLP sctx ++ inorderP sr ++ ctxRP sctx := hrest1
      have hT1 : inorderP (avl_del_easy (.node AvlT.nil si sk sr sh sc) sctx)
          = (ctxLP ctx ++ inorderP (.node ll lli llk llr llh llc))
            ++ (vi, vk) :: (inorderP sr ++ (X ++ ctxRP ctx)) := by
        rw [hrest1', hLP, ctxLP_right, hRP, ctxRP_right]
        simp [List.append_assoc]
      have hT' : inorderP t
          = (ctxLP ctx ++ inorderP (.node ll lli llk llr llh llc))
            ++ (vi, vk) :: ((si, sk) :: (inorderP sr ++ (X ++ ctxRP ctx))) := by
        rw [hT, hdecR]
        simp [List.append_assoc]
      have hsubl : List.Sublist
          (inorderP (avl_del_easy (.node AvlT.nil si sk sr sh sc) sctx))
          (inorderP t) := by
        rw [hT1, hT']
        exact List.Sublist.append_left
          (List.Sublist.cons₂ _ (List.sublist_cons_self _ _)) _
      have hnd1 : ((inorderP (avl_del_easy (.node AvlT.nil si sk sr sh sc)
          sctx)).map Prod.fst).Nodup := by
        refine List.Nodup.sublist (hsubl.map _) ?_
        rw [← inorderIds_eq_P]
        exact hids
      have hvimem : vi ∈ inorderIds
          (avl_del_easy (.node AvlT.nil si sk sr sh sc) sctx) := by
        rw [inorderIds_eq_P, hT1]
        refine List.mem_map.2 ⟨(vi, vk), ?_, rfl⟩
        exact List.mem_append_right _ (List.mem_cons_self _ _)
      obtain ⟨p1, hp1⟩ := Option.isSome_iff_exists.1
        (findId_isSome _ vi hvimem)
      obtain ⟨l1, k1, r1, h1, c1, ctx1, hz1⟩ := findId_zipper _ vi p1 hp1 []
      have hplug1 : plug ctx1 (.node l1 vi k1 r1 h1 c1)
          = avl_del_easy (.node AvlT.nil si sk sr sh sc) sctx :=
        zipperTo_plug p1 _ [] _ ctx1 hz1
      have hdec1 : inorderP (avl_del_easy (.node AvlT.nil si sk sr sh sc) sctx)
          = (ctxLP ctx1 ++ inorderP l1)
            ++ (vi, k1) :: (inorderP r1 ++ ctxRP ctx1) := by
        rw [← hplug1, plug_inorderP, inorderP_node]
        simp [List.append_assoc]
      have hnd1' : (((ctxLP ctx1 ++ inorderP l1)
          ++ (vi, k1) :: (inorderP r1 ++ ctxRP ctx1)).map Prod.fst).Nodup := by
        rw [← hdec1]
        exact hnd1
      obtain ⟨hPRE, hk1, hPOST⟩ := pairs_split_unique _ _ _ _ vi k1 vk
        (hdec1.symm.trans hT1) hnd1'
      have hdel : avl_del t p
          = avl_fix (avl_update (.node l1 si sk r1 sh sc)) ctx1 := by
        simp only [avl_del, hz, hsp, hp1, hz1]
      rw [hdel]
      obtain ⟨hwn, hsctx1⟩ := zipperTo_sibs p1 _ [] _ ctx1 hwt1 trivial hz1
      obtain ⟨⟨hh1n, hhl1, hhr1⟩, ⟨hc1n, hcl1, hcr1⟩, ⟨⟨hb1n, hb2n⟩, hbl1, hbr1⟩⟩
        := hwn
      simp only [avl_height_node] at hsctx1
      have hfn : avl_fix_node (avl_update (.node l1 si sk r1 sh sc))
          = avl_fix_node (.node l1 si sk r1 sh sc) :=
        avl_fix_node_congr _ _ (avl_update_update _)
      obtain ⟨hwfx, hcntx, hminx, hmaxx, hexactx⟩ :=
        avl_fix_node_spec l1 r1 si sk sh sc ⟨hhl1, hcl1, hbl1⟩
          ⟨hhr1, hcr1, hbr1⟩ (by omega) (by omega)
      have hco := hexactx (by omega) (by omega)
      constructor
      · exact avl_fix_spec ctx1 _ h1 hsctx1
          (by rw [hfn]; exact hwfx)
          (by rw [hfn]; omega) (by rw [hfn]; omega)
      · refine ⟨ctxLP ctx1 ++ inorderP l1,
          (si, sk) :: (inorderP r1 ++ ctxRP ctx1), ?_, ?_⟩
        · rw [hT', hPRE, hPOST]
        · rw [avl_fix_inorderP, plug_inorderP, inorderP_update, inorderP_node]
          simp [List.append_assoc]


/-! ### Parent links -/

theorem subtreeAt_append : ∀ (p q : List Dir) (t : AvlT α),
    subtreeAt t (p ++ q) = (subtreeAt t p).bind (fun s => subtreeAt s q) := by
  intro p
  induction p with
  | nil => intro q t; rcases t <;> rfl
  | cons d p ih =>
    intro q t
    rcases t with _ | ⟨l, i, k, r, h, c⟩
    · rfl
    · cases d
      · exact ih q l
      · exact ih q r

theorem ptrAt_parent_concat (t : AvlT α) (p : List Dir) (d : Dir)
    (l r : AvlT α) (i : Nat) (k : α) (h c : Nat)
    (hs : subtreeAt t (p ++ [d]) = some (.node l i k r h c)) :
    ∃ r2, ptrAt t (p ++ [d]) = some r2 ∧ r2.parent = some p := by
  rcases p with _ | ⟨p0, ps⟩
  · refine ⟨_, by rw [ptrAt.eq_def, hs], ?_⟩
    rfl
  · refine ⟨_, by rw [ptrAt.eq_def, hs], ?_⟩
    show some (((p0 :: ps) ++ [d]).dropLast) = some (p0 :: ps)
    rw [List.dropLast_concat]

theorem parentLinksOk_all (t : AvlT α) : ParentLinksOk t := by
  constructor
  · intro p r1 hp
    rcases hsub : subtreeAt t p with _ | s
    · rw [ptrAt.eq_def, hsub] at hp
      exact Option.noConfusion hp
    · rcases s with _ | ⟨l, i, k, r, h, c⟩
      · rw [ptrAt.eq_def, hsub] at hp
        exact Option.noConfusion hp
      · rw [ptrAt.eq_def, hsub] at hp
        injection hp with hp1
        constructor
        · intro q hq
          rw [← hp1] at hq
          rcases l with _ | ⟨la, lb, lc2, ld, le, lf⟩
          · exact Option.noConfusion hq
          · injection hq with hq1
            subst hq1
            exact ptrAt_parent_concat t p Dir.left la ld lb lc2 le lf
              (by rw [subtreeAt_append, hsub]; rfl)
        · intro q hq
          rw [← hp1] at hq
          rcases r with _ | ⟨ra, rb, rc2, rd, re, rf⟩
          · exact Option.noConfusion hq
          · injection hq with hq1
            subst hq1
            exact ptrAt_parent_concat t p Dir.right ra rd rb rc2 re rf
              (by rw [subtreeAt_append, hsub]; rfl)
  · intro r1 h
    rcases t with _ | ⟨l, i, k, r, hh, cc⟩
    · exact Option.noConfusion h
    · injection h with h1
      rw [← h1]

/-- After an `avl_search_and_insert` of a node with a key comparable to
every key in the tree, and after an `avl_del` of any node of the tree, all
the AVL invariants hold again: correct stored heights, correct stored
counts, the balance property, bidirectional parent links with a null root
parent, and a strictly increasing in-order key sequence under the supplied
comparator. -/
theorem avl_insert_delete_invariants (less : α → α → Bool)
    (htrans : ∀ a b c : α, less a b = true → less b c = true →
      less a c = true)
    (t : AvlT α) (i : Nat) (k : α) (p : List Dir)
    (sub : AvlT α) (ctx : List (Frame α)) (l r : AvlT α)
    (vi : Nat) (vk : α) (vh vc : Nat)
    (hwf : WFavl less t)
    (hcmp : ∀ x ∈ inorderKeys t, less x k = true ∨ less k x = true)
    (hz : zipperTo t p [] = some (sub, ctx))
    (hsub : sub = .node l vi vk r vh vc) :
    (HCB (avl_search_and_insert less i k t) ∧
     SortedLt less (inorderKeys (avl_search_and_insert less i k t)) ∧
     ParentLinksOk (avl_search_and_insert less i k t)) ∧
    (HCB (avl_del t p) ∧
     SortedLt less (inorderKeys (avl_del t p)) ∧
     ParentLinksOk (avl_del t p)) := by
  obtain ⟨hw, hsort, hids⟩ := hwf
  obtain ⟨hwi, hsi, _⟩ :=
    avl_search_and_insert_wf less htrans t i k hw hsort hcmp
  obtain ⟨hwd, pre, post, hteq, hdeq⟩ :=
    avl_del_spec t p hw hids sub ctx l r vi vk vh vc hz hsub
  refine ⟨⟨hwi, hsi, parentLinksOk_all _⟩, hwd, ?_, parentLinksOk_all _⟩
  have hsubl : List.Sublist (inorderP (avl_del t p)) (inorderP t) := by
    rw [hteq, hdeq]
    exact List.Sublist.append_left (List.sublist_cons_self _ _) _
  rw [inorderKeys_eq_P]
  refine List.Pairwise.sublist (hsubl.map _) ?_
  rw [← inorderKeys_eq_P]
  exact hsort

theorem avl_insert_delete_invariants_witness :
    WFavl (fun a b : Nat => decide (a < b))
      (.node AvlT.nil 10 5 AvlT.nil 1 1) ∧
    ((HCB (avl_search_and_insert (fun a b : Nat => decide (a < b)) 11 7
          (.node AvlT.nil 10 5 AvlT.nil 1 1)) ∧
      SortedLt (fun a b : Nat => decide (a < b))
        (inorderKeys (avl_search_and_insert (fun a b : Nat => decide (a < b))
          11 7 (.node AvlT.nil 10 5 AvlT.nil 1 1))) ∧
      ParentLinksOk (avl_search_and_insert (fun a b : Nat => decide (a < b))
        11 7 (.node AvlT.nil 10 5 AvlT.nil 1 1))) ∧
     (HCB (avl_del (.node AvlT.nil 10 5 AvlT.nil 1 1) []) ∧
      SortedLt (fun a b : Nat => decide (a < b))
        (inorderKeys (avl_del (.node AvlT.nil 10 5 AvlT.nil 1 1) [])) ∧
      ParentLinksOk (avl_del (.node AvlT.nil 10 5 AvlT.nil 1 1) []))) :=
  have hwf : WFavl (fun a b : Nat => decide (a < b))
      (.node AvlT.nil 10 5 AvlT.nil 1 1) :=
    ⟨⟨⟨by decide, trivial, trivial⟩, ⟨by decide, trivial, trivial⟩,
      ⟨⟨by decide, by decide⟩, trivial, trivial⟩⟩,
      List.Pairwise.cons (fun b hb => absurd hb (List.not_mem_nil b))
        List.Pairwise.nil, by decide⟩
  ⟨hwf, avl_insert_delete_invariants (fun a b : Nat => decide (a < b))
    (fun a b c h1 h2 => by
      simp only [decide_eq_true_eq] at h1 h2 ⊢
      omega)
    (.node AvlT.nil 10 5 AvlT.nil 1 1) 11 7 []
    (.node AvlT.nil 10 5 AvlT.nil 1 1) [] AvlT.nil AvlT.nil 10 5 1 1
    hwf (by decide) rfl rfl⟩

/-! ### Rank and offset -/

theorem avl_cnt_eq_lengthP (t : AvlT α) (hc : CntOk t) :
    avl_cnt t = (inorderP t).length := by
  induction t with
  | nil => rfl
  | node l i k r h c ihl ihr =>
    obtain ⟨h1, hl, hr⟩ := hc
    rw [avl_cnt_node, inorderP_node, List.length_append, List.length_cons,
      h1, ihl hl, ihr hr]
    omega

theorem zipperTo_ctxHCB : ∀ (p : List Dir) (t : AvlT α)
    (ctx0 : List (Frame α)) (sub : AvlT α) (ctx : List (Frame α)),
    HCB t → CtxHCB ctx0 t → zipperTo t p ctx0 = some (sub, ctx) →
    HCB sub ∧ CtxHCB ctx sub := by
  intro p
  induction p with
  | nil =>
    intro t ctx0 sub ctx hw hc h
    simp only [zipperTo] at h
    injection h with h1
    injection h1 with h2 h3
    rw [← h2, ← h3]
    exact ⟨hw, hc⟩
  | cons d q ih =>
    intro t ctx0 sub ctx hw hc h
    rcases t with _ | ⟨l, i, k, r, th, tc⟩
    · exact Option.noConfusion h
    · cases d
      · exact ih l (⟨.left, i, k, r, th, tc⟩ :: ctx0) sub ctx
          ⟨hw.1.2.1, hw.2.1.2.1, hw.2.2.2.1⟩ ⟨hw, hc⟩ h
      · exact ih r (⟨.right, i, k, l, th, tc⟩ :: ctx0) sub ctx
          ⟨hw.1.2.2, hw.2.1.2.2, hw.2.2.2.2⟩ ⟨hw, hc⟩ h

theorem ctxHCB_cntok : ∀ (ctx : List (Frame α)) (sub : AvlT α),
    CtxHCB ctx sub → ∀ f ∈ ctx, CntOk f.sib := by
  intro ctx
  induction ctx with
  | nil => intro sub _ f hf; exact absurd hf (List.not_mem_nil f)
  | cons f0 rest ih =>
    intro sub hc f hf
    obtain ⟨h1, h2⟩ := hc
    rcases List.mem_cons.1 hf with heq | hmem
    · subst heq
      obtain ⟨d, fi, fk, sib, fh, fc⟩ := f
      cases d
      · exact h1.2.1.2.2
      · exact h1.2.1.2.1
    · exact ih (recomb f0 sub) h2 f hmem

theorem ctx_length_le : ∀ (ctx : List (Frame α)),
    ctx.length ≤ (ctxLP ctx).length + (ctxRP ctx).length := by
  intro ctx
  induction ctx with
  | nil => exact Nat.le_refl 0
  | cons f rest ih =>
    obtain ⟨d, fi, fk, sib, fh, fc⟩ := f
    cases d
    · rw [List.length_cons, ctxLP_left, ctxRP_left, List.length_append,
        List.length_cons]
      omega
    · rw [List.length_cons, ctxLP_right, ctxRP_right, List.length_append,
        List.length_append, List.length_cons]
      omega

theorem avl_rank_go_spec : ∀ (ctx : List (Frame α)) (r0 : Int),
    (∀ f ∈ ctx, CntOk f.sib) →
    avl_rank_go r0 ctx = r0 + ((ctxLP ctx).length : Int) := by
  intro ctx
  induction ctx with
  | nil => intro r0 _; simp [avl_rank_go, ctxLP]
  | cons f rest ih =>
    intro r0 hcnt
    obtain ⟨d, fi, fk, sib, fh, fc⟩ := f
    have hsib : CntOk sib :=
      hcnt ⟨d, fi, fk, sib, fh, fc⟩ (List.mem_cons_self _ _)
    have hrest : ∀ g ∈ rest, CntOk g.sib :=
      fun g hg => hcnt g (List.mem_cons_of_mem _ hg)
    cases d
    · rw [show avl_rank_go r0 (⟨Dir.left, fi, fk, sib, fh, fc⟩ :: rest)
          = avl_rank_go r0 rest from rfl, ih r0 hrest, ctxLP_left]
    · rw [show avl_rank_go r0 (⟨Dir.right, fi, fk, sib, fh, fc⟩ :: rest)
          = avl_rank_go (r0 + ((avl_cnt sib + 1 : Nat) : Int)) rest from rfl,
        ih _ hrest, ctxLP_right, List.length_append, List.length_append,
        List.length_singleton, avl_cnt_eq_lengthP sib hsib]
      push_cast
      ring

theorem zipperTo_of_plug : ∀ (ctx : List (Frame α)) (s : AvlT α),
    zipperTo (plug ctx s) (ctxPath ctx) [] = some (s, ctx) := by
  intro ctx
  induction ctx with
  | nil => intro s; rcases s <;> rfl
  | cons f rest ih =>
    intro s
    have hcp : ctxPath (f :: rest) = ctxPath rest ++ [f.d] := by
      simp [ctxPath]
    rw [plug, hcp, zipperTo_append, ih (recomb f s)]
    obtain ⟨d, fi, fk, sib, fh, fc⟩ := f
    cases d <;> rcases s <;> rfl

theorem avl_left_node (l : AvlT α) (i : Nat) (k : α) (r : AvlT α)
    (h c : Nat) : avl_left (.node l i k r h c) = l := rfl

theorem avl_right_node (l : AvlT α) (i : Nat) (k : α) (r : AvlT α)
    (h c : Nat) : avl_right (.node l i k r h c) = r := rfl

theorem avl_offset_go_red (m : Nat) (l r : AvlT α) (i : Nat) (k : α)
    (h c : Nat) (ctx : List (Frame α)) (pos target : Int) :
    avl_offset_go (m + 1) (.node l i k r h c) ctx pos target
      = (if pos = target then some (.node l i k r h c, ctx)
        else if pos < target ∧ target ≤ pos + (avl_cnt r : Int) then
          avl_offset_go m r (⟨.right, i, k, l, h, c⟩ :: ctx)
            (pos + (avl_cnt (avl_left r) : Int) + 1) target
        else if target < pos ∧ pos - (avl_cnt l : Int) ≤ target then
          avl_offset_go m l (⟨.left, i, k, r, h, c⟩ :: ctx)
            (pos - ((avl_cnt (avl_right l) : Int) + 1)) target
        else
          match ctx with
          | [] => none
          | f :: rest =>
            match f.d with
            | .right => avl_offset_go m (recomb f (.node l i k r h c)) rest
                (pos - ((avl_cnt l : Int) + 1)) target
            | .left => avl_offset_go m (recomb f (.node l i k r h c)) rest
                (pos + (avl_cnt r : Int) + 1) target) := rfl

theorem avl_offset_go_descend : ∀ (sub : AvlT α) (fuel : Nat)
    (ctx : List (Frame α)) (pos target : Int),
    HCB sub → CtxHCB ctx sub →
    fuel ≥ (inorderP sub).length →
    pos - (avl_cnt (avl_left sub) : Int) ≤ target →
    target ≤ pos + (avl_cnt (avl_right sub) : Int) →
    sub ≠ .nil →
    ∃ l2 i2 k2 r2 h2 c2 ctx2,
      avl_offset_go fuel sub ctx pos target
        = some (.node l2 i2 k2 r2 h2 c2, ctx2) ∧
      plug ctx2 (.node l2 i2 k2 r2 h2 c2) = plug ctx sub ∧
      (((ctxLP ctx2).length : Int) + (avl_cnt l2 : Int))
        = (((ctxLP ctx).length : Int) + (avl_cnt (avl_left sub) : Int))
          + (target - pos) ∧
      HCB (.node l2 i2 k2 r2 h2 c2) := by
  intro sub
  induction sub with
  | nil =>
    intro fuel ctx pos target _ _ _ _ _ hne
    exact absurd rfl hne
  | node l i k r h c ihl ihr =>
    intro fuel ctx pos target hw hctx hfuel hlow hhigh _
    simp only [avl_left_node, avl_right_node] at hlow hhigh ⊢
    have hcntl : avl_cnt l = (inorderP l).length :=
      avl_cnt_eq_lengthP l hw.2.1.2.1
    have hcntr : avl_cnt r = (inorderP r).length :=
      avl_cnt_eq_lengthP r hw.2.1.2.2
    have hlensub : (inorderP (.node l i k r h c)).length
        = (inorderP l).length + 1 + (inorderP r).length := by
      rw [inorderP_node]
      simp
      omega
    rcases fuel with _ | m
    · exfalso
      omega
    · rw [avl_offset_go_red]
      by_cases h0 : pos = target
      · rw [if_pos h0]
        exact ⟨l, i, k, r, h, c, ctx, rfl, rfl, by omega, hw⟩
      · rw [if_neg h0]
        by_cases h2 : pos < target ∧ target ≤ pos + (avl_cnt r : Int)
        · rw [if_pos h2]
          rcases r with _ | ⟨rl, ri, rk, rr, rh, rc⟩
          · exfalso
            rw [avl_cnt_nil] at h2
            omega
          · have hwr : HCB (.node rl ri rk rr rh rc) :=
              ⟨hw.1.2.2, hw.2.1.2.2, hw.2.2.2.2⟩
            have hcrr : rc = 1 + (avl_cnt rl + avl_cnt rr) := hw.2.1.2.2.1
            have hcntrl : avl_cnt rl = (inorderP rl).length :=
              avl_cnt_eq_lengthP rl hwr.2.1.2.1
            have hlenr : (inorderP (.node rl ri rk rr rh rc)).length
                = (inorderP rl).length + 1 + (inorderP rr).length := by
              rw [inorderP_node]
              simp
              omega
            obtain ⟨l2, i2, k2, r2, h2x, c2, ctx2, hgo, hplug, hidx, hw2⟩ :=
              ihr m (⟨.right, i, k, l, h, c⟩ :: ctx)
                (pos + (avl_cnt (avl_left (.node rl ri rk rr rh rc)) : Int) + 1)
                target hwr ⟨hw, hctx⟩ (by omega)
                (by simp only [avl_left_node]; omega)
                (by simp only [avl_left_node, avl_right_node]
                    rw [avl_cnt_node] at h2
                    omega)
                (by simp)
            refine ⟨l2, i2, k2, r2, h2x, c2, ctx2, hgo, hplug, ?_, hw2⟩
            simp only [avl_left_node] at hidx
            rw [ctxLP_right] at hidx
            simp only [List.length_append, List.length_singleton] at hidx
            rw [avl_cnt_node] at hhigh
            omega
        · rw [if_neg h2]
          by_cases h3 : target < pos ∧ pos - (avl_cnt l : Int) ≤ target
          · rw [if_pos h3]
            rcases l with _ | ⟨ll, li, lk, lr, lh, lc⟩
            · exfalso
              rw [avl_cnt_nil] at h3
              omega
            · have hwl : HCB (.node ll li lk lr lh lc) :=
                ⟨hw.1.2.1, hw.2.1.2.1, hw.2.2.2.1⟩
              have hcll : lc = 1 + (avl_cnt ll + avl_cnt lr) := hw.2.1.2.1.1
              have hcntlr : avl_cnt lr = (inorderP lr).length :=
                avl_cnt_eq_lengthP lr hwl.2.1.2.2
              have hlenl : (inorderP (.node ll li lk lr lh lc)).length
                  = (inorderP ll).length + 1 + (inorderP lr).length := by
                rw [inorderP_node]
                simp
                omega
              obtain ⟨l2, i2, k2, r2, h2x, c2, ctx2, hgo, hplug, hidx, hw2⟩ :=
                ihl m (⟨.left, i, k, r, h, c⟩ :: ctx)
                  (pos - ((avl_cnt (avl_right (.node ll li lk lr lh lc))
                    : Int) + 1)) target hwl ⟨hw, hctx⟩ (by omega)
                  (by simp only [avl_left_node, avl_right_node]
                      rw [avl_cnt_node] at h3
                      omega)
                  (by simp only [avl_left_node, avl_right_node]
                      omega)
                  (by simp)
              refine ⟨l2, i2, k2, r2, h2x, c2, ctx2, hgo, hplug, ?_, hw2⟩
              simp only [avl_left_node, avl_right_node] at hidx
              rw [ctxLP_left] at hidx
              rw [avl_cnt_node] at hlow
              rw [avl_cnt_node]
              omega
          · exfalso
            rcases lt_trichotomy pos target with hlt | heq | hgt
            · exact h2 ⟨hlt, by omega⟩
            · exact h0 heq
            · exact h3 ⟨hgt, by omega⟩

theorem avl_offset_go_climb : ∀ (ctx : List (Frame α)) (fuel : Nat)
    (l r : AvlT α) (i : Nat) (k : α) (h c : Nat) (pos target : Int),
    HCB (.node l i k r h c) → CtxHCB ctx (.node l i k r h c) →
    fuel ≥ ctx.length
      + (inorderP (plug ctx (.node l i k r h c))).length + 1 →
    ((0 ≤ ((ctxLP ctx).length : Int) + (avl_cnt l : Int) + (target - pos) ∧
      ((ctxLP ctx).length : Int) + (avl_cnt l : Int) + (target - pos)
        < ((inorderP (plug ctx (.node l i k r h c))).length : Int)) →
      ∃ l2 i2 k2 r2 h2 c2 ctx2,
        avl_offset_go fuel (.node l i k r h c) ctx pos target
          = some (.node l2 i2 k2 r2 h2 c2, ctx2) ∧
        plug ctx2 (.node l2 i2 k2 r2 h2 c2)
          = plug ctx (.node l i k r h c) ∧
        (((ctxLP ctx2).length : Int) + (avl_cnt l2 : Int))
          = ((ctxLP ctx).length : Int) + (avl_cnt l : Int) + (target - pos) ∧
        HCB (.node l2 i2 k2 r2 h2 c2)) ∧
    (¬ (0 ≤ ((ctxLP ctx).length : Int) + (avl_cnt l : Int) + (target - pos) ∧
        ((ctxLP ctx).length : Int) + (avl_cnt l : Int) + (target - pos)
          < ((inorderP (plug ctx (.node l i k r h c))).length : Int)) →
      avl_offset_go fuel (.node l i k r h c) ctx pos target = none) := by
  intro ctx
  induction ctx with
  | nil =>
    intro fuel l r i k h c pos target hw hctx hfuel
    have hcntl : avl_cnt l = (inorderP l).length :=
      avl_cnt_eq_lengthP l hw.2.1.2.1
    have hcntr : avl_cnt r = (inorderP r).length :=
      avl_cnt_eq_lengthP r hw.2.1.2.2
    have hlen : (inorderP (plug ([] : List (Frame α))
        (.node l i k r h c))).length
        = (inorderP l).length + 1 + (inorderP r).length := by
      show (inorderP (.node l i k r h c)).length = _
      rw [inorderP_node]
      simp
      omega
    have hlensub : (inorderP (.node l i k r h c)).length
        = (inorderP l).length + 1 + (inorderP r).length := by
      rw [inorderP_node]
      simp
      omega
    have hLP0 : (ctxLP ([] : List (Frame α))).length = 0 := rfl
    constructor
    · intro hin
      obtain ⟨l2, i2, k2, r2, h2, c2, ctx2, hgo, hplug, hidx, hw2⟩ :=
        avl_offset_go_descend (.node l i k r h c) fuel [] pos target hw
          trivial (by omega)
          (by simp only [avl_left_node]; omega)
          (by simp only [avl_right_node]; omega)
          (by simp)
      refine ⟨l2, i2, k2, r2, h2, c2, ctx2, hgo, hplug, ?_, hw2⟩
      simp only [avl_left_node] at hidx
      omega
    · intro hout
      rcases fuel with _ | m
      · exfalso
        omega
      · rw [avl_offset_go_red]
        have hn0 : ¬ pos = target := fun heq => hout ⟨by omega, by omega⟩
        have hn2 : ¬ (pos < target ∧ target ≤ pos + (avl_cnt r : Int)) :=
          fun hx => hout ⟨by omega, by omega⟩
        have hn3 : ¬ (target < pos ∧ pos - (avl_cnt l : Int) ≤ target) :=
          fun hx => hout ⟨by omega, by omega⟩
        rw [if_neg hn0, if_neg hn2, if_neg hn3]
  | cons f rest ih =>
    intro fuel l r i k h c pos target hw hctx hfuel
    obtain ⟨hwp, hctxr⟩ := hctx
    obtain ⟨d, fi, fk, sib, fh, fc⟩ := f
    have hcntl : avl_cnt l = (inorderP l).length :=
      avl_cnt_eq_lengthP l hw.2.1.2.1
    have hcntr : avl_cnt r = (inorderP r).length :=
      avl_cnt_eq_lengthP r hw.2.1.2.2
    have hcc : c = 1 + (avl_cnt l + avl_cnt r) := hw.2.1.1
    have hlen : (inorderP (plug (⟨d, fi, fk, sib, fh, fc⟩ :: rest)
        (.node l i k r h c))).length
        = (ctxLP (⟨d, fi, fk, sib, fh, fc⟩ :: rest)).length
          + ((inorderP l).length + 1 + (inorderP r).length)
          + (ctxRP (⟨d, fi, fk, sib, fh, fc⟩ :: rest)).length := by
      rw [plug_inorderP, inorderP_node]
      simp only [List.length_append, List.length_cons]
      omega
    have hlensub : (inorderP (.node l i k r h c)).length
        = (inorderP l).length + 1 + (inorderP r).length := by
      rw [inorderP_node]
      simp
      omega
    have hlc : ((⟨d, fi, fk, sib, fh, fc⟩ : Frame α) :: rest).length
        = rest.length + 1 := rfl
    by_cases hint : pos - (avl_cnt l : Int) ≤ target ∧
        target ≤ pos + (avl_cnt r : Int)
    · obtain ⟨l2, i2, k2, r2, h2, c2, ctx2, hgo, hplug, hidx, hw2⟩ :=
        avl_offset_go_descend (.node l i k r h c) fuel
          (⟨d, fi, fk, sib, fh, fc⟩ :: rest) pos target hw ⟨hwp, hctxr⟩
          (by omega)
          (by simp only [avl_left_node]; omega)
          (by simp only [avl_right_node]; omega)
          (by simp)
      simp only [avl_left_node] at hidx
      constructor
      · intro _
        exact ⟨l2, i2, k2, r2, h2, c2, ctx2, hgo, hplug, by omega, hw2⟩
      · intro hout
        exfalso
        exact hout ⟨by omega, by omega⟩
    · rcases fuel with _ | m
      · exfalso
        omega
      · rw [avl_offset_go_red]
        have hn0 : ¬ pos = target := fun heq => hint ⟨by omega, by omega⟩
        have hn2 : ¬ (pos < target ∧ target ≤ pos + (avl_cnt r : Int)) :=
          fun hx => hint ⟨by omega, hx.2⟩
        have hn3 : ¬ (target < pos ∧ pos - (avl_cnt l : Int) ≤ target) :=
          fun hx => hint ⟨hx.2, by omega⟩
        rw [if_neg hn0, if_neg hn2, if_neg hn3]
        cases d
        · -- we are the parent's left child: climb with pos + cnt r + 1
          have hwp2 : HCB (.node (.node l i k r h c) fi fk sib fh fc) := hwp
          have hctxr2 : CtxHCB rest
              (.node (.node l i k r h c) fi fk sib fh fc) := hctxr
          have hlen_eq : inorderP (plug rest
                (.node (.node l i k r h c) fi fk sib fh fc))
              = inorderP (plug (⟨Dir.left, fi, fk, sib, fh, fc⟩ :: rest)
                (.node l i k r h c)) := rfl
          have hcnode : avl_cnt (.node l i k r h c) = c := rfl
          have hLPl : (ctxLP (⟨Dir.left, fi, fk, sib, fh, fc⟩ :: rest)).length
              = (ctxLP rest).length := by
            rw [ctxLP_left]
          obtain ⟨ih1, ih2⟩ := ih m (.node l i k r h c) sib fi fk fh fc
            (pos + (avl_cnt r : Int) + 1) target hwp2 hctxr2
            (by rw [hlen_eq]; omega)
          have hlen2 : (inorderP (plug rest
              (.node (.node l i k r h c) fi fk sib fh fc))).length
              = (inorderP (plug (⟨Dir.left, fi, fk, sib, fh, fc⟩ :: rest)
                (.node l i k r h c))).length := by
            rw [hlen_eq]
          constructor
          · intro hin
            obtain ⟨ha0, hb0⟩ := hin
            obtain ⟨l2, i2, k2, r2, h2, c2, ctx2, hgo, hplug, hidx, hw2⟩ :=
              ih1 ⟨by rw [hcnode]; omega, by rw [hcnode]; omega⟩
            refine ⟨l2, i2, k2, r2, h2, c2, ctx2, hgo, hplug, ?_, hw2⟩
            rw [hcnode] at hidx
            omega
          · intro hout
            refine ih2 ?_
            intro hin'
            obtain ⟨ha, hb⟩ := hin'
            rw [hlen_eq] at hb
            rw [hcnode] at ha hb
            exact hout ⟨by omega, by omega⟩
        · -- we are the parent's right child: climb with pos - (cnt l + 1)
          have hwp2 : HCB (.node sib fi fk (.node l i k r h c) fh fc) := hwp
          have hctxr2 : CtxHCB rest
              (.node sib fi fk (.node l i k r h c) fh fc) := hctxr
          have hlen_eq : inorderP (plug rest
                (.node sib fi fk (.node l i k r h c) fh fc))
              = inorderP (plug (⟨Dir.right, fi, fk, sib, fh, fc⟩ :: rest)
                (.node l i k r h c)) := rfl
          have hcsib : avl_cnt sib = (inorderP sib).length :=
            avl_cnt_eq_lengthP sib hwp2.2.1.2.1
          have hLPr : (ctxLP (⟨Dir.right, fi, fk, sib, fh, fc⟩ ::
              rest)).length
              = (ctxLP rest).length + ((inorderP sib).length + 1) := by
            rw [ctxLP_right]
            simp
          obtain ⟨ih1, ih2⟩ := ih m sib (.node l i k r h c) fi fk fh fc
            (pos - ((avl_cnt l : Int) + 1)) target hwp2 hctxr2
            (by rw [hlen_eq]; omega)
          have hlen2 : (inorderP (plug rest
              (.node sib fi fk (.node l i k r h c) fh fc))).length
              = (inorderP (plug (⟨Dir.right, fi, fk, sib, fh, fc⟩ :: rest)
                (.node l i k r h c))).length := by
            rw [hlen_eq]
          constructor
          · intro hin
            obtain ⟨ha0, hb0⟩ := hin
            obtain ⟨l2, i2, k2, r2, h2, c2, ctx2, hgo, hplug, hidx, hw2⟩ :=
              ih1 ⟨by omega, by omega⟩
            refine ⟨l2, i2, k2, r2, h2, c2, ctx2, hgo, hplug, ?_, hw2⟩
            omega
          · intro hout
            refine ih2 ?_
            intro hin'
            obtain ⟨ha, hb⟩ := hin'
            rw [hlen_eq] at hb
            exact hout ⟨by omega, by omega⟩

/-- `avl_rank` returns a node's 0-based position in the in-order
traversal, and `avl_offset` by `off` reaches the node whose in-order
position differs by exactly `off`, returning null precisely when the
target position falls outside the tree. -/
theorem avl_rank_offset_correct (t : AvlT α) (p : List Dir)
    (sub : AvlT α) (ctx : List (Frame α)) (l r : AvlT α)
    (vi : Nat) (vk : α) (vh vc : Nat) (off : Int)
    (hw : HCB t)
    (hz : zipperTo t p [] = some (sub, ctx))
    (hsub : sub = .node l vi vk r vh vc) :
    (∃ pre post, inorderP t = pre ++ (vi, vk) :: post ∧
      avl_rank t p = (pre.length : Int)) ∧
    ((0 ≤ avl_rank t p + off ∧
      avl_rank t p + off < ((inorderP t).length : Int)) →
      ∃ (p2 : List Dir) (sub2 : AvlT α) (ctx2 : List (Frame α))
        (l2 r2 : AvlT α) (vi2 : Nat) (vk2 : α) (vh2 vc2 : Nat)
        (pre2 post2 : List (Nat × α)),
        avl_offset t p off = some p2 ∧
        zipperTo t p2 [] = some (sub2, ctx2) ∧
        sub2 = .node l2 vi2 vk2 r2 vh2 vc2 ∧
        inorderP t = pre2 ++ (vi2, vk2) :: post2 ∧
        (pre2.length : Int) = avl_rank t p + off) ∧
    (¬ (0 ≤ avl_rank t p + off ∧
        avl_rank t p + off < ((inorderP t).length : Int)) →
      avl_offset t p off = none) := by
  subst hsub
  obtain ⟨hwsub, hctx⟩ := zipperTo_ctxHCB p t [] _ ctx hw trivial hz
  have hplug : plug ctx (.node l vi vk r vh vc) = t :=
    zipperTo_plug p t [] _ ctx hz
  have hT : inorderP t
      = ctxLP ctx ++ (inorderP l ++ (vi, vk) :: inorderP r)
        ++ ctxRP ctx := by
    rw [← hplug, plug_inorderP, inorderP_node]
  have hcnt : ∀ f ∈ ctx, CntOk f.sib := ctxHCB_cntok ctx _ hctx
  have hcntl : avl_cnt l = (inorderP l).length :=
    avl_cnt_eq_lengthP l hwsub.2.1.2.1
  have hcntr : avl_cnt r = (inorderP r).length :=
    avl_cnt_eq_lengthP r hwsub.2.1.2.2
  have hcntt : avl_cnt t = (inorderP t).length :=
    avl_cnt_eq_lengthP t hw.2.1
  have hTlen : (inorderP t).length
      = (ctxLP ctx).length + ((inorderP l).length + 1
        + (inorderP r).length) + (ctxRP ctx).length := by
    rw [hT]
    simp only [List.length_append, List.length_cons]
    omega
  have hctxle := ctx_length_le ctx
  have hrank : avl_rank t p
      = (avl_cnt l : Int) + ((ctxLP ctx).length : Int) := by
    simp only [avl_rank, hz, avl_left_node]
    rw [avl_rank_go_spec ctx _ hcnt]
  have hplen2 : (inorderP (plug ctx (.node l vi vk r vh vc))).length
      = (inorderP t).length := by
    rw [hplug]
  obtain ⟨c1, c2⟩ := avl_offset_go_climb ctx (2 * avl_cnt t + 2) l r vi vk
    vh vc 0 off hwsub hctx (by omega)
  refine ⟨⟨ctxLP ctx ++ inorderP l, inorderP r ++ ctxRP ctx, ?_, ?_⟩,
    ?_, ?_⟩
  · rw [hT]
    simp [List.append_assoc]
  · rw [hrank, List.length_append]
    push_cast
    omega
  · intro hin
    obtain ⟨l2, i2, k2, r2, h2, c2x, ctx2, hgo, hplug2, hidx, hw2⟩ :=
      c1 ⟨by omega, by omega⟩
    have hoff : avl_offset t p off = some (ctxPath ctx2) := by
      simp only [avl_offset, hz, hgo]
    have hplugt : plug ctx2 (.node l2 i2 k2 r2 h2 c2x) = t :=
      hplug2.trans hplug
    refine ⟨ctxPath ctx2, .node l2 i2 k2 r2 h2 c2x, ctx2, l2, r2, i2, k2,
      h2, c2x, ctxLP ctx2 ++ inorderP l2, inorderP r2 ++ ctxRP ctx2,
      hoff, ?_, rfl, ?_, ?_⟩
    · rw [← hplugt]
      exact zipperTo_of_plug ctx2 _
    · rw [← hplugt, plug_inorderP, inorderP_node]
      simp [List.append_assoc]
    · have hcntl2 : avl_cnt l2 = (inorderP l2).length :=
        avl_cnt_eq_lengthP l2 hw2.2.1.2.1
      rw [List.length_append, hrank]
      push_cast
      omega
  · intro hout
    have hnone := c2 (fun hin2 => hout ⟨by omega, by omega⟩)
    simp only [avl_offset, hz, hnone]

theorem avl_rank_offset_correct_witness :
    HCB (.node (.node AvlT.nil 1 3 AvlT.nil 1 1) 2 5 AvlT.nil 2 2
      : AvlT Nat) ∧
    ∃ pre post,
      inorderP (.node (.node AvlT.nil 1 3 AvlT.nil 1 1) 2 5 AvlT.nil 2 2
        : AvlT Nat) = pre ++ (1, 3) :: post ∧
      avl_rank (.node (.node AvlT.nil 1 3 AvlT.nil 1 1) 2 5 AvlT.nil 2 2
        : AvlT Nat) [Dir.left] = (pre.length : Int) :=
  have hw : HCB (.node (.node AvlT.nil 1 3 AvlT.nil 1 1) 2 5 AvlT.nil 2 2
      : AvlT Nat) :=
    ⟨⟨by decide, ⟨by decide, trivial, trivial⟩, trivial⟩,
     ⟨by decide, ⟨by decide, trivial, trivial⟩, trivial⟩,
     ⟨⟨by decide, by decide⟩, ⟨⟨by decide, by decide⟩, trivial, trivial⟩,
      trivial⟩⟩
  ⟨hw, (avl_rank_offset_correct
    (.node (.node AvlT.nil 1 3 AvlT.nil 1 1) 2 5 AvlT.nil 2 2) [Dir.left]
    (.node AvlT.nil 1 3 AvlT.nil 1 1) [⟨.left, 2, 5, AvlT.nil, 2, 2⟩]
    AvlT.nil AvlT.nil 1 3 1 1 1 hw rfl rfl).1⟩

/-! ### Sorted set -/

theorem bytesLt_trans : ∀ (a b c : ByteStr),
    bytesLt a b = true → bytesLt b c = true → bytesLt a c = true := by
  intro a
  induction a with
  | nil =>
    intro b c hab hbc
    rcases b with _ | ⟨y, ys⟩
    · simp [bytesLt] at hab
    · rcases c with _ | ⟨z, zs⟩
      · simp [bytesLt] at hbc
      · rfl
  | cons x xs ih =>
    intro b c hab hbc
    rcases b with _ | ⟨y, ys⟩
    · simp [bytesLt] at hab
    · rcases c with _ | ⟨z, zs⟩
      · simp [bytesLt] at hbc
      · simp only [bytesLt] at hab hbc ⊢
        by_cases hxy : x < y
        · by_cases hyz : y < z
          · rw [if_pos (by omega)]
          · rw [if_neg hyz] at hbc
            by_cases hzy : z < y
            · rw [if_pos hzy] at hbc
              exact absurd hbc (by simp)
            · rw [if_pos (by omega)]
        · rw [if_neg hxy] at hab
          by_cases hyx : y < x
          · rw [if_pos hyx] at hab
            exact absurd hab (by simp)
          · rw [if_neg hyx] at hab
            by_cases hyz : y < z
            · rw [if_pos (by omega)]
            · rw [if_neg hyz] at hbc
              by_cases hzy : z < y
              · rw [if_pos hzy] at hbc
                exact absurd hbc (by simp)
              · rw [if_neg hzy] at hbc
                rw [if_neg (by omega), if_neg (by omega)]
                exact ih ys zs hab hbc

theorem bytesLt_total : ∀ (a b : ByteStr),
    a = b ∨ bytesLt a b = true ∨ bytesLt b a = true := by
  intro a
  induction a with
  | nil =>
    intro b
    rcases b with _ | ⟨y, ys⟩
    · exact Or.inl rfl
    · exact Or.inr (Or.inl rfl)
  | cons x xs ih =>
    intro b
    rcases b with _ | ⟨y, ys⟩
    · exact Or.inr (Or.inr rfl)
    · by_cases hxy : x < y
      · refine Or.inr (Or.inl ?_)
        simp only [bytesLt]
        rw [if_pos hxy]
      · by_cases hyx : y < x
        · refine Or.inr (Or.inr ?_)
          simp only [bytesLt]
          rw [if_pos hyx]
        · have hxey : x = y := by omega
          rcases ih ys with heq | hlt | hgt
          · exact Or.inl (by rw [hxey, heq])
          · refine Or.inr (Or.inl ?_)
            simp only [bytesLt]
            rw [if_neg hxy, if_neg hyx]
            exact hlt
          · refine Or.inr (Or.inr ?_)
            simp only [bytesLt]
            rw [if_neg hyx, if_neg hxy]
            exact hgt

theorem zless_trans : ∀ (a b c : Int × ByteStr),
    zless a b = true → zless b c = true → zless a c = true := by
  intro a b c hab hbc
  rw [zless] at hab hbc ⊢
  by_cases h1 : a.1 = b.1
  · rw [if_neg (not_ne_iff.mpr h1)] at hab
    by_cases h2 : b.1 = c.1
    · rw [if_neg (not_ne_iff.mpr h2)] at hbc
      rw [if_neg (not_ne_iff.mpr (h1.trans h2))]
      exact bytesLt_trans _ _ _ hab hbc
    · rw [if_pos h2] at hbc
      have hbc2 : b.1 < c.1 := by simpa using hbc
      rw [if_pos (by omega)]
      simp
      omega
  · rw [if_pos h1] at hab
    have hab2 : a.1 < b.1 := by simpa using hab
    by_cases h2 : b.1 = c.1
    · rw [if_pos (show a.1 ≠ c.1 by omega)]
      simp
      omega
    · rw [if_pos h2] at hbc
      have hbc2 : b.1 < c.1 := by simpa using hbc
      rw [if_pos (show a.1 ≠ c.1 by omega)]
      simp
      omega

theorem zless_total : ∀ (a b : Int × ByteStr),
    a = b ∨ zless a b = true ∨ zless b a = true := by
  intro ⟨a1, a2⟩ ⟨b1, b2⟩
  by_cases h : a1 = b1
  · subst h
    rcases bytesLt_total a2 b2 with heq | hlt | hgt
    · exact Or.inl (by rw [heq])
    · refine Or.inr (Or.inl ?_)
      rw [zless, if_neg (by simp)]
      exact hlt
    · refine Or.inr (Or.inr ?_)
      rw [zless, if_neg (by simp)]
      exact hgt
  · rcases lt_or_gt_of_ne h with hlt | hgt
    · refine Or.inr (Or.inl ?_)
      rw [zless, if_pos (by simpa using h)]
      simpa using hlt
    · refine Or.inr (Or.inr ?_)
      rw [zless, if_pos (by simp; omega)]
      simp
      omega

theorem z_unique (m : HMap ZData)
    (hnd : ((hmNodes m).map (fun n => n.data.name)).Nodup)
    (n : HNode ZData) (hmem : n ∈ hmNodes m) :
    ∀ n' ∈ hmNodes m, n'.hcode = (zprobe n.data.name).hcode →
      zsame n' (zprobe n.data.name) = true → n' = n := by
  intro n' hmem' _ heq
  have hk : n'.data.name = n.data.name := by
    simpa [zsame, zprobe] using heq
  exact List.inj_on_of_nodup_map hnd hmem' hmem hk

theorem z_lookup_finds (m : HMap ZData) (hwf : HMapWF m)
    (hhc : ∀ x ∈ hmNodes m, x.hcode = str_hash x.data.name)
    (hnd : ((hmNodes m).map (fun n => n.data.name)).Nodup)
    (n : HNode ZData) (hmem : n ∈ hmNodes m) :
    (hm_lookup m (zprobe n.data.name) zsame).2.1 = some n := by
  apply hm_lookup_found m _ zsame n hwf hmem
  · simpa [zprobe] using hhc n hmem
  · simp [zsame, zprobe]
  · exact z_unique m hnd n hmem

theorem z_lookup_absent (m : HMap ZData) (hwf : HMapWF m)
    (name : ByteStr)
    (habs : name ∉ (hmNodes m).map (fun n => n.data.name)) :
    (hm_lookup m (zprobe name) zsame).2.1 = none := by
  apply hm_lookup_none m _ zsame hwf
  intro x hx hmatch
  apply habs
  have hxn : x.data.name = name := by
    simpa [zsame, zprobe] using hmatch.2
  rw [← hxn]
  exact List.mem_map_of_mem _ hx

theorem z_delete_found (m : HMap ZData) (hwf : HMapWF m)
    (hhc : ∀ x ∈ hmNodes m, x.hcode = str_hash x.data.name)
    (hnd : ((hmNodes m).map (fun n => n.data.name)).Nodup)
    (n : HNode ZData) (hmem : n ∈ hmNodes m) :
    HMapWF (hm_delete m (zprobe n.data.name) zsame).1 ∧
    List.Perm (hmNodes m)
      (n :: hmNodes (hm_delete m (zprobe n.data.name) zsame).1) := by
  obtain ⟨h1, _, h3⟩ := hm_delete_found m (zprobe n.data.name) zsame n hwf
    hmem (by simpa [zprobe] using hhc n hmem) (by simp [zsame, zprobe])
    (z_unique m hnd n hmem)
  exact ⟨h1, h3⟩

theorem htNodes_length (ht : HTab α) (hwf : HTabWF ht) :
    (htNodes ht).length = ht.size := by
  rcases htab : ht.tab with _ | bs
  · rw [HTabWF, htab] at hwf
    rw [htNodes, htab]
    simp [hwf]
  · rw [HTabWF, htab] at hwf
    rw [htNodes, htab]
    simp only [Option.getD_some]
    rw [List.length_flatten]
    exact hwf.2.2.symm

theorem tree_insert_spec (root : AvlT (Int × ByteStr)) (id : Nat)
    (key : Int × ByteStr)
    (hw : HCB root) (hsort : SortedLt zless (inorderKeys root))
    (habs : ∀ x ∈ inorderKeys root, x ≠ key) :
    HCB (tree_insert root id key) ∧
    SortedLt zless (inorderKeys (tree_insert root id key)) ∧
    ∃ A B, inorderP root = A ++ B ∧
      inorderP (tree_insert root id key) = A ++ (id, key) :: B := by
  have hcmp : ∀ x ∈ inorderKeys root,
      zless x key = true ∨ zless key x = true := by
    intro x hx
    rcases zless_total x key with heq | h | h
    · exact absurd heq (habs x hx)
    · exact Or.inl h
    · exact Or.inr h
  obtain ⟨h1, h2, A, B, h3, h4, _, _⟩ :=
    avl_search_and_insert_wf zless zless_trans root id key hw hsort hcmp
  exact ⟨h1, h2, A, B, h3, h4⟩

theorem tree_detach_spec (root : AvlT (Int × ByteStr)) (id : Nat)
    (hw : HCB root) (hids : (inorderIds root).Nodup)
    (hmem : id ∈ inorderIds root) :
    ∃ (pre post : List (Nat × (Int × ByteStr))) (k0 : Int × ByteStr),
      inorderP root = pre ++ (id, k0) :: post ∧
      inorderP (tree_detach root id) = pre ++ post ∧
      HCB (tree_detach root id) := by
  obtain ⟨p, hp⟩ := Option.isSome_iff_exists.1 (findId_isSome root id hmem)
  obtain ⟨l2, k2, r2, h2, c2, ctx, hz⟩ := findId_zipper root id p hp []
  obtain ⟨hwd, pre, post, hteq, hdeq⟩ :=
    avl_del_spec root p hw hids _ ctx l2 r2 id k2 h2 c2 hz rfl
  have htd : tree_detach root id = avl_del root p := by
    rw [tree_detach, hp]
  rw [htd]
  exact ⟨pre, post, k2, hteq, hdeq, hwd⟩

theorem zhash_transport (m m2 : HMap ZData)
    (hhc : ∀ x ∈ hmNodes m, x.hcode = str_hash x.data.name)
    (hnd : ((hmNodes m).map (fun n => n.data.name)).Nodup)
    (hperm : List.Perm (hmNodes m2) (hmNodes m)) :
    (∀ x ∈ hmNodes m2, x.hcode = str_hash x.data.name) ∧
    ((hmNodes m2).map (fun n => n.data.name)).Nodup ∧
    List.Perm ((hmNodes m2).map (fun n => (n.data.id, n.data.name)))
      ((hmNodes m).map (fun n => (n.data.id, n.data.name))) :=
  ⟨fun x hx => hhc x (hperm.mem_iff.mp hx),
   ((hperm.map _).nodup_iff).mpr hnd,
   hperm.map _⟩

theorem perm_middle_cons_inv (X Y C : List β) (x : β)
    (h : List.Perm (X ++ x :: Y) (x :: C)) : List.Perm (X ++ Y) C :=
  (List.perm_middle.symm.trans h).cons_inv

theorem zsync_node_in_tree (root : AvlT (Int × ByteStr)) (m : HMap ZData)
    (hids : (inorderIds root).Nodup)
    (hperm : List.Perm ((inorderP root).map (fun q => (q.1, q.2.2)))
      ((hmNodes m).map (fun n => (n.data.id, n.data.name))))
    (n0 : HNode ZData) (hmem : n0 ∈ hmNodes m) :
    n0.data.id ∈ inorderIds root ∧
    ∀ q ∈ inorderP root, q.1 = n0.data.id → q.2.2 = n0.data.name := by
  have hp0 : ((n0.data.id, n0.data.name) : Nat × ByteStr)
      ∈ (inorderP root).map (fun q => (q.1, q.2.2)) :=
    hperm.mem_iff.mpr (List.mem_map_of_mem _ hmem)
  obtain ⟨q0, hq0, hq0e⟩ := List.mem_map.1 hp0
  have hidsP : ((inorderP root).map Prod.fst).Nodup := by
    rw [← inorderIds_eq_P]
    exact hids
  constructor
  · rw [inorderIds_eq_P]
    have hfst : q0.1 = n0.data.id := congrArg Prod.fst hq0e
    rw [← hfst]
    exact List.mem_map_of_mem _ hq0
  · intro q hq hqid
    have hqq0 : q = q0 := by
      refine List.inj_on_of_nodup_map hidsP hq hq0 ?_
      rw [hqid]
      exact (congrArg Prod.fst hq0e).symm
    rw [hqq0]
    exact congrArg Prod.snd hq0e

theorem tree_names_nodup (root : AvlT (Int × ByteStr)) (m : HMap ZData)
    (hnd : ((hmNodes m).map (fun n => n.data.name)).Nodup)
    (hperm : List.Perm ((inorderP root).map (fun q => (q.1, q.2.2)))
      ((hmNodes m).map (fun n => (n.data.id, n.data.name)))) :
    ((inorderP root).map (fun q => q.2.2)).Nodup := by
  have h1 := hperm.map Prod.snd
  rw [List.map_map, List.map_map] at h1
  exact (h1.nodup_iff).mpr hnd

theorem zset_new_core (root : AvlT (Int × ByteStr)) (m : HMap ZData)
    (nf : Nat) (name : ByteStr) (score : Int)
    (hw : HCB root) (hsort : SortedLt zless (inorderKeys root))
    (hids : (inorderIds root).Nodup)
    (hmwf : HMapWF m)
    (hhc : ∀ x ∈ hmNodes m, x.hcode = str_hash x.data.name)
    (hnd : ((hmNodes m).map (fun n => n.data.name)).Nodup)
    (hperm : List.Perm ((inorderP root).map (fun q => (q.1, q.2.2)))
      ((hmNodes m).map (fun n => (n.data.id, n.data.name))))
    (hbound : ∀ i ∈ inorderIds root, i < nf)
    (habs : name ∉ (hmNodes m).map (fun n => n.data.name)) :
    ZInv ⟨tree_insert root nf (score, name),
      (hm_insert m ⟨str_hash name, ⟨name, nf⟩⟩).1⟩ (nf + 1) := by
  have htreenames : ∀ q ∈ inorderP root, q.2.2 ≠ name := by
    intro q hq heq
    apply habs
    have hmm : ((q.1, q.2.2) : Nat × ByteStr)
        ∈ (hmNodes m).map (fun n => (n.data.id, n.data.name)) :=
      hperm.mem_iff.mp (List.mem_map_of_mem _ hq)
    obtain ⟨n2, hn2, he⟩ := List.mem_map.1 hmm
    have hn2n : n2.data.name = name := by
      rw [← heq]
      exact congrArg Prod.snd he
    rw [← hn2n]
    exact List.mem_map_of_mem _ hn2
  have habs2 : ∀ x ∈ inorderKeys root, x ≠ (score, name) := by
    intro x hx heq
    rw [inorderKeys_eq_P] at hx
    obtain ⟨q, hq, hqx⟩ := List.mem_map.1 hx
    refine htreenames q hq ?_
    show q.2.2 = name
    rw [show q.2 = x from hqx, heq]
  obtain ⟨hw2, hsort2, A, B, hAB, hres⟩ :=
    tree_insert_spec root nf (score, name) hw hsort habs2
  obtain ⟨hmwf2, hpermins⟩ := hm_insert_spec m ⟨str_hash name, ⟨name, nf⟩⟩ hmwf
  have hABids : (A ++ B).map Prod.fst = inorderIds root := by
    rw [← hAB, ← inorderIds_eq_P]
  refine ⟨⟨hw2, hsort2, ?_, hmwf2, ?_, ?_, ?_⟩, ?_⟩
  · show (inorderIds (tree_insert root nf (score, name))).Nodup
    rw [inorderIds_eq_P, hres, List.map_append, List.map_cons]
    show ((A.map Prod.fst) ++ nf :: (B.map Prod.fst)).Nodup
    refine List.nodup_middle.2 (List.nodup_cons.2 ⟨?_, ?_⟩)
    · rw [← List.map_append, hABids]
      intro hmem2
      exact absurd (hbound nf hmem2) (by omega)
    · rw [← List.map_append, hABids]
      exact hids
  · intro n hn
    rcases List.mem_cons.1 (hpermins.mem_iff.mp hn) with rfl | hmem2
    · rfl
    · exact hhc n hmem2
  · have hp2 := hpermins.map (fun n => n.data.name)
    rw [(hp2.nodup_iff)]
    exact List.Nodup.cons habs hnd
  · show List.Perm
      ((inorderP (tree_insert root nf (score, name))).map
        (fun q => (q.1, q.2.2))) _
    rw [hres, List.map_append, List.map_cons]
    refine List.Perm.trans List.perm_middle ?_
    show List.Perm ((nf, name) :: (A.map _ ++ B.map _)) _
    rw [← List.map_append, ← hAB]
    refine List.Perm.trans (List.Perm.cons _ hperm) ?_
    exact (hpermins.map (fun n => (n.data.id, n.data.name))).symm
  · intro i hi
    rw [inorderIds_eq_P, hres, List.map_append, List.map_cons] at hi
    rcases List.mem_append.1 hi with hiA | hiB
    · have : i ∈ (A ++ B).map Prod.fst := by
        rw [List.map_append]
        exact List.mem_append_left _ hiA
      rw [hABids] at this
      exact Nat.lt_succ_of_lt (hbound i this)
    · rcases List.mem_cons.1 hiB with rfl | hiB2
      · omega
      · have : i ∈ (A ++ B).map Prod.fst := by
          rw [List.map_append]
          exact List.mem_append_right _ hiB2
        rw [hABids] at this
        exact Nat.lt_succ_of_lt (hbound i this)

theorem zset_detach_facts (root : AvlT (Int × ByteStr)) (m : HMap ZData)
    (n0 : HNode ZData)
    (hw : HCB root) (hsort : SortedLt zless (inorderKeys root))
    (hids : (inorderIds root).Nodup)
    (hnd : ((hmNodes m).map (fun n => n.data.name)).Nodup)
    (hperm : List.Perm ((inorderP root).map (fun q => (q.1, q.2.2)))
      ((hmNodes m).map (fun n => (n.data.id, n.data.name))))
    (hmem : n0 ∈ hmNodes m) :
    ∃ (pre post : List (Nat × (Int × ByteStr))),
      inorderP (tree_detach root n0.data.id) = pre ++ post ∧
      HCB (tree_detach root n0.data.id) ∧
      SortedLt zless (inorderKeys (tree_detach root n0.data.id)) ∧
      (inorderIds (tree_detach root n0.data.id)).Nodup ∧
      (inorderP root).map (fun q => (q.1, q.2.2))
        = pre.map (fun q => (q.1, q.2.2))
          ++ ((n0.data.id, n0.data.name) : Nat × ByteStr)
            :: post.map (fun q => (q.1, q.2.2)) ∧
      (∀ q ∈ pre ++ post, q.2.2 ≠ n0.data.name) ∧
      (∀ i ∈ (pre ++ post).map Prod.fst, i ∈ inorderIds root) ∧
      n0.data.id ∉ (pre ++ post).map Prod.fst ∧
      n0.data.id ∈ inorderIds root := by
  obtain ⟨hidmem, hname⟩ := zsync_node_in_tree root m hids hperm n0 hmem
  obtain ⟨pre, post, k0, hteq, hdeq, hwd⟩ :=
    tree_detach_spec root n0.data.id hw hids hidmem
  have hk0 : k0.2 = n0.data.name :=
    hname (n0.data.id, k0)
      (by rw [hteq]; exact List.mem_append_right _ (List.mem_cons_self _ _))
      rfl
  have hsub : List.Sublist (pre ++ post) (inorderP root) := by
    rw [hteq]
    exact List.Sublist.append_left (List.sublist_cons_self _ _) _
  have hsortd : SortedLt zless
      (inorderKeys (tree_detach root n0.data.id)) := by
    rw [inorderKeys_eq_P, hdeq]
    refine List.Pairwise.sublist (hsub.map _) ?_
    rw [← inorderKeys_eq_P]
    exact hsort
  have hidsd : (inorderIds (tree_detach root n0.data.id)).Nodup := by
    rw [inorderIds_eq_P, hdeq]
    refine List.Nodup.sublist (hsub.map _) ?_
    rw [← inorderIds_eq_P]
    exact hids
  have htm : (inorderP root).map (fun q => (q.1, q.2.2))
      = pre.map (fun q => (q.1, q.2.2))
        ++ ((n0.data.id, n0.data.name) : Nat × ByteStr)
          :: post.map (fun q => (q.1, q.2.2)) := by
    rw [hteq]
    simp [hk0]
  have hnames0 : (inorderP root).map (fun q => q.2.2)
      = pre.map (fun q => q.2.2) ++ k0.2 :: post.map (fun q => q.2.2) := by
    rw [hteq]
    simp
  have htn := tree_names_nodup root m hnd hperm
  rw [hnames0] at htn
  have hnotname := (List.nodup_cons.1 (List.nodup_middle.1 htn)).1
  have hfresh : ∀ q ∈ pre ++ post, q.2.2 ≠ n0.data.name := by
    intro q hq heq
    apply hnotname
    rw [hk0, ← heq]
    rw [← List.map_append]
    exact List.mem_map_of_mem _ hq
  have hidseq : inorderIds root
      = pre.map Prod.fst ++ n0.data.id :: post.map Prod.fst := by
    rw [inorderIds_eq_P, hteq]
    simp
  have hidsroot := hids
  rw [hidseq] at hidsroot
  have hidnot := (List.nodup_cons.1 (List.nodup_middle.1 hidsroot)).1
  refine ⟨pre, post, hdeq, hwd, hsortd, hidsd, htm, hfresh, ?_, ?_, hidmem⟩
  · intro i hi
    rw [hidseq]
    rw [List.map_append] at hi
    rcases List.mem_append.1 hi with h | h
    · exact List.mem_append_left _ h
    · exact List.mem_append_right _ (List.mem_cons_of_mem _ h)
  · intro hmem2
    apply hidnot
    rw [← List.map_append]
    exact hmem2

theorem zset_update_core (root : AvlT (Int × ByteStr)) (m : HMap ZData)
    (nf : Nat) (n0 : HNode ZData) (score : Int)
    (hw : HCB root) (hsort : SortedLt zless (inorderKeys root))
    (hids : (inorderIds root).Nodup)
    (hmwf : HMapWF m)
    (hhc : ∀ x ∈ hmNodes m, x.hcode = str_hash x.data.name)
    (hnd : ((hmNodes m).map (fun n => n.data.name)).Nodup)
    (hperm : List.Perm ((inorderP root).map (fun q => (q.1, q.2.2)))
      ((hmNodes m).map (fun n => (n.data.id, n.data.name))))
    (hbound : ∀ i ∈ inorderIds root, i < nf)
    (hmem : n0 ∈ hmNodes m) :
    ZInv ⟨tree_insert (tree_detach root n0.data.id) n0.data.id
      (score, n0.data.name), m⟩ nf := by
  obtain ⟨pre, post, hdeq, hwd, hsortd, hidsd, htm, hfresh, hsubids,
    hidnot, hidmem⟩ := zset_detach_facts root m n0 hw hsort hids hnd
      hperm hmem
  have habs2 : ∀ x ∈ inorderKeys (tree_detach root n0.data.id),
      x ≠ (score, n0.data.name) := by
    intro x hx heq
    rw [inorderKeys_eq_P, hdeq] at hx
    obtain ⟨q, hq, hqx⟩ := List.mem_map.1 hx
    refine hfresh q hq ?_
    show q.2.2 = _
    rw [show q.2 = x from hqx, heq]
  obtain ⟨hw2, hsort2, A, B, hAB, hres⟩ :=
    tree_insert_spec _ n0.data.id (score, n0.data.name) hwd hsortd habs2
  have hABeq : A ++ B = pre ++ post := hAB.symm.trans hdeq
  have hidsdef : (inorderIds (tree_detach root n0.data.id))
      = (pre ++ post).map Prod.fst := by
    rw [inorderIds_eq_P, hdeq]
  refine ⟨⟨hw2, hsort2, ?_, hmwf, hhc, hnd, ?_⟩, ?_⟩
  · rw [inorderIds_eq_P, hres, List.map_append, List.map_cons]
    show ((A.map Prod.fst) ++ n0.data.id :: (B.map Prod.fst)).Nodup
    refine List.nodup_middle.2 (List.nodup_cons.2 ⟨?_, ?_⟩)
    · rw [← List.map_append, hABeq]
      exact hidnot
    · rw [← List.map_append, hABeq]
      rw [hidsdef] at hidsd
      exact hidsd
  · show List.Perm ((inorderP (tree_insert (tree_detach root n0.data.id)
        n0.data.id (score, n0.data.name))).map (fun q => (q.1, q.2.2))) _
    rw [hres, List.map_append, List.map_cons]
    show List.Perm ((A.map (fun q => (q.1, q.2.2)))
      ++ ((n0.data.id, n0.data.name) : Nat × ByteStr)
        :: (B.map (fun q => (q.1, q.2.2)))) _
    refine List.Perm.trans List.perm_middle ?_
    rw [← List.map_append, hABeq]
    refine List.Perm.trans ?_ hperm
    rw [htm, List.map_append]
    exact List.perm_middle.symm
  · intro i hi
    rw [inorderIds_eq_P, hres, List.map_append, List.map_cons] at hi
    have hi2 : i ∈ (A.map Prod.fst) ++ n0.data.id :: (B.map Prod.fst) := hi
    rcases List.mem_append.1 hi2 with h | h
    · refine hbound i (hsubids i ?_)
      rw [← hABeq, List.map_append]
      exact List.mem_append_left _ h
    · rcases List.mem_cons.1 h with rfl | h2
      · exact hbound _ hidmem
      · refine hbound i (hsubids i ?_)
        rw [← hABeq, List.map_append]
        exact List.mem_append_right _ h2

theorem zset_delete_core (root : AvlT (Int × ByteStr)) (m : HMap ZData)
    (nf : Nat) (n0 : HNode ZData)
    (hw : HCB root) (hsort : SortedLt zless (inorderKeys root))
    (hids : (inorderIds root).Nodup)
    (hmwf : HMapWF m)
    (hhc : ∀ x ∈ hmNodes m, x.hcode = str_hash x.data.name)
    (hnd : ((hmNodes m).map (fun n => n.data.name)).Nodup)
    (hperm : List.Perm ((inorderP root).map (fun q => (q.1, q.2.2)))
      ((hmNodes m).map (fun n => (n.data.id, n.data.name))))
    (hbound : ∀ i ∈ inorderIds root, i < nf)
    (hmem : n0 ∈ hmNodes m) :
    ZInv ⟨tree_detach root n0.data.id,
      (hm_delete m (zprobe n0.data.name) zsame).1⟩ nf := by
  obtain ⟨pre, post, hdeq, hwd, hsortd, hidsd, htm, hfresh, hsubids,
    hidnot, hidmem⟩ := zset_detach_facts root m n0 hw hsort hids hnd
      hperm hmem
  obtain ⟨hmwf2, hpermd⟩ := z_delete_found m hmwf hhc hnd n0 hmem
  refine ⟨⟨hwd, hsortd, hidsd, hmwf2, ?_, ?_, ?_⟩, ?_⟩
  · intro x hx
    exact hhc x (hpermd.mem_iff.mpr (List.mem_cons_of_mem _ hx))
  · have hn2 := ((hpermd.map (fun n => n.data.name)).nodup_iff).mp hnd
    exact hn2.of_cons
  · rw [hdeq, List.map_append]
    have h1 := hpermd.map (fun n => (n.data.id, n.data.name))
    have h2 : List.Perm (pre.map (fun q => (q.1, q.2.2))
        ++ ((n0.data.id, n0.data.name) : Nat × ByteStr)
          :: post.map (fun q => (q.1, q.2.2)))
        (((n0.data.id, n0.data.name) : Nat × ByteStr)
          :: (hmNodes (hm_delete m (zprobe n0.data.name) zsame).1).map
            (fun n => (n.data.id, n.data.name))) := by
      rw [← htm]
      exact hperm.trans h1
    exact perm_middle_cons_inv _ _ _ _ h2
  · intro i hi
    rw [inorderIds_eq_P, hdeq] at hi
    exact hbound i (hsubids i hi)

theorem zsApply_inv (zs : ZSet) (nf : Nat) (op : ZOp)
    (hinv : ZInv zs nf) :
    ZInv (zsApply zs nf op).1 (zsApply zs nf op).2 := by
  obtain ⟨zroot, zmap⟩ := zs
  obtain ⟨⟨hw, hsort, hids, hmwf, hhc, hnd, hperm⟩, hbound⟩ := hinv
  rcases op with ⟨name, score⟩ | ⟨name⟩
  · rcases zroot with _ | ⟨l, i, k, r, h, c⟩
    · have hmn : hmNodes zmap = [] := by
        have h0 := hperm.symm.eq_nil
        rw [List.map_eq_nil] at h0
        simpa using h0
      have habs : name ∉ (hmNodes zmap).map (fun n => n.data.name) := by
        rw [hmn]
        exact List.not_mem_nil name
      have hcore := zset_new_core AvlT.nil zmap nf name score hw hsort
        hids hmwf hhc hnd hperm hbound habs
      exact hcore
    · have hstate := hm_lookup_state zmap (zprobe name) zsame hmwf
      obtain ⟨hmwf1, hpermst⟩ := hstate
      obtain ⟨hhc1, hnd1, hpairs⟩ :=
        zhash_transport zmap _ hhc hnd hpermst
      have hperm1 : List.Perm
          ((inorderP (AvlT.node l i k r h c)).map (fun q => (q.1, q.2.2)))
          ((hmNodes (hm_lookup zmap (zprobe name) zsame).1).map
            (fun n => (n.data.id, n.data.name))) :=
        hperm.trans hpairs.symm
      by_cases hpres : name ∈ (hmNodes zmap).map (fun n => n.data.name)
      · obtain ⟨n0, hn0mem, hn0name⟩ := List.mem_map.1 hpres
        have hfind : (hm_lookup zmap (zprobe name) zsame).2.1
            = some n0 := by
          rw [← hn0name]
          exact z_lookup_finds zmap hmwf hhc hnd n0 hn0mem
        have hlk : zset_lookup ⟨AvlT.node l i k r h c, zmap⟩ name
            = (⟨AvlT.node l i k r h c,
                (hm_lookup zmap (zprobe name) zsame).1⟩, some n0) := by
          show ((⟨AvlT.node l i k r h c,
            (hm_lookup zmap (zprobe name) zsame).1⟩ : ZSet),
            (hm_lookup zmap (zprobe name) zsame).2.1) = _
          rw [hfind]
        have hmem1 : n0 ∈ hmNodes (hm_lookup zmap (zprobe name)
            zsame).1 := hpermst.mem_iff.mpr hn0mem
        have hbound1 : ∀ j ∈ inorderIds (AvlT.node l i k r h c),
            j < nf + 1 := fun j hj => Nat.lt_succ_of_lt (hbound j hj)
        have hcore := zset_update_core (AvlT.node l i k r h c) _ (nf + 1)
          n0 score hw hsort hids hmwf1 hhc1 hnd1 hperm1 hbound1 hmem1
        show ZInv (zset_insert ⟨AvlT.node l i k r h c, zmap⟩
          name score nf).1 (nf + 1)
        rw [zset_insert.eq_def, hlk]
        exact hcore
      · have hfind : (hm_lookup zmap (zprobe name) zsame).2.1
            = none := z_lookup_absent zmap hmwf name hpres
        have hlk : zset_lookup ⟨AvlT.node l i k r h c, zmap⟩ name
            = (⟨AvlT.node l i k r h c,
                (hm_lookup zmap (zprobe name) zsame).1⟩, none) := by
          show ((⟨AvlT.node l i k r h c,
            (hm_lookup zmap (zprobe name) zsame).1⟩ : ZSet),
            (hm_lookup zmap (zprobe name) zsame).2.1) = _
          rw [hfind]
        have habs1 : name ∉ (hmNodes (hm_lookup zmap (zprobe name)
            zsame).1).map (fun n => n.data.name) := by
          intro hmem2
          exact hpres ((hpermst.map (fun n => n.data.name)).mem_iff.mp
            hmem2)
        have hcore := zset_new_core (AvlT.node l i k r h c) _ nf name
          score hw hsort hids hmwf1 hhc1 hnd1 hperm1 hbound habs1
        show ZInv (zset_insert ⟨AvlT.node l i k r h c, zmap⟩
          name score nf).1 (nf + 1)
        rw [zset_insert.eq_def, hlk]
        exact hcore
  · rcases zroot with _ | ⟨l, i, k, r, h, c⟩
    · exact ⟨⟨hw, hsort, hids, hmwf, hhc, hnd, hperm⟩, hbound⟩
    · have hstate := hm_lookup_state zmap (zprobe name) zsame hmwf
      obtain ⟨hmwf1, hpermst⟩ := hstate
      obtain ⟨hhc1, hnd1, hpairs⟩ :=
        zhash_transport zmap _ hhc hnd hpermst
      have hperm1 : List.Perm
          ((inorderP (AvlT.node l i k r h c)).map (fun q => (q.1, q.2.2)))
          ((hmNodes (hm_lookup zmap (zprobe name) zsame).1).map
            (fun n => (n.data.id, n.data.name))) :=
        hperm.trans hpairs.symm
      by_cases hpres : name ∈ (hmNodes zmap).map (fun n => n.data.name)
      · obtain ⟨n0, hn0mem, hn0name⟩ := List.mem_map.1 hpres
        have hfind : (hm_lookup zmap (zprobe name) zsame).2.1
            = some n0 := by
          rw [← hn0name]
          exact z_lookup_finds zmap hmwf hhc hnd n0 hn0mem
        have hlk : zset_lookup ⟨AvlT.node l i k r h c, zmap⟩ name
            = (⟨AvlT.node l i k r h c,
                (hm_lookup zmap (zprobe name) zsame).1⟩, some n0) := by
          show ((⟨AvlT.node l i k r h c,
            (hm_lookup zmap (zprobe name) zsame).1⟩ : ZSet),
            (hm_lookup zmap (zprobe name) zsame).2.1) = _
          rw [hfind]
        have hmem1 : n0 ∈ hmNodes (hm_lookup zmap (zprobe name)
            zsame).1 := hpermst.mem_iff.mpr hn0mem
        have hcore := zset_delete_core (AvlT.node l i k r h c) _ nf n0
          hw hsort hids hmwf1 hhc1 hnd1 hperm1 hbound hmem1
        simp only [zsApply]
        rw [hlk]
        exact hcore
      · have hfind : (hm_lookup zmap (zprobe name) zsame).2.1
            = none := z_lookup_absent zmap hmwf name hpres
        have hlk : zset_lookup ⟨AvlT.node l i k r h c, zmap⟩ name
            = (⟨AvlT.node l i k r h c,
                (hm_lookup zmap (zprobe name) zsame).1⟩, none) := by
          show ((⟨AvlT.node l i k r h c,
            (hm_lookup zmap (zprobe name) zsame).1⟩ : ZSet),
            (hm_lookup zmap (zprobe name) zsame).2.1) = _
          rw [hfind]
        simp only [zsApply]
        rw [hlk]
        exact ⟨⟨hw, hsort, hids, hmwf1, hhc1, hnd1, hperm1⟩, hbound⟩

theorem ZInv_init : ZInv zset_init 0 := by
  refine ⟨⟨⟨trivial, trivial, trivial⟩, List.Pairwise.nil,
    List.nodup_nil, hm_init_wf, ?_, ?_, ?_⟩, ?_⟩
  · intro x hx
    rw [show hmNodes zset_init.hmap = [] from hmNodes_init] at hx
    exact absurd hx (List.not_mem_nil x)
  · rw [show hmNodes zset_init.hmap = [] from hmNodes_init]
    exact List.nodup_nil
  · rw [show hmNodes zset_init.hmap = [] from hmNodes_init]
    exact List.Perm.refl _
  · intro j hj
    exact absurd hj (List.not_mem_nil j)

theorem zsRun_inv (ops : List ZOp) : ∀ (zs : ZSet) (nf : Nat),
    ZInv zs nf → ZInv (zsRun zs nf ops).1 (zsRun zs nf ops).2 := by
  induction ops with
  | nil => intro zs nf hinv; exact hinv
  | cons op ops ih =>
    intro zs nf hinv
    exact ih _ _ (zsApply_inv zs nf op hinv)

/-- After every `zset_insert` (both the new-name path and the
existing-name score-update path) and every `zset_delete` — that is, after
any sequence of these operations starting from the empty sorted set — the
AVL tree and the name-keyed hash index contain exactly the same `ZNode`s:
the tree node count equals the hash map's total size, every hash entry has
a corresponding tree node with the same name (and the same node identity),
and vice versa, with the in-order key sequence strictly increasing under
`zless`, i.e. ordered lexicographically on (score, name). -/
theorem zset_tree_hash_sync (ops : List ZOp) :
    avl_cnt (zsRun zset_init 0 ops).1.root
      = (zsRun zset_init 0 ops).1.hmap.newer.size
        + (zsRun zset_init 0 ops).1.hmap.older.size ∧
    (∀ n ∈ hmNodes (zsRun zset_init 0 ops).1.hmap,
      ∃ q ∈ inorderP (zsRun zset_init 0 ops).1.root,
        q.1 = n.data.id ∧ q.2.2 = n.data.name) ∧
    (∀ q ∈ inorderP (zsRun zset_init 0 ops).1.root,
      ∃ n ∈ hmNodes (zsRun zset_init 0 ops).1.hmap,
        n.data.id = q.1 ∧ n.data.name = q.2.2) ∧
    SortedLt zless (inorderKeys (zsRun zset_init 0 ops).1.root) := by
  obtain ⟨⟨hw, hsort, hids, hmwf, hhc, hnd, hperm⟩, hbound⟩ :=
    zsRun_inv ops zset_init 0 ZInv_init
  set zs := (zsRun zset_init 0 ops).1
  refine ⟨?_, ?_, ?_, hsort⟩
  · have h1 : avl_cnt zs.root = (inorderP zs.root).length :=
      avl_cnt_eq_lengthP zs.root hw.2.1
    have h2 := hperm.length_eq
    rw [List.length_map, List.length_map] at h2
    have h3 : (hmNodes zs.hmap).length
        = zs.hmap.newer.size + zs.hmap.older.size := by
      rw [hmNodes, List.length_append,
        htNodes_length _ hmwf.1, htNodes_length _ hmwf.2.1]
    rw [h1, h2, h3]
  · intro n hn
    have hp : ((n.data.id, n.data.name) : Nat × ByteStr)
        ∈ (inorderP zs.root).map (fun q => (q.1, q.2.2)) :=
      hperm.mem_iff.mpr (List.mem_map_of_mem _ hn)
    obtain ⟨q, hq, hqe⟩ := List.mem_map.1 hp
    exact ⟨q, hq, congrArg Prod.fst hqe, congrArg Prod.snd hqe⟩
  · intro q hq
    have hp : ((q.1, q.2.2) : Nat × ByteStr)
        ∈ (hmNodes zs.hmap).map (fun n => (n.data.id, n.data.name)) :=
      hperm.mem_iff.mp (List.mem_map_of_mem _ hq)
    obtain ⟨n, hn, hne⟩ := List.mem_map.1 hp
    exact ⟨n, hn, congrArg Prod.fst hne, congrArg Prod.snd hne⟩

end KV











